import Mathlib

/-!
# Grammar2CNF: a shallow embedding of `Grammar2CNF.cc`

The C++ class `Grammar` (file `pract8_modif/Grammar2CNF.cc`) is embedded as a
record and its member functions as functions on that record.

* a `std::string` is the list of its characters (`Str`), a `char` is a `Char`;
  `std::isupper`, `std::iscntrl` and `std::isspace` are those of the "C" locale;
* `std::set<char>` and `std::set<std::string>` are strictly increasing lists,
  `insert` being the ordered insertion that ignores a member;
* `std::map<char, std::string>` is an association list, read with `lookup`;
* a function that throws returns `Except Error _`; a loop whose termination
  is not structural takes fuel and returns `none` when it runs out, as does
  an index out of bounds;
* a text file is the list of its characters.
-/

namespace Grammar2CNF

/-- A `std::string`. -/
abbrev Str := List Char

/-- The `std::isupper` of the "C" locale. -/
def isupper (c : Char) : Bool := decide (65 ≤ c.toNat) && decide (c.toNat ≤ 90)

/-- The `std::iscntrl` of the "C" locale. -/
def iscntrl (c : Char) : Bool := decide (c.toNat < 32) || decide (c.toNat = 127)

/-- The `std::isspace` of the "C" locale: space, `\t`, `\n`, `\v`, `\f`, `\r`. -/
def isspace (c : Char) : Bool :=
  decide (c.toNat = 32) || (decide (9 ≤ c.toNat) && decide (c.toNat ≤ 13))

/-- The digits `0` to `9`. -/
def isdigit (c : Char) : Bool := decide (48 ≤ c.toNat) && decide (c.toNat ≤ 57)

/-- The decimal text of `std::to_string` and of `operator<<` on a non-negative integer. -/
def to_string (n : Nat) : Str := Nat.toDigits 10 n

/-- The test `std::isupper(tok[0])` guarded by `!tok.empty()`. -/
def startsUpper : Str → Bool
  | [] => false
  | c :: _ => isupper c

/-- The test `tok.size() == 1 && !std::isupper(tok[0])` of the first loop of `TransformToCNF`. -/
def isTerminalTok : Str → Bool
  | [c] => !isupper c
  | _ => false

/-- The `insert` of a `std::set`: the ordered insertion into a strictly increasing list;
a member is not inserted again. -/
def set_insert {α : Type} [LT α] [DecidableEq α] [∀ a b : α, Decidable (a < b)]
    (x : α) : List α → List α
  | [] => [x]
  | y :: ys =>
    if x < y then x :: y :: ys
    else if x = y then y :: ys
    else y :: set_insert x ys

/-- A production: `lhs` and the tokens of `rhs`. -/
structure Production where
  lhs : Str
  rhs : List Str
deriving DecidableEq, Repr

/-- The data members of the class `Grammar`. -/
structure Grammar where
  terminals_ : List Char
  nonterminals_ : List Str
  start_symbol_ : Str
  productions_ : List Production
  counter_d_ : Nat
  terminal_to_nt_ : List (Char × Str)
deriving DecidableEq, Repr

/-- The places where the code throws a `std::runtime_error`. -/
inductive Error where
  | numberExpected
  | eofReadingNumber
  | missingTerminals
  | terminalNotOneChar
  | missingNonTerminals
  | noNonTerminals
  | missingProductions
  | productionWithoutLhs
  | productionWithoutRhs
  | controlTerminal
  | nonTerminalNotUpperLetter
  | lhsNotDeclared
  | emptyToken
  | rhsNonTerminalNotDeclared
  | rhsTerminalNotOneChar
  | rhsTerminalNotDeclared
  | emptyProduction
  | unitProduction
deriving DecidableEq, Repr

/-- The grammar built by the constructor and by the reset at the start of `ReadFromFile`. -/
def Grammar.empty : Grammar :=
  { terminals_ := [], nonterminals_ := [], start_symbol_ := [], productions_ := [],
    counter_d_ := 0, terminal_to_nt_ := [] }

/-! ## Reading -/

/-- The characters `" \t\r\n"` that `TrimString` removes. -/
def isTrimChar (c : Char) : Bool :=
  decide (c = ' ') || decide (c = '\t') || decide (c = '\r') || decide (c = '\n')

/-- `TrimString`: the string without the trim characters at its two ends. -/
def TrimString (s : Str) : Str :=
  (s.dropWhile isTrimChar).rdropWhile isTrimChar

/-- The lines that successive calls of `std::getline` return on a text: the pieces between
the `\n`; no line follows a final `\n`, and an empty text has no line. -/
def splitLines : Str → List Str
  | [] => []
  | c :: cs =>
    if c = '\n' then [] :: splitLines cs
    else match splitLines cs with
      | [] => [[c]]
      | l :: ls => (c :: l) :: ls

/-- The value of a run of decimal digits, most significant first. -/
def digitsValue (ds : Str) : Nat :=
  ds.foldl (fun acc c => 10 * acc + (c.toNat - 48)) 0

/-- The extraction `iss >> out` into an `int`: white space is skipped, a sign is optional,
the digits that follow are read; it fails without a digit or outside the range of `int`. -/
def extractInt (s : Str) : Option Int :=
  let s1 := s.dropWhile isspace
  let neg : Bool := match s1 with
    | c :: _ => decide (c = '-')
    | [] => false
  let s2 : Str := match s1 with
    | c :: r => if c = '-' ∨ c = '+' then r else s1
    | [] => s1
  let ds := s2.takeWhile isdigit
  if ds = [] then none
  else
    let v : Int := if neg then - (digitsValue ds : Int) else (digitsValue ds : Int)
    if v < -2147483648 ∨ 2147483647 < v then none else some v

/-- The extraction `iss >> word` into a `std::string`: white space is skipped and the
characters up to the next white space are read; it fails when none is left. The rest of
the stream is returned too. -/
def extractWord (s : Str) : Option (Str × Str) :=
  let s1 := s.dropWhile isspace
  if s1 = [] then none
  else some (s1.takeWhile (fun c => !isspace c), s1.dropWhile (fun c => !isspace c))

/-- The lambda `read_int_line`: the number on the next line that is not blank. -/
def read_int_line : List Str → Except Error (Int × List Str)
  | [] => .error .eofReadingNumber
  | line :: rest =>
    if TrimString line = [] then read_int_line rest
    else match extractInt (TrimString line) with
      | some out => .ok (out, rest)
      | none => .error .numberExpected

/-- The loop that reads the terminals: `n` lines that are not blank, each of one character. -/
def readTerminals : Nat → List Str → List Char → Except Error (List Char × List Str)
  | 0, ls, ts => .ok (ts, ls)
  | _ + 1, [], _ => .error .missingTerminals
  | n + 1, line :: rest, ts =>
    if TrimString line = [] then readTerminals (n + 1) rest ts
    else match TrimString line with
      | [c] => readTerminals n rest (set_insert c ts)
      | _ => .error .terminalNotOneChar

/-- The loop that reads the non-terminals: `n` lines that are not blank; it returns
`nt_list` and the set. -/
def readNonTerminals : Nat → List Str → List Str → List Str →
    Except Error (List Str × List Str × List Str)
  | 0, ls, nt_list, nts => .ok (nt_list, nts, ls)
  | _ + 1, [], _, _ => .error .missingNonTerminals
  | n + 1, line :: rest, nt_list, nts =>
    if TrimString line = [] then readNonTerminals (n + 1) rest nt_list nts
    else readNonTerminals n rest (nt_list ++ [TrimString line]) (set_insert (TrimString line) nts)

/-- The tokens of a right-hand side as read: `&` alone, or one token per character (the
two branches of the source, upper-case or not, push the same one-character token). -/
def tokenizeRhs (rhs_all : Str) : List Str :=
  if rhs_all = ['&'] then [['&']]
  else rhs_all.map (fun c => if isupper c then [c] else [c])

/-- One production line, already trimmed and not blank. -/
def parseProduction (line : Str) : Except Error Production :=
  match extractWord line with
  | none => .error .productionWithoutLhs
  | some (left, rest) =>
    match extractWord rest with
    | none => .error .productionWithoutRhs
    | some (rhs_all, _) => .ok { lhs := left, rhs := tokenizeRhs rhs_all }

/-- The loop that reads the productions: `n` lines that are not blank. -/
def readProductions : Nat → List Str → List Production → Except Error (List Production)
  | 0, _, ps => .ok ps
  | _ + 1, [], _ => .error .missingProductions
  | n + 1, line :: rest, ps =>
    if TrimString line = [] then readProductions (n + 1) rest ps
    else match parseProduction (TrimString line) with
      | .error e => .error e
      | .ok prod => readProductions n rest (ps ++ [prod])

/-- `Grammar::ReadFromFile` on the text of the file (the file could be opened). -/
def ReadFromFile (text : Str) : Except Error Grammar :=
  match read_int_line (splitLines text) with
  | .error e => .error e
  | .ok (n_terms, ls1) =>
    match readTerminals n_terms.toNat ls1 [] with
    | .error e => .error e
    | .ok (terminals, ls2) =>
      match read_int_line ls2 with
      | .error e => .error e
      | .ok (n_nt, ls3) =>
        match readNonTerminals n_nt.toNat ls3 [] [] with
        | .error e => .error e
        | .ok (nt_list, nonterminals, ls4) =>
          match nt_list with
          | [] => .error .noNonTerminals
          | start :: _ =>
            match read_int_line ls4 with
            | .error e => .error e
            | .ok (pcount, ls5) =>
              match readProductions pcount.toNat ls5 [] with
              | .error e => .error e
              | .ok productions =>
                .ok { terminals_ := terminals, nonterminals_ := nonterminals,
                      start_symbol_ := start, productions_ := productions,
                      counter_d_ := 0, terminal_to_nt_ := [] }

/-! ## Writing -/

/-- `Grammar::RhsToString`: the tokens, concatenated. -/
def RhsToString (rhs : List Str) : Str := rhs.flatten

/-- The line that `WriteToFile` writes for a production. -/
def productionLine (p : Production) : Str :=
  p.lhs ++ [' '] ++ (if p.rhs = [['&']] then ['&'] else RhsToString p.rhs) ++ ['\n']

/-- `Grammar::WriteToFile`: the text written (the file could be created). -/
def WriteToFile (g : Grammar) : Str :=
  to_string g.terminals_.length ++ ['\n']
    ++ (g.terminals_.map (fun t => [t, '\n'])).flatten
    ++ to_string g.nonterminals_.length ++ ['\n']
    ++ (g.nonterminals_.map (fun nt => nt ++ ['\n'])).flatten
    ++ to_string g.productions_.length ++ ['\n']
    ++ (g.productions_.map productionLine).flatten

/-! ## Validation -/

/-- The first loop of `ValidateFormat`: no terminal is a control character. -/
def validateTerminals : List Char → Except Error Unit
  | [] => .ok ()
  | t :: ts => if iscntrl t then .error .controlTerminal else validateTerminals ts

/-- The second loop of `ValidateFormat`: each non-terminal is one upper-case letter. -/
def validateNonTerminals : List Str → Except Error Unit
  | [] => .ok ()
  | nt :: nts =>
    if nt.length ≠ 1 ∨ startsUpper nt = false then .error .nonTerminalNotUpperLetter
    else validateNonTerminals nts

/-- The loop over the tokens of a right-hand side in `ValidateFormat`. -/
def validateTokens (g : Grammar) : List Str → Except Error Unit
  | [] => .ok ()
  | tok :: toks =>
    match tok with
    | [] => .error .emptyToken
    | c :: cs =>
      if isupper c then
        if tok ∈ g.nonterminals_ then validateTokens g toks
        else .error .rhsNonTerminalNotDeclared
      else if cs ≠ [] then .error .rhsTerminalNotOneChar
      else if c ∈ g.terminals_ then validateTokens g toks
      else .error .rhsTerminalNotDeclared

/-- The third loop of `ValidateFormat`, over the productions. -/
def validateProductions (g : Grammar) : List Production → Except Error Unit
  | [] => .ok ()
  | p :: ps =>
    if p.lhs ∉ g.nonterminals_ then .error .lhsNotDeclared
    else if p.rhs = [['&']] then validateProductions g ps
    else match validateTokens g p.rhs with
      | .error e => .error e
      | .ok _ => validateProductions g ps

/-- `Grammar::ValidateFormat`. -/
def ValidateFormat (g : Grammar) : Except Error Unit :=
  match validateTerminals g.terminals_ with
  | .error e => .error e
  | .ok _ =>
    match validateNonTerminals g.nonterminals_ with
    | .error e => .error e
    | .ok _ => validateProductions g g.productions_

/-- The first loop of `CheckPreconditions`: no production `A -> &`. -/
def checkEpsilon : List Production → Except Error Unit
  | [] => .ok ()
  | p :: ps => if p.rhs = [['&']] then .error .emptyProduction else checkEpsilon ps

/-- The second loop of `CheckPreconditions`: no production `A -> B`. -/
def checkUnit : List Production → Except Error Unit
  | [] => .ok ()
  | p :: ps =>
    match p.rhs with
    | [tok] => if startsUpper tok then .error .unitProduction else checkUnit ps
    | _ => checkUnit ps

/-- `Grammar::CheckPreconditions`. -/
def CheckPreconditions (g : Grammar) : Except Error Unit :=
  match checkEpsilon g.productions_ with
  | .error e => .error e
  | .ok _ => checkUnit g.productions_

/-! ## Transformation -/

/-- `Grammar::NewD`: the counter is incremented, the name `D<counter>` is inserted among
the non-terminals and returned. -/
def NewD (g : Grammar) : Str × Grammar :=
  let name : Str := 'D' :: to_string (g.counter_d_ + 1)
  (name, { g with counter_d_ := g.counter_d_ + 1,
                  nonterminals_ := set_insert name g.nonterminals_ })

/-- The loop `while (nonterminals_.find(candidate) != nonterminals_.end())` of
`TerminalToNonTerminal`, with fuel. -/
def findCandidate (nonterminals : List Str) (name : Str) : Nat → Nat → Str → Option Str
  | 0, _, _ => none
  | fuel + 1, suffix, candidate =>
    if candidate ∈ nonterminals then
      findCandidate nonterminals name fuel (suffix + 1) (name ++ to_string suffix)
    else some candidate

/-- `Grammar::TerminalToNonTerminal`: the auxiliary non-terminal of `t`, created with its
production `name -> t` when `t` has none. The search for a free name gets as much fuel as
there are non-terminals, plus one. -/
def TerminalToNonTerminal (g : Grammar) (t : Char) : Option (Str × Grammar) :=
  match g.terminal_to_nt_.lookup t with
  | some nt => some (nt, g)
  | none =>
    match findCandidate g.nonterminals_ ['C', t] (g.nonterminals_.length + 1) 1 ['C', t] with
    | none => none
    | some name =>
      some (name, { g with nonterminals_ := set_insert name g.nonterminals_,
                           terminal_to_nt_ := g.terminal_to_nt_ ++ [(t, name)],
                           productions_ := g.productions_ ++ [{ lhs := name, rhs := [[t]] }],
                           terminals_ := set_insert t g.terminals_ })

/-- The loop `for (std::string &tok : p.rhs)` of the first loop of `TransformToCNF`: the
tokens after the replacement of the terminals, and the grammar after the calls of
`TerminalToNonTerminal`. -/
def isolateTokens (g : Grammar) : List Str → Option (List Str × Grammar)
  | [] => some ([], g)
  | tok :: toks =>
    match tok with
    | [t] =>
      if isupper t then
        match isolateTokens g toks with
        | none => none
        | some (toks1, g1) => some (tok :: toks1, g1)
      else
        match TerminalToNonTerminal g t with
        | none => none
        | some (nt, g1) =>
          match isolateTokens g1 toks with
          | none => none
          | some (toks1, g2) => some (nt :: toks1, g2)
    | _ =>
      match isolateTokens g toks with
      | none => none
      | some (toks1, g1) => some (tok :: toks1, g1)

/-- The first loop of `TransformToCNF`, from index `i` for `count` more productions: the
right-hand side of `productions_[i]` is rewritten in place when it has two tokens or more.
The source rewrites each token through a reference into `productions_[i].rhs` while
`TerminalToNonTerminal` appends to `productions_`; the productions are moved when the
vector grows, their tokens stay where they are, and the rewritten right-hand side is the
one of `productions_[i]` afterwards, which is what `set i` writes here. -/
def firstLoop : Nat → Nat → Grammar → Option Grammar
  | 0, _, g => some g
  | count + 1, i, g =>
    match g.productions_[i]? with
    | none => none
    | some p =>
      if 2 ≤ p.rhs.length then
        match isolateTokens g p.rhs with
        | none => none
        | some (rhs1, g1) =>
          firstLoop count (i + 1)
            { g1 with productions_ := g1.productions_.set i { lhs := p.lhs, rhs := rhs1 } }
      else firstLoop count (i + 1) g

/-- The loop `for (size_t i = 1; i < m - 2; ++i)` of the second loop of `TransformToCNF`,
from index `i` for `count` more rounds: it returns `prevD`, the grammar and
`new_productions`. -/
def midLoop (rhs : List Str) : Nat → Nat → Str → Grammar → List Production →
    Option (Str × Grammar × List Production)
  | 0, _, prevD, g, new_productions => some (prevD, g, new_productions)
  | count + 1, i, prevD, g, new_productions =>
    match rhs[i]? with
    | none => none
    | some b =>
      let nextD := (NewD g).1
      midLoop rhs count (i + 1) nextD (NewD g).2
        (new_productions ++ [{ lhs := prevD, rhs := [b, nextD] }])

/-- The second loop of `TransformToCNF` over the productions that remain: it returns the
grammar (counter and non-terminals) and `new_productions`. -/
def secondLoop : List Production → Grammar → List Production →
    Option (Grammar × List Production)
  | [], g, new_productions => some (g, new_productions)
  | p :: ps, g, new_productions =>
    if 3 ≤ p.rhs.length then
      let m := p.rhs.length
      match p.rhs[0]? with
      | none => none
      | some b1 =>
        let prevD := (NewD g).1
        match midLoop p.rhs (m - 2 - 1) 1 prevD (NewD g).2
            (new_productions ++ [{ lhs := p.lhs, rhs := [b1, prevD] }]) with
        | none => none
        | some (lastD, g2, new_productions2) =>
          match p.rhs[m - 2]?, p.rhs[m - 1]? with
          | some bm1, some bm =>
            secondLoop ps g2 (new_productions2 ++ [{ lhs := lastD, rhs := [bm1, bm] }])
          | _, _ => none
    else secondLoop ps g (new_productions ++ [p])

/-- `Grammar::TransformToCNF`: the two loops, then `productions_.swap(new_productions)`. -/
def TransformToCNF (g : Grammar) : Option Grammar :=
  match firstLoop g.productions_.length 0 g with
  | none => none
  | some g1 =>
    match secondLoop g1.productions_ g1 [] with
    | none => none
    | some (g2, new_productions) => some { g2 with productions_ := new_productions }

/-- `Grammar::StartSymbol`. -/
def StartSymbol (g : Grammar) : Str := g.start_symbol_

/-! ## Reachability -/

/-- `Grammar::DeclaredNonTerminals`. -/
def DeclaredNonTerminals (g : Grammar) : List Char :=
  g.nonterminals_.foldl
    (fun out nt => match nt with
      | [c] => if isupper c then set_insert c out else out
      | _ => out) []

/-- The loop over the tokens of one right-hand side in `ReachableNonTerminals`: a
one-letter upper-case token that is not yet in `reachable` is inserted and queued. -/
def scanTokens : List Str → List Char × List Char → List Char × List Char
  | [], st => st
  | tok :: toks, (reachable, q) =>
    match tok with
    | [B] =>
      if isupper B ∧ B ∉ reachable then scanTokens toks (set_insert B reachable, q ++ [B])
      else scanTokens toks (reachable, q)
    | _ => scanTokens toks (reachable, q)

/-- The loop over the productions in `ReachableNonTerminals`, for the letter `A` taken
from the queue. -/
def scanProductions (A : Char) : List Production → List Char × List Char →
    List Char × List Char
  | [], st => st
  | p :: ps, st =>
    if p.lhs ≠ [A] then scanProductions A ps st
    else scanProductions A ps (scanTokens p.rhs st)

/-- The loop `while (!q.empty())` of `ReachableNonTerminals`, with fuel. -/
def reachLoop (productions : List Production) : Nat → List Char → List Char →
    Option (List Char)
  | 0, _, _ => none
  | _ + 1, reachable, [] => some reachable
  | fuel + 1, reachable, A :: q =>
    reachLoop productions fuel (scanProductions A productions (reachable, q)).1
      (scanProductions A productions (reachable, q)).2

/-- `Grammar::ReachableNonTerminals`. A letter enters the queue at most once, so the loop
makes at most 26 rounds and one more test: the fuel is 27. -/
def ReachableNonTerminals (g : Grammar) : Option (List Char) :=
  match g.start_symbol_ with
  | [] => some []
  | s :: _ =>
    if isupper s = false then some []
    else reachLoop g.productions_ 27 [s] [s]

/-! ## The shape of the result, as list functions

These functions describe what the two loops of `TransformToCNF` compute; the theorems
below prove that the loops compute them. -/

/-- The production `Ct -> t` of the auxiliary of the terminal `t`, under the name `Ct`. -/
def auxProd (t : Char) : Production := { lhs := ['C', t], rhs := [[t]] }

/-- The grammar after the creation of the auxiliary `Ct` of `t`, when the name `Ct` is free. -/
def addAux (g : Grammar) (t : Char) : Grammar :=
  { g with nonterminals_ := set_insert ['C', t] g.nonterminals_,
           terminal_to_nt_ := g.terminal_to_nt_ ++ [(t, ['C', t])],
           productions_ := g.productions_ ++ [auxProd t],
           terminals_ := set_insert t g.terminals_ }

/-- The grammar after the creation of the auxiliaries of the terminals `ts`, in this order. -/
def extend (g : Grammar) (ts : List Char) : Grammar := ts.foldl addAux g

/-- The terminals that have an auxiliary. -/
def keys (g : Grammar) : List Char := g.terminal_to_nt_.map Prod.fst

/-- The state in which the name `Ct` is free for every terminal `t` without auxiliary:
every auxiliary in the map is named `C` followed by its terminal, and a non-terminal is one
character long or one of these auxiliaries. -/
def Clean (g : Grammar) : Prop :=
  (∀ e ∈ g.terminal_to_nt_, e.2 = ['C', e.1]) ∧
  (∀ nt ∈ g.nonterminals_, nt.length = 1 ∨ ∃ e ∈ g.terminal_to_nt_, nt = e.2)

/-- A token after the first loop, in a right-hand side of two tokens or more: a terminal
token `t` has become `Ct`. -/
def isolate (tok : Str) : Str := if isTerminalTok tok then 'C' :: tok else tok

/-- A production after the first loop. -/
def isolateProd (p : Production) : Production :=
  if 2 ≤ p.rhs.length then { lhs := p.lhs, rhs := p.rhs.map isolate } else p

/-- The production list after the first loop, when the auxiliaries created are those of
the terminals `ts`, in this order. -/
def isolated (g : Grammar) (ts : List Char) : List Production :=
  g.productions_.map isolateProd ++ ts.map auxProd

/-- The name `D<k>`. -/
def dName (k : Nat) : Str := 'D' :: to_string k

/-- The chain that replaces `lhs -> rhs` when the counter is `k`:
`lhs -> B1 D(k+1)`, `D(k+1) -> B2 D(k+2)`, ..., `D(k+m-2) -> B(m-1) Bm`. -/
def chain : Nat → Str → List Str → List Production
  | k, lhs, b :: c :: d :: rest =>
    { lhs := lhs, rhs := [b, dName (k + 1)] } :: chain (k + 1) (dName (k + 1)) (c :: d :: rest)
  | _, lhs, rhs => [{ lhs := lhs, rhs := rhs }]

/-- The production list after the second loop, started with the counter at `k`. -/
def binarize : Nat → List Production → List Production
  | _, [] => []
  | k, p :: ps =>
    if 3 ≤ p.rhs.length then chain k p.lhs p.rhs ++ binarize (k + (p.rhs.length - 2)) ps
    else p :: binarize k ps

/-- The number of `D` names that the second loop creates. -/
def dCount : List Production → Nat
  | [] => 0
  | p :: ps => (p.rhs.length - 2) + dCount ps

/-- The grammar after `n` calls of `NewD`. -/
def addDs : Nat → Grammar → Grammar
  | 0, g => g
  | n + 1, g => addDs n (NewD g).2

/-! ## What the reader and the validator establish, and what the reader needs -/

/-- What `ValidateFormat` checks. -/
structure Validated (g : Grammar) : Prop where
  terminals_ok : ∀ t ∈ g.terminals_, iscntrl t = false
  nonterminals_ok : ∀ nt ∈ g.nonterminals_, ∃ c, nt = [c] ∧ isupper c = true
  lhs_ok : ∀ p ∈ g.productions_, p.lhs ∈ g.nonterminals_
  rhs_ok : ∀ p ∈ g.productions_, p.rhs ≠ [['&']] → ∀ tok ∈ p.rhs,
    ∃ c, tok = [c] ∧ (if isupper c then tok ∈ g.nonterminals_ else c ∈ g.terminals_)

/-- What holds of a grammar that `ReadFromFile` has built. -/
structure Loaded (g : Grammar) : Prop where
  map_empty : g.terminal_to_nt_ = []
  counter_zero : g.counter_d_ = 0
  start_mem : g.start_symbol_ ∈ g.nonterminals_
  terminals_trim : ∀ t ∈ g.terminals_, isTrimChar t = false
  rhs_ne : ∀ p ∈ g.productions_, p.rhs ≠ []
  rhs_one : ∀ p ∈ g.productions_, ∀ tok ∈ p.rhs, ∃ c, tok = [c] ∧ isspace c = false
  lhs_word : ∀ p ∈ g.productions_, p.lhs ≠ [] ∧ ∀ c ∈ p.lhs, isspace c = false

/-- The production that `ReadFromFile` builds from the line written for `p`: the
right-hand side is read one character at a time. -/
def reread (p : Production) : Production :=
  { lhs := p.lhs, rhs := (RhsToString p.rhs).map (fun c => [c]) }

/-- The grammars whose written text `ReadFromFile` reads: the three counts fit in an
`int`, no terminal is a trim character, there is a non-terminal, no non-terminal is empty
or holds a trim character, and in every production the left-hand side and the concatenated
right-hand side are not empty and hold no white space. -/
structure Writable (g : Grammar) : Prop where
  terminals_size : g.terminals_.length ≤ 2147483647
  nonterminals_size : g.nonterminals_.length ≤ 2147483647
  productions_size : g.productions_.length ≤ 2147483647
  terminals_ok : ∀ t ∈ g.terminals_, isTrimChar t = false
  nonterminals_ne : g.nonterminals_ ≠ []
  nonterminals_ok : ∀ nt ∈ g.nonterminals_, nt ≠ [] ∧ ∀ c ∈ nt, isTrimChar c = false
  productions_ok : ∀ p ∈ g.productions_,
    (p.lhs ≠ [] ∧ ∀ c ∈ p.lhs, isspace c = false) ∧
    (RhsToString p.rhs ≠ [] ∧ ∀ c ∈ RhsToString p.rhs, isspace c = false)

/-! ## Notions used in the statements -/

/-- The set `X` of letters is closed under the rule of the traversal: with `A` it holds
every upper-case letter `B` that is a one-letter token of the right-hand side of a
production whose left-hand side is `A`. -/
def ClosedUnder (productions : List Production) (X : Char → Prop) : Prop :=
  ∀ (A B : Char) (p : Production), X A → p ∈ productions → p.lhs = [A] → [B] ∈ p.rhs →
    isupper B = true → X B

/-- The letter `c` is in every set that holds `S` and is closed under the rule. -/
def InLeast (productions : List Production) (S c : Char) : Prop :=
  ∀ X : Char → Prop, X S → ClosedUnder productions X → X c

/-! ## Devices of the proofs -/

/-- The state `st2` comes from the state `st1` of the traversal (the set `reachable` and
the queue) by the discovery of new letters, all upper-case and all from `src`. -/
def Grew (src : Char → Prop) (st1 st2 : List Char × List Char) : Prop :=
  ∃ new : List Char, st2.2 = st1.2 ++ new ∧ st2.1.Perm (new ++ st1.1) ∧
    (st1.1.Nodup → (new ++ st1.1).Nodup) ∧ ∀ c ∈ new, isupper c = true ∧ src c

/-- The text of the grammar with terminals `a`, `b`, the non-terminal `S` and the
production `S -> aSb`. -/
def aSbText : Str :=
  ['2', '\n', 'a', '\n', 'b', '\n', '1', '\n', 'S', '\n', '1', '\n',
   'S', ' ', 'a', 'S', 'b', '\n']

/-- The grammar that `ReadFromFile` builds from `aSbText`. -/
def aSbGrammar : Grammar :=
  { terminals_ := ['a', 'b'], nonterminals_ := [['S']], start_symbol_ := ['S'],
    productions_ := [{ lhs := ['S'], rhs := [['a'], ['S'], ['b']] }],
    counter_d_ := 0, terminal_to_nt_ := [] }

/-- The text of `declaredExample`: terminals `a`, `b`, `c`, non-terminals `S`, `A`, `B`,
`C` in this order, productions `S -> AB`, `A -> a`, `B -> b`, `C -> c`. -/
def declaredText : Str :=
  ['3', '\n', 'a', '\n', 'b', '\n', 'c', '\n',
   '4', '\n', 'S', '\n', 'A', '\n', 'B', '\n', 'C', '\n',
   '4', '\n', 'S', ' ', 'A', 'B', '\n', 'A', ' ', 'a', '\n', 'B', ' ', 'b', '\n',
   'C', ' ', 'c', '\n']

/-- The grammar `S -> AB`, `A -> a`, `B -> b`, `C -> c` with terminals `a`, `b`, `c`. -/
def declaredExample : Grammar :=
  { terminals_ := ['a', 'b', 'c'],
    nonterminals_ := [['A'], ['B'], ['C'], ['S']],
    start_symbol_ := ['S'],
    productions_ :=
      [{ lhs := ['S'], rhs := [['A'], ['B']] }, { lhs := ['A'], rhs := [['a']] },
       { lhs := ['B'], rhs := [['b']] }, { lhs := ['C'], rhs := [['c']] }],
    counter_d_ := 0, terminal_to_nt_ := [] }

/-- The text of the grammar with terminals `a`, `b`, non-terminals `S`, `A` and the
productions `S -> aA`, `A -> ab`: the terminal `a` is in two right-hand sides. -/
def sharedText : Str :=
  ['2', '\n', 'a', '\n', 'b', '\n', '2', '\n', 'S', '\n', 'A', '\n', '2', '\n',
   'S', ' ', 'a', 'A', '\n', 'A', ' ', 'a', 'b', '\n']

/-- The grammar that `ReadFromFile` builds from `sharedText`. -/
def sharedGrammar : Grammar :=
  { terminals_ := ['a', 'b'], nonterminals_ := [['A'], ['S']], start_symbol_ := ['S'],
    productions_ := [{ lhs := ['S'], rhs := [['a'], ['A']] },
                     { lhs := ['A'], rhs := [['a'], ['b']] }],
    counter_d_ := 0, terminal_to_nt_ := [] }

/-- The text with no terminal, the non-terminal `Ab` and no production. -/
def abText : Str :=
  ['0', '\n', '1', '\n', 'A', 'b', '\n', '0', '\n']

/-- The grammar that `ReadFromFile` builds from `abText`: its start symbol is `Ab`. -/
def abGrammar : Grammar :=
  { terminals_ := [], nonterminals_ := [['A', 'b']], start_symbol_ := ['A', 'b'],
    productions_ := [], counter_d_ := 0, terminal_to_nt_ := [] }

/-- The first line that is not blank, trimmed. -/
def firstNonBlank : List Str → Option Str
  | [] => none
  | line :: rest => if TrimString line = [] then firstNonBlank rest else some (TrimString line)

/-- The text with the terminal `A`, the non-terminal `S` and the production `S -> A`:
the terminal declared is an upper-case letter. -/
def upperTerminalText : Str :=
  ['1', '\n', 'A', '\n', '1', '\n', 'S', '\n', '1', '\n', 'S', ' ', 'A', '\n']

/-- The grammar that `ReadFromFile` builds from `upperTerminalText`. -/
def upperTerminalGrammar : Grammar :=
  { terminals_ := ['A'], nonterminals_ := [['S']], start_symbol_ := ['S'],
    productions_ := [{ lhs := ['S'], rhs := [['A']] }],
    counter_d_ := 0, terminal_to_nt_ := [] }

/-! ## The second pass, in the words of its description -/

/-- Following the description of the binarization: the block of the production `p`
reached when the counter has the value `k`. A production with at most two tokens gives
itself; `A -> B1 ... Bm` with `m >= 3` gives `A -> B1 D(k+1)`, then
`D(k+i) -> B(i+1) D(k+i+1)` for `i = 1, ..., m-3`, then `D(k+m-2) -> B(m-1) Bm`. -/
def blockWords (k : Nat) (p : Production) : List Production :=
  if p.rhs.length ≤ 2 then [p]
  else
    [{ lhs := p.lhs, rhs := [p.rhs.getD 0 [], dName (k + 1)] }]
      ++ (List.range (p.rhs.length - 3)).map
          (fun i => { lhs := dName (k + 1 + i),
                      rhs := [p.rhs.getD (i + 1) [], dName (k + 2 + i)] })
      ++ [{ lhs := dName (k + p.rhs.length - 2),
            rhs := [p.rhs.getD (p.rhs.length - 2) [], p.rhs.getD (p.rhs.length - 1) []] }]

/-- Following the description: the counter after the block of `p`. -/
def counterWords (k : Nat) (p : Production) : Nat :=
  if p.rhs.length ≤ 2 then k else k + p.rhs.length - 2

/-- Following the description: the concatenation, in the same order, of one block per
production, and the counter at the end. -/
def secondPassWords : Nat → List Production → List Production × Nat
  | k, [] => ([], k)
  | k, p :: ps =>
    (blockWords k p ++ (secondPassWords (counterWords k p) ps).1,
     (secondPassWords (counterWords k p) ps).2)

/-- The `j`-th name that the search of `TerminalToNonTerminal` tries: `name` itself, then
`name` followed by the decimal digits of `1`, `2`, ... -/
def candidateAt (name : Str) (j : Nat) : Str :=
  if j = 0 then name else name ++ to_string j

/-- The grammar `g2` comes from `g` by steps that keep the start symbol and the counter and
only add symbols and productions. -/
structure Grows (g g2 : Grammar) : Prop where
  start_eq : g2.start_symbol_ = g.start_symbol_
  counter_eq : g2.counter_d_ = g.counter_d_
  nonterminals_sub : ∀ nt ∈ g.nonterminals_, nt ∈ g2.nonterminals_
  terminals_sub : ∀ t ∈ g.terminals_, t ∈ g2.terminals_
  productions_len : g.productions_.length ≤ g2.productions_.length

/-- The auxiliary names introduced between the grammar `g` and a later state `g2`: the
names of the entries added to the map of the terminals, in the order of their creation,
then the names `D<j>` for the values `j` that the counter took on the way. -/
def introduced (g g2 : Grammar) : List Str :=
  (g2.terminal_to_nt_.drop g.terminal_to_nt_.length).map Prod.snd
    ++ (List.range' (g.counter_d_ + 1) (g2.counter_d_ - g.counter_d_)).map dName

/-- A text in which `&` is declared as a terminal and stands inside a longer right-hand
side: terminals `a` and `&`, non-terminal `S`, production `S -> a&`. -/
def ampText : Str :=
  ['2', '\n', 'a', '\n', '&', '\n', '1', '\n', 'S', '\n', '1', '\n',
   'S', ' ', 'a', '&', '\n']

/-- The grammar that `ReadFromFile` builds from `ampText`. -/
def ampGrammar : Grammar :=
  { terminals_ := ['&', 'a'], nonterminals_ := [['S']], start_symbol_ := ['S'],
    productions_ := [{ lhs := ['S'], rhs := [['a'], ['&']] }],
    counter_d_ := 0, terminal_to_nt_ := [] }

/-- A line that is empty or holds only spaces, tabs and carriage returns. -/
def isBlankLine (l : Str) : Bool :=
  l.all (fun c => decide (c = ' ') || decide (c = '\t') || decide (c = '\r'))

/-- The lines `ls2` are the lines `ls` with blank lines inserted, any number of them at
any places. -/
inductive BlankInserted : List Str → List Str → Prop
  | done : BlankInserted [] []
  | keep (l : Str) (ls ls2 : List Str) : BlankInserted ls ls2 →
      BlankInserted (l :: ls) (l :: ls2)
  | blank (b : Str) (ls ls2 : List Str) : isBlankLine b = true → BlankInserted ls ls2 →
      BlankInserted ls (b :: ls2)

/-- The text `aSbText` with a blank line before the first count, a line of spaces and tabs
among the terminals, a line with a carriage return before the production, and an empty
line at the end. -/
def aSbBlankText : Str :=
  ['\n', '2', '\n', 'a', '\n', ' ', '\t', ' ', '\n', 'b', '\n', '1', '\n', 'S', '\n',
   '1', '\n', '\r', '\n', 'S', ' ', 'a', 'S', 'b', '\n', '\n']

/-- The names in the map of the auxiliaries are no terminal tokens: none is one character
that is not upper-case. The map is written by `TerminalToNonTerminal` alone, and the names
it stores are `C`, the terminal and possibly digits, so this holds in every state that the
operations of the class build. -/
def MapNamed (g : Grammar) : Prop :=
  ∀ e ∈ g.terminal_to_nt_, isTerminalTok e.2 = false

/-- The states that the operations of the class build: the constructor, a successful
`ReadFromFile`, and `TransformToCNF` on such a state. -/
inductive Built : Grammar → Prop
  | constructed : Built Grammar.empty
  | read (text : Str) (g : Grammar) : ReadFromFile text = .ok g → Built g
  | transformed (g g2 : Grammar) : Built g → TransformToCNF g = some g2 → Built g2

/-! ## The precondition pass -/

theorem checkEpsilon_ok_iff (ps : List Production) :
    checkEpsilon ps = .ok () ↔ ∀ p ∈ ps, p.rhs ≠ [['&']] := by
  induction ps with
  | nil => simp [checkEpsilon]
  | cons p ps ih =>
    by_cases h : p.rhs = [['&']]
    · simp [checkEpsilon, h]
    · simp [checkEpsilon, h, ih]

theorem checkUnit_ok_iff (ps : List Production) :
    checkUnit ps = .ok () ↔ ∀ p ∈ ps, ∀ tok, p.rhs = [tok] → startsUpper tok = false := by
  induction ps with
  | nil => simp [checkUnit]
  | cons p ps ih =>
    rcases hr : p.rhs with _ | ⟨tok, _ | ⟨tok2, rest⟩⟩
    · simp [checkUnit, hr, ih]
    · by_cases h : startsUpper tok = true
      · simp [checkUnit, hr, h]
      · simp only [Bool.not_eq_true] at h
        simp [checkUnit, hr, h, ih]
    · simp [checkUnit, hr, ih]

theorem CheckPreconditions_ok_iff (g : Grammar) :
    CheckPreconditions g = .ok () ↔
      (∀ p ∈ g.productions_, p.rhs ≠ [['&']]) ∧
      (∀ p ∈ g.productions_, ∀ tok, p.rhs = [tok] → startsUpper tok = false) := by
  unfold CheckPreconditions
  rw [← checkEpsilon_ok_iff, ← checkUnit_ok_iff]
  cases h : checkEpsilon g.productions_ with
  | error e => simp
  | ok u => cases u; simp

theorem except_unit_cases (r : Except Error Unit) : r = .ok () ∨ ∃ e, r = .error e := by
  cases r with
  | error e => exact Or.inr ⟨e, rfl⟩
  | ok u => cases u; exact Or.inl rfl

/-- C3. `CheckPreconditions` fails if and only if some production is an epsilon production
(its right-hand side is the single token `&`) or a unit production (its right-hand side is
one token that starts with an upper-case letter); in a grammar without such a production
it succeeds, whatever the other productions are. -/
theorem C3_CheckPreconditions_fails_iff (g : Grammar) :
    ((∃ e, CheckPreconditions g = .error e) ↔
      ∃ p ∈ g.productions_,
        p.rhs = [['&']] ∨ ∃ tok, p.rhs = [tok] ∧ startsUpper tok = true) ∧
    ((¬ ∃ p ∈ g.productions_,
        p.rhs = [['&']] ∨ ∃ tok, p.rhs = [tok] ∧ startsUpper tok = true) →
      CheckPreconditions g = .ok ()) := by
  have key : CheckPreconditions g = .ok () ↔
      ¬ ∃ p ∈ g.productions_,
        p.rhs = [['&']] ∨ ∃ tok, p.rhs = [tok] ∧ startsUpper tok = true := by
    rw [CheckPreconditions_ok_iff]
    constructor
    · rintro ⟨h1, h2⟩ ⟨p, hp, h | ⟨tok, ht, hu⟩⟩
      · exact h1 p hp h
      · rw [h2 p hp tok ht] at hu; cases hu
    · intro h
      refine ⟨fun p hp he => h ⟨p, hp, Or.inl he⟩, fun p hp tok ht => ?_⟩
      cases hu : startsUpper tok with
      | false => rfl
      | true => exact absurd ⟨p, hp, Or.inr ⟨tok, ht, hu⟩⟩ h
  refine ⟨?_, key.mpr⟩
  constructor
  · rintro ⟨e, he⟩
    by_contra hn
    rw [key.mpr hn] at he
    cases he
  · intro h
    rcases except_unit_cases (CheckPreconditions g) with hok | herr
    · exact absurd h (key.mp hok)
    · exact herr

/-! ## A grammar that is already binary -/

theorem isolateTokens_noTerminal (g : Grammar) (toks : List Str)
    (h : ∀ tok ∈ toks, isTerminalTok tok = false) :
    isolateTokens g toks = some (toks, g) := by
  induction toks with
  | nil => rfl
  | cons tok toks ih =>
    have ih1 := ih (fun t ht => h t (List.mem_cons_of_mem _ ht))
    have h0 := h tok (List.mem_cons_self _ _)
    rcases tok with _ | ⟨c, _ | ⟨d, r⟩⟩
    · simp [isolateTokens, ih1]
    · have hc : isupper c = true := by simpa [isTerminalTok] using h0
      simp [isolateTokens, ih1, hc]
    · simp [isolateTokens, ih1]

theorem firstLoop_noTerminal (count : Nat) : ∀ (i : Nat) (g : Grammar),
    i + count ≤ g.productions_.length →
    (∀ p ∈ g.productions_, 2 ≤ p.rhs.length → ∀ tok ∈ p.rhs, isTerminalTok tok = false) →
    firstLoop count i g = some g := by
  induction count with
  | zero => intro i g _ _; rfl
  | succ n ih =>
    intro i g hlen h
    have hi : i < g.productions_.length := by omega
    have hget : g.productions_[i]? = some g.productions_[i] := List.getElem?_eq_getElem hi
    have hmem : g.productions_[i] ∈ g.productions_ := List.getElem_mem hi
    unfold firstLoop
    rw [hget]
    simp only
    split
    · rename_i h2
      rw [isolateTokens_noTerminal g _ (h _ hmem h2)]
      simp only
      have hset : g.productions_.set i
          { lhs := g.productions_[i].lhs, rhs := g.productions_[i].rhs } = g.productions_ := by
        apply List.ext_getElem
        · simp
        · intro j h1 h2
          by_cases hij : i = j
          · subst hij; simp
          · simp [List.getElem_set_ne hij]
      rw [hset]
      exact ih (i + 1) g (by omega) h
    · exact ih (i + 1) g (by omega) h

theorem secondLoop_short (ps : List Production) : ∀ (g : Grammar) (acc : List Production),
    (∀ p ∈ ps, p.rhs.length ≤ 2) → secondLoop ps g acc = some (g, acc ++ ps) := by
  induction ps with
  | nil => intro g acc _; simp [secondLoop]
  | cons p ps ih =>
    intro g acc h
    have hp : ¬ 3 ≤ p.rhs.length := by
      have := h p (List.mem_cons_self _ _); omega
    unfold secondLoop
    rw [if_neg hp, ih g _ (fun q hq => h q (List.mem_cons_of_mem _ hq))]
    simp

/-- C10. A grammar in which every right-hand side has at most two tokens and no right-hand
side of two tokens holds a terminal token (one character that is not upper-case) is a fixed
point of `TransformToCNF`: the call returns, and productions (count, order, content),
non-terminals, terminals, the map of the auxiliaries and the counter of the `D` names are
those of the input, so no auxiliary name is allocated. -/
theorem C10_binary_input_fixed_point (g : Grammar)
    (hlen : ∀ p ∈ g.productions_, p.rhs.length ≤ 2)
    (hterm : ∀ p ∈ g.productions_, p.rhs.length = 2 →
      ∀ tok ∈ p.rhs, isTerminalTok tok = false) :
    TransformToCNF g = some g := by
  have h1 : firstLoop g.productions_.length 0 g = some g := by
    apply firstLoop_noTerminal _ 0 g (by omega)
    intro p hp h2
    exact hterm p hp (by have := hlen p hp; omega)
  unfold TransformToCNF
  rw [h1]
  simp only
  rw [secondLoop_short g.productions_ g [] hlen]
  simp

theorem C10_binary_input_fixed_point_witness :
    TransformToCNF declaredExample = some declaredExample :=
  C10_binary_input_fixed_point declaredExample (by decide) (by decide)

/-! ## The second loop -/

@[simp] theorem addDs_counter (n : Nat) : ∀ g : Grammar,
    (addDs n g).counter_d_ = g.counter_d_ + n := by
  induction n with
  | zero => intro g; rfl
  | succ n ih => intro g; simp only [addDs, ih, NewD]; omega

@[simp] theorem addDs_productions (n : Nat) : ∀ g : Grammar,
    (addDs n g).productions_ = g.productions_ := by
  induction n with
  | zero => intro g; rfl
  | succ n ih => intro g; simp only [addDs, ih, NewD]

@[simp] theorem addDs_terminals (n : Nat) : ∀ g : Grammar,
    (addDs n g).terminals_ = g.terminals_ := by
  induction n with
  | zero => intro g; rfl
  | succ n ih => intro g; simp only [addDs, ih, NewD]

@[simp] theorem addDs_start (n : Nat) : ∀ g : Grammar,
    (addDs n g).start_symbol_ = g.start_symbol_ := by
  induction n with
  | zero => intro g; rfl
  | succ n ih => intro g; simp only [addDs, ih, NewD]

@[simp] theorem addDs_map (n : Nat) : ∀ g : Grammar,
    (addDs n g).terminal_to_nt_ = g.terminal_to_nt_ := by
  induction n with
  | zero => intro g; rfl
  | succ n ih => intro g; simp only [addDs, ih, NewD]

theorem addDs_add (a : Nat) : ∀ (b : Nat) (g : Grammar),
    addDs (a + b) g = addDs b (addDs a g) := by
  induction a with
  | zero => intro b g; simp [addDs]
  | succ a ih => intro b g; rw [Nat.succ_add]; simp only [addDs]; exact ih b _

theorem chain_two (k : Nat) (lhs : Str) (x y : Str) :
    chain k lhs [x, y] = [{ lhs := lhs, rhs := [x, y] }] := by
  simp [chain]

theorem drop_last_two (rhs : List Str) (i : Nat) (x y : Str) (hi : i + 2 = rhs.length)
    (hx : rhs[rhs.length - 2]? = some x) (hy : rhs[rhs.length - 1]? = some y) :
    rhs.drop i = [x, y] := by
  have e2 : rhs.length - 2 = i := by omega
  have e1 : rhs.length - 1 = i + 1 := by omega
  rw [e2] at hx
  rw [e1] at hy
  apply List.ext_getElem?
  intro j
  rw [List.getElem?_drop]
  rcases j with _ | _ | j
  · simpa using hx
  · simpa using hy
  · simp only [List.getElem?_cons_succ, List.getElem?_nil]
    apply List.getElem?_eq_none
    omega

theorem midLoop_spec (rhs : List Str) (count : Nat) :
    ∀ (i : Nat) (prevD : Str) (g : Grammar) (acc : List Production),
      i + count + 2 = rhs.length →
      ∃ lastD mids, midLoop rhs count i prevD g acc = some (lastD, addDs count g, acc ++ mids) ∧
        ∀ x y, rhs[rhs.length - 2]? = some x → rhs[rhs.length - 1]? = some y →
          mids ++ [{ lhs := lastD, rhs := [x, y] }] = chain g.counter_d_ prevD (rhs.drop i) := by
  induction count with
  | zero =>
    intro i prevD g acc hi
    refine ⟨prevD, [], by simp [midLoop, addDs], ?_⟩
    intro x y hx hy
    rw [drop_last_two rhs i x y (by omega) hx hy, chain_two]
    rfl
  | succ n ih =>
    intro i prevD g acc hi
    have hlt : i < rhs.length := by omega
    obtain ⟨lastD, mids, hm, hc⟩ := ih (i + 1) (NewD g).1 (NewD g).2
      (acc ++ [{ lhs := prevD, rhs := [rhs[i], (NewD g).1] }]) (by omega)
    refine ⟨lastD, { lhs := prevD, rhs := [rhs[i], (NewD g).1] } :: mids, ?_, ?_⟩
    · unfold midLoop
      rw [List.getElem?_eq_getElem hlt]
      simp only
      rw [hm]
      simp [addDs]
    · intro x y hx hy
      have h3 := hc x y hx hy
      have hd : rhs.drop i = rhs[i] :: rhs.drop (i + 1) := List.drop_eq_getElem_cons hlt
      have hlen : (rhs.drop (i + 1)).length = n + 2 := by simp; omega
      rcases hr : rhs.drop (i + 1) with _ | ⟨c, _ | ⟨d, rest⟩⟩
      · rw [hr] at hlen; simp at hlen
      · rw [hr] at hlen; simp at hlen
      · rw [hd, hr, chain, List.cons_append, h3, hr]
        rfl

theorem chain_of_short (k : Nat) (lhs : Str) (rhs : List Str) (h : rhs.length ≤ 2) :
    chain k lhs rhs = [{ lhs := lhs, rhs := rhs }] := by
  rcases rhs with _ | ⟨b, _ | ⟨c, _ | ⟨d, rest⟩⟩⟩ <;> simp [chain] at h ⊢

theorem secondLoop_spec (ps : List Production) :
    ∀ (g : Grammar) (acc : List Production),
      secondLoop ps g acc = some (addDs (dCount ps) g, acc ++ binarize g.counter_d_ ps) := by
  induction ps with
  | nil => intro g acc; simp [secondLoop, dCount, addDs, binarize]
  | cons p ps ih =>
    intro g acc
    unfold secondLoop
    by_cases h3 : 3 ≤ p.rhs.length
    · rw [if_pos h3]
      have h0 : 0 < p.rhs.length := by omega
      obtain ⟨lastD, mids, hm, hc⟩ := midLoop_spec p.rhs (p.rhs.length - 2 - 1) 1 (NewD g).1
        (NewD g).2 (acc ++ [{ lhs := p.lhs, rhs := [p.rhs[0], (NewD g).1] }]) (by omega)
      have hm2 : p.rhs.length - 2 < p.rhs.length := by omega
      have hm1 : p.rhs.length - 1 < p.rhs.length := by omega
      have hx : p.rhs[p.rhs.length - 2]? = some p.rhs[p.rhs.length - 2] :=
        List.getElem?_eq_getElem _
      have hy : p.rhs[p.rhs.length - 1]? = some p.rhs[p.rhs.length - 1] :=
        List.getElem?_eq_getElem _
      have hc1 := hc _ _ hx hy
      simp only [List.getElem?_eq_getElem h0, hm, hx, hy]
      rw [ih]
      have hcnt : addDs (dCount ps) (addDs (p.rhs.length - 2 - 1) (NewD g).2)
          = addDs (dCount (p :: ps)) g := by
        have e : dCount (p :: ps) = 1 + ((p.rhs.length - 2 - 1) + dCount ps) := by
          simp only [dCount]; omega
        rw [e, addDs_add 1, addDs_add (p.rhs.length - 2 - 1)]
        rfl
      have hk : (addDs (p.rhs.length - 2 - 1) (NewD g).2).counter_d_
          = g.counter_d_ + (p.rhs.length - 2) := by
        simp [NewD]; omega
      rw [hcnt, hk]
      have hb : binarize g.counter_d_ (p :: ps)
          = chain g.counter_d_ p.lhs p.rhs ++ binarize (g.counter_d_ + (p.rhs.length - 2)) ps := by
        simp [binarize, h3]
      have hch : chain g.counter_d_ p.lhs p.rhs
          = { lhs := p.lhs, rhs := [p.rhs[0], (NewD g).1] } ::
              (mids ++ [{ lhs := lastD, rhs := [p.rhs[p.rhs.length - 2],
                                                 p.rhs[p.rhs.length - 1]] }]) := by
        rw [hc1]
        have hd : p.rhs = p.rhs[0] :: p.rhs.drop 1 := by
          have := List.drop_eq_getElem_cons h0
          simpa using this
        have hlen : (p.rhs.drop 1).length = p.rhs.length - 1 := by simp
        rcases hr : p.rhs.drop 1 with _ | ⟨c, _ | ⟨d, rest⟩⟩
        · rw [hr] at hlen; simp at hlen; omega
        · rw [hr] at hlen; simp at hlen; omega
        · conv_lhs => rw [hd, hr, chain]
          simp [NewD, dName]
      rw [hb, hch]
      simp
    · rw [if_neg h3, ih]
      have e : dCount (p :: ps) = dCount ps := by simp only [dCount]; omega
      simp [binarize, h3, e]

theorem chain_length (rhs : List Str) : ∀ (k : Nat) (lhs : Str), 2 ≤ rhs.length →
    (chain k lhs rhs).length = rhs.length - 1 := by
  induction rhs with
  | nil => intro k lhs h; simp at h
  | cons b rest ih =>
    intro k lhs h
    rcases rest with _ | ⟨c, _ | ⟨d, rest⟩⟩
    · simp at h
    · simp [chain]
    · rw [chain, List.length_cons, ih (k + 1) _ (by simp)]
      simp

theorem chain_rhs_length (rhs : List Str) : ∀ (k : Nat) (lhs : Str), 2 ≤ rhs.length →
    ∀ q ∈ chain k lhs rhs, q.rhs.length = 2 := by
  induction rhs with
  | nil => intro k lhs h; simp at h
  | cons b rest ih =>
    intro k lhs h q hq
    rcases rest with _ | ⟨c, _ | ⟨d, rest⟩⟩
    · simp at h
    · simp [chain] at hq; subst hq; rfl
    · rw [chain, List.mem_cons] at hq
      rcases hq with rfl | hq
      · rfl
      · exact ih (k + 1) _ (by simp) q hq

theorem dCount_append (a b : List Production) : dCount (a ++ b) = dCount a + dCount b := by
  induction a with
  | nil => simp [dCount]
  | cons p a ih => rw [List.cons_append, dCount, dCount, ih]; omega

theorem binarize_append (a : List Production) : ∀ (k : Nat) (b : List Production),
    binarize k (a ++ b) = binarize k a ++ binarize (k + dCount a) b := by
  induction a with
  | nil => intro k b; simp [binarize, dCount]
  | cons p a ih =>
    intro k b
    by_cases h3 : 3 ≤ p.rhs.length
    · rw [List.cons_append, binarize, binarize, if_pos h3, if_pos h3, ih, dCount,
        List.append_assoc, Nat.add_assoc]
    · have e : p.rhs.length - 2 = 0 := by omega
      rw [List.cons_append, binarize, binarize, if_neg h3, if_neg h3, ih, dCount, e,
        Nat.zero_add, List.cons_append]

/-- C4. When the second loop of `TransformToCNF` reaches a production whose right-hand
side has `m >= 3` tokens, it emits exactly `m - 1` productions in its place, each with a
right-hand side of exactly two tokens: the output for `pre ++ p :: post` is the output for
`pre`, then that block, then the output for `post`. -/
theorem C4_binarization_length (g : Grammar) (pre post : List Production) (p : Production)
    (h : 3 ≤ p.rhs.length) :
    ∃ g1 out1 g2 blk gf out3,
      secondLoop pre g [] = some (g1, out1) ∧
      secondLoop [p] g1 [] = some (g2, blk) ∧
      secondLoop post g2 [] = some (gf, out3) ∧
      secondLoop (pre ++ p :: post) g [] = some (gf, out1 ++ blk ++ out3) ∧
      blk.length = p.rhs.length - 1 ∧ ∀ q ∈ blk, q.rhs.length = 2 := by
  refine ⟨addDs (dCount pre) g, binarize g.counter_d_ pre,
    addDs (dCount [p]) (addDs (dCount pre) g),
    binarize (addDs (dCount pre) g).counter_d_ [p],
    addDs (dCount post) (addDs (dCount [p]) (addDs (dCount pre) g)),
    binarize (addDs (dCount [p]) (addDs (dCount pre) g)).counter_d_ post, ?_, ?_, ?_, ?_, ?_, ?_⟩
  · simp [secondLoop_spec]
  · simp [secondLoop_spec]
  · simp [secondLoop_spec]
  · rw [secondLoop_spec, binarize_append, show p :: post = [p] ++ post from rfl,
      binarize_append, dCount_append, dCount_append, addDs_add, addDs_add]
    simp [Nat.add_assoc]
  · simp [binarize, h, chain_length _ _ _ (show 2 ≤ p.rhs.length by omega)]
  · intro q hq
    simp only [binarize, if_pos h, List.append_nil] at hq
    exact chain_rhs_length _ _ _ (by omega) q hq

theorem C4_binarization_length_witness :
    ∃ g1 out1 g2 blk gf out3,
      secondLoop [] declaredExample [] = some (g1, out1) ∧
      secondLoop [{ lhs := ['S'], rhs := [['A'], ['B'], ['C']] }] g1 [] = some (g2, blk) ∧
      secondLoop [] g2 [] = some (gf, out3) ∧
      secondLoop ([] ++ { lhs := ['S'], rhs := [['A'], ['B'], ['C']] } :: []) declaredExample []
        = some (gf, out1 ++ blk ++ out3) ∧
      blk.length = ({ lhs := ['S'], rhs := [['A'], ['B'], ['C']] } : Production).rhs.length - 1 ∧
      ∀ q ∈ blk, q.rhs.length = 2 :=
  C4_binarization_length declaredExample [] [] { lhs := ['S'], rhs := [['A'], ['B'], ['C']] }
    (by decide)

/-! ## The examples, evaluated -/

/-- C9, as amended. For the grammar with terminals `a`, `b`, the non-terminal `S` and the
production `S -> aSb`, which is read from its text and passes `ValidateFormat` and
`CheckPreconditions`, `TransformToCNF` yields, in this order, the chain `S -> Ca D1`,
`D1 -> S Cb` in the place of `S -> aSb`, and after it the auxiliary productions `Ca -> a`
and `Cb -> b`. -/
theorem C9_example_chain_then_auxiliaries :
    ReadFromFile aSbText = .ok aSbGrammar ∧
    ValidateFormat aSbGrammar = .ok () ∧
    CheckPreconditions aSbGrammar = .ok () ∧
    (TransformToCNF aSbGrammar).map Grammar.productions_ = some
      [{ lhs := ['S'], rhs := [['C', 'a'], ['D', '1']] },
       { lhs := ['D', '1'], rhs := [['S'], ['C', 'b']] },
       { lhs := ['C', 'a'], rhs := [['a']] },
       { lhs := ['C', 'b'], rhs := [['b']] }] :=
  ⟨rfl, rfl, rfl, by decide⟩

/-- C9, as stated, fails: the result of `TransformToCNF` on `S -> aSb` does not start with
`Ca -> a`, `Cb -> b`, `S -> Ca D1`. -/
theorem C9_auxiliaries_first_counterexample :
    ¬ ∃ g rest, TransformToCNF aSbGrammar = some g ∧
      g.productions_ =
        { lhs := ['C', 'a'], rhs := [['a']] } :: { lhs := ['C', 'b'], rhs := [['b']] } ::
          { lhs := ['S'], rhs := [['C', 'a'], ['D', '1']] } :: rest := by
  rintro ⟨g, rest, hg, hp⟩
  have h : (TransformToCNF aSbGrammar).map Grammar.productions_ = some
      [{ lhs := ['S'], rhs := [['C', 'a'], ['D', '1']] },
       { lhs := ['D', '1'], rhs := [['S'], ['C', 'b']] },
       { lhs := ['C', 'a'], rhs := [['a']] },
       { lhs := ['C', 'b'], rhs := [['b']] }] := by decide
  rw [hg, Option.map_some', hp] at h
  simp at h

/-- C7, at a failing input. The grammar read from `declaredText` has the start symbol `S`;
the text written for it lists `A` first, and reading that text gives the start symbol `A`.
After `TransformToCNF` of `S -> aSb` the text written lists `Ca` first, and reading it
gives the start symbol `Ca`, while the grammar written has the start symbol `S`. -/
theorem C7_written_start_symbol :
    ReadFromFile declaredText = .ok declaredExample ∧
    declaredExample.start_symbol_ = ['S'] ∧
    (ReadFromFile (WriteToFile declaredExample)).toOption.map Grammar.start_symbol_
      = some ['A'] ∧
    ReadFromFile aSbText = .ok aSbGrammar ∧
    (TransformToCNF aSbGrammar).map Grammar.start_symbol_ = some ['S'] ∧
    (TransformToCNF aSbGrammar).map
        (fun g => (ReadFromFile (WriteToFile g)).toOption.map Grammar.start_symbol_)
      = some (some ['C', 'a']) :=
  ⟨rfl, rfl, by decide, rfl, by decide, by decide⟩

/-! ## Sets as lists -/

theorem mem_set_insert {α : Type} [LT α] [DecidableEq α] [∀ a b : α, Decidable (a < b)]
    (x y : α) (s : List α) : y ∈ set_insert x s ↔ y = x ∨ y ∈ s := by
  induction s with
  | nil => simp [set_insert]
  | cons z zs ih =>
    unfold set_insert
    split
    · simp
    · split
      · rename_i h; subst h; simp
      · simp only [List.mem_cons, ih]; tauto

theorem set_insert_perm {α : Type} [LT α] [DecidableEq α] [∀ a b : α, Decidable (a < b)]
    (x : α) (s : List α) (h : x ∉ s) : (set_insert x s).Perm (x :: s) := by
  induction s with
  | nil => simp [set_insert]
  | cons z zs ih =>
    have hz : x ≠ z := fun e => h (e ▸ List.mem_cons_self _ _)
    have hzs : x ∉ zs := fun e => h (List.mem_cons_of_mem _ e)
    unfold set_insert
    split
    · exact List.Perm.refl _
    · exact ((ih hzs).cons z).trans (List.Perm.swap x z zs)

/-! ## Reachability -/

theorem Grew_refl (src : Char → Prop) (st : List Char × List Char) : Grew src st st :=
  ⟨[], by simp, by simp, by simp, by simp⟩

theorem Grew_trans {src : Char → Prop} {st1 st2 st3 : List Char × List Char}
    (h12 : Grew src st1 st2) (h23 : Grew src st2 st3) : Grew src st1 st3 := by
  obtain ⟨n1, hq1, hp1, hn1, hs1⟩ := h12
  obtain ⟨n2, hq2, hp2, hn2, hs2⟩ := h23
  have hperm : (n2 ++ st2.1).Perm ((n1 ++ n2) ++ st1.1) := by
    have h1 : (n2 ++ st2.1).Perm (n2 ++ (n1 ++ st1.1)) := hp1.append_left n2
    have h2 : (n2 ++ (n1 ++ st1.1)).Perm ((n1 ++ n2) ++ st1.1) := by
      rw [← List.append_assoc]
      exact List.Perm.append_right _ List.perm_append_comm
    exact h1.trans h2
  refine ⟨n1 ++ n2, by rw [hq2, hq1, List.append_assoc], hp2.trans hperm, ?_, ?_⟩
  · intro hnd
    have h2 : st2.1.Nodup := hp1.nodup_iff.mpr (hn1 hnd)
    exact hperm.nodup_iff.mp (hn2 h2)
  · intro c hc
    rcases List.mem_append.mp hc with h | h
    · exact hs1 c h
    · exact hs2 c h

theorem Grew_mono {src src2 : Char → Prop} {st1 st2 : List Char × List Char}
    (h : Grew src st1 st2) (hsrc : ∀ c, src c → src2 c) : Grew src2 st1 st2 := by
  obtain ⟨n1, hq1, hp1, hn1, hs1⟩ := h
  exact ⟨n1, hq1, hp1, hn1, fun c hc => ⟨(hs1 c hc).1, hsrc c (hs1 c hc).2⟩⟩

theorem Grew.mem_mono {src : Char → Prop} {st1 st2 : List Char × List Char}
    (h : Grew src st1 st2) {c : Char} (hc : c ∈ st1.1) : c ∈ st2.1 := by
  obtain ⟨n1, _, hp1, _, _⟩ := h
  exact hp1.mem_iff.mpr (List.mem_append_right _ hc)

theorem scanTokens_grew (toks : List Str) : ∀ st : List Char × List Char,
    Grew (fun c => [c] ∈ toks) st (scanTokens toks st) := by
  induction toks with
  | nil => intro st; exact Grew_refl _ _
  | cons tok toks ih =>
    intro st
    obtain ⟨r, q⟩ := st
    have hmono : ∀ st1 st2, Grew (fun c => [c] ∈ toks) st1 st2 →
        Grew (fun c => [c] ∈ tok :: toks) st1 st2 :=
      fun st1 st2 h => Grew_mono h (fun c hc => List.mem_cons_of_mem _ hc)
    rcases tok with _ | ⟨B, _ | ⟨d, rest⟩⟩
    · simp only [scanTokens]; exact hmono _ _ (ih _)
    · simp only [scanTokens]
      split
      · rename_i hB
        refine Grew_trans ?_ (hmono _ _ (ih _))
        refine ⟨[B], rfl, ?_, ?_, ?_⟩
        · exact set_insert_perm B r hB.2
        · intro hnd
          exact List.nodup_cons.mpr ⟨hB.2, hnd⟩
        · intro c hc
          simp only [List.mem_singleton] at hc
          subst hc
          exact ⟨hB.1, List.mem_cons_self _ _⟩
      · exact hmono _ _ (ih _)
    · simp only [scanTokens]; exact hmono _ _ (ih _)

theorem scanTokens_covers (toks : List Str) : ∀ (st : List Char × List Char) (B : Char),
    [B] ∈ toks → isupper B = true → B ∈ (scanTokens toks st).1 := by
  induction toks with
  | nil => intro st B h; simp at h
  | cons tok toks ih =>
    intro st B hB hup
    obtain ⟨r, q⟩ := st
    rcases List.mem_cons.mp hB with heq | hin
    · subst heq
      simp only [scanTokens]
      split
      · apply (scanTokens_grew toks _).mem_mono
        exact (mem_set_insert B B r).mpr (Or.inl rfl)
      · rename_i hn
        apply (scanTokens_grew toks _).mem_mono
        by_contra hc
        exact hn ⟨hup, hc⟩
    · rcases tok with _ | ⟨C, _ | ⟨d, rest⟩⟩
      · simp only [scanTokens]; exact ih _ B hin hup
      · simp only [scanTokens]
        split
        · exact ih _ B hin hup
        · exact ih _ B hin hup
      · simp only [scanTokens]; exact ih _ B hin hup

theorem scanProductions_grew (A : Char) (ps : List Production) :
    ∀ st : List Char × List Char,
      Grew (fun c => ∃ p ∈ ps, p.lhs = [A] ∧ [c] ∈ p.rhs) st (scanProductions A ps st) := by
  induction ps with
  | nil => intro st; exact Grew_refl _ _
  | cons p ps ih =>
    intro st
    have hmono : ∀ st1 st2, Grew (fun c => ∃ p ∈ ps, p.lhs = [A] ∧ [c] ∈ p.rhs) st1 st2 →
        Grew (fun c => ∃ p2 ∈ p :: ps, p2.lhs = [A] ∧ [c] ∈ p2.rhs) st1 st2 :=
      fun st1 st2 h => Grew_mono h (fun c ⟨p2, hp2, h2⟩ => ⟨p2, List.mem_cons_of_mem _ hp2, h2⟩)
    unfold scanProductions
    split
    · exact hmono _ _ (ih _)
    · rename_i hl
      simp only [ne_eq, Decidable.not_not] at hl
      refine Grew_trans ?_ (hmono _ _ (ih _))
      exact Grew_mono (scanTokens_grew p.rhs st)
        (fun c hc => ⟨p, List.mem_cons_self _ _, hl, hc⟩)

theorem scanProductions_covers (A : Char) (ps : List Production) :
    ∀ (st : List Char × List Char) (p : Production) (B : Char),
      p ∈ ps → p.lhs = [A] → [B] ∈ p.rhs → isupper B = true →
      B ∈ (scanProductions A ps st).1 := by
  induction ps with
  | nil => intro st p B h; simp at h
  | cons p0 ps ih =>
    intro st p B hp hl hB hup
    unfold scanProductions
    rcases List.mem_cons.mp hp with heq | hin
    · subst heq
      rw [if_neg (by simpa using hl)]
      exact (scanProductions_grew A ps _).mem_mono (scanTokens_covers p.rhs st B hB hup)
    · split
      · exact ih _ p B hin hl hB hup
      · exact ih _ p B hin hl hB hup

theorem toNat_injective : Function.Injective Char.toNat := by
  intro a b h
  rw [← Char.ofNat_toNat a, ← Char.ofNat_toNat b, h]

theorem upper_letters_le (r : List Char) (hnd : r.Nodup)
    (hup : ∀ c ∈ r, isupper c = true) : r.length ≤ 26 := by
  have h1 : (r.map Char.toNat).Nodup := hnd.map toNat_injective
  have h2 : r.map Char.toNat ⊆ List.range' 65 26 := by
    intro n hn
    obtain ⟨c, hc, rfl⟩ := List.mem_map.mp hn
    have := hup c hc
    simp only [isupper, Bool.and_eq_true, decide_eq_true_eq] at this
    simp only [List.mem_range'_1]
    omega
  have h3 := (List.subperm_of_subset h1 h2).length_le
  simpa using h3

theorem reachLoop_spec (productions : List Production) (S : Char) :
    ∀ (fuel : Nat) (r q : List Char),
      r.Nodup → (∀ c ∈ r, isupper c = true) → (∀ c ∈ q, c ∈ r) → S ∈ r →
      (∀ A ∈ r, A ∉ q → ∀ p ∈ productions, p.lhs = [A] →
        ∀ B, [B] ∈ p.rhs → isupper B = true → B ∈ r) →
      (∀ c ∈ r, InLeast productions S c) →
      q.length + 27 ≤ fuel + r.length →
      ∃ R, reachLoop productions fuel r q = some R ∧ S ∈ R ∧
        ClosedUnder productions (fun c => c ∈ R) ∧ ∀ c ∈ R, InLeast productions S c := by
  intro fuel
  induction fuel with
  | zero =>
    intro r q hnd hup _ _ _ _ hfuel
    have := upper_letters_le r hnd hup
    omega
  | succ f ih =>
    intro r q hnd hup hq hS hcl hleast hfuel
    rcases q with _ | ⟨A, q⟩
    · refine ⟨r, rfl, hS, ?_, hleast⟩
      intro A B p hA hp hl hB hu
      exact hcl A hA (by simp) p hp hl B hB hu
    · have hg := scanProductions_grew A productions (r, q)
      obtain ⟨new, hq2, hperm, hnd2, hsrc⟩ := hg
      have hAr : A ∈ r := hq A (List.mem_cons_self _ _)
      simp only at hq2 hperm hnd2
      have hmem : ∀ c, c ∈ (scanProductions A productions (r, q)).1 ↔ c ∈ new ∨ c ∈ r := by
        intro c; rw [hperm.mem_iff, List.mem_append]
      unfold reachLoop
      apply ih
      · exact hperm.nodup_iff.mpr (hnd2 hnd)
      · intro c hc
        rcases (hmem c).mp hc with h | h
        · exact (hsrc c h).1
        · exact hup c h
      · intro c hc
        rw [hq2] at hc
        rcases List.mem_append.mp hc with h | h
        · exact (hmem c).mpr (Or.inr (hq c (List.mem_cons_of_mem _ h)))
        · exact (hmem c).mpr (Or.inl h)
      · exact (hmem S).mpr (Or.inr hS)
      · intro A2 hA2 hnq p hp hl B hB hu
        rw [hq2] at hnq
        by_cases hA2A : A2 = A
        · subst hA2A
          exact scanProductions_covers A2 productions (r, q) p B hp hl hB hu
        · rcases (hmem A2).mp hA2 with h | h
          · exact absurd (List.mem_append_right _ h) hnq
          · have hnq2 : A2 ∉ A :: q := by
              intro hin
              rcases List.mem_cons.mp hin with e | e
              · exact hA2A e
              · exact hnq (List.mem_append_left _ e)
            exact (hmem B).mpr (Or.inr (hcl A2 h hnq2 p hp hl B hB hu))
      · intro c hc
        rcases (hmem c).mp hc with h | h
        · obtain ⟨hu, p, hp, hl, hB⟩ := hsrc c h
          intro X hXS hX
          exact hX A c p (hleast A hAr X hXS hX) hp hl hB hu
        · exact hleast c h
      · rw [hq2, hperm.length_eq]
        simp only [List.length_append, List.length_cons] at hfuel ⊢
        omega

/-- C6. When the start symbol is a single upper-case letter `S`, `ReachableNonTerminals`
returns (the fuel of the traversal is enough), and the set returned is the least set that
holds `S` and is closed under the rule: if `A` is in the set and a production with the
left-hand side `A` has a right-hand-side token that is a single upper-case letter `B`,
then `B` is in the set. For `S -> AB`, `A -> a`, `B -> b`, `C -> c` it returns
`{A, B, S}`, without `C`. -/
theorem C6_reachable_is_least_closed_set (g : Grammar) (S : Char)
    (hstart : g.start_symbol_ = [S]) (hup : isupper S = true) :
    (∃ R, ReachableNonTerminals g = some R ∧ S ∈ R ∧
      ClosedUnder g.productions_ (fun c => c ∈ R) ∧
      ∀ X : Char → Prop, X S → ClosedUnder g.productions_ X → ∀ c ∈ R, X c) ∧
    ReachableNonTerminals declaredExample = some ['A', 'B', 'S'] ∧
    'C' ∉ ['A', 'B', 'S'] := by
  refine ⟨?_, by decide, by decide⟩
  have h := reachLoop_spec g.productions_ S 27 [S] [S] (by simp) (by simpa using hup)
    (by simp) (by simp) (by simp) (by
      intro c hc X hXS _
      simp only [List.mem_singleton] at hc
      subst hc
      exact hXS) (by simp)
  obtain ⟨R, hR, hS, hcl, hleast⟩ := h
  refine ⟨R, ?_, hS, hcl, fun X hXS hX c hc => hleast c hc X hXS hX⟩
  unfold ReachableNonTerminals
  rw [hstart]
  simp only [hup]
  exact hR

theorem C6_reachable_is_least_closed_set_witness :
    (∃ R, ReachableNonTerminals declaredExample = some R ∧ 'S' ∈ R ∧
      ClosedUnder declaredExample.productions_ (fun c => c ∈ R) ∧
      ∀ X : Char → Prop, X 'S' → ClosedUnder declaredExample.productions_ X →
        ∀ c ∈ R, X c) ∧
    ReachableNonTerminals declaredExample = some ['A', 'B', 'S'] ∧
    'C' ∉ ['A', 'B', 'S'] :=
  C6_reachable_is_least_closed_set declaredExample 'S' rfl (by decide)

/-! ## The first loop -/

theorem lookup_none_iff (m : List (Char × Str)) (t : Char) :
    m.lookup t = none ↔ t ∉ m.map Prod.fst := by
  rw [List.lookup_eq_none_iff]
  simp only [List.mem_map, not_exists, not_and, bne_iff_ne, ne_eq]
  constructor
  · intro h e he heq; exact h e he heq.symm
  · intro h e he heq; exact h e he heq.symm

theorem mem_of_lookup (m : List (Char × Str)) (t : Char) (nt : Str)
    (h : m.lookup t = some nt) : (t, nt) ∈ m := by
  obtain ⟨l1, l2, rfl, _⟩ := List.lookup_eq_some_iff.mp h
  simp

theorem TerminalToNonTerminal_known (g : Grammar) (t : Char) (hc : Clean g)
    (ht : t ∈ keys g) : TerminalToNonTerminal g t = some (['C', t], g) := by
  cases hl : g.terminal_to_nt_.lookup t with
  | none => exact absurd ht ((lookup_none_iff _ _).mp hl)
  | some nt =>
    have := hc.1 _ (mem_of_lookup _ _ _ hl)
    simp only at this
    subst this
    simp [TerminalToNonTerminal, hl]

theorem TerminalToNonTerminal_new (g : Grammar) (t : Char) (hc : Clean g)
    (ht : t ∉ keys g) : TerminalToNonTerminal g t = some (['C', t], addAux g t) := by
  have hl : g.terminal_to_nt_.lookup t = none := (lookup_none_iff _ _).mpr ht
  have hfree : ['C', t] ∉ g.nonterminals_ := by
    intro hin
    rcases hc.2 _ hin with h1 | ⟨e, he, heq⟩
    · simp at h1
    · rw [hc.1 e he] at heq
      have : t = e.1 := by simpa using heq
      exact ht (List.mem_map.mpr ⟨e, he, this.symm⟩)
  simp [TerminalToNonTerminal, hl, findCandidate, hfree, addAux, auxProd]

theorem Clean_addAux (g : Grammar) (t : Char) (hc : Clean g) : Clean (addAux g t) := by
  constructor
  · intro e he
    simp only [addAux, List.mem_append, List.mem_singleton] at he
    rcases he with h | h
    · exact hc.1 e h
    · subst h; rfl
  · intro nt hnt
    simp only [addAux, mem_set_insert] at hnt
    rcases hnt with h | h
    · right
      exact ⟨(t, ['C', t]), by simp [addAux], h⟩
    · rcases hc.2 nt h with h1 | ⟨e, he, heq⟩
      · exact Or.inl h1
      · right
        exact ⟨e, by simp [addAux, he], heq⟩

theorem keys_addAux (g : Grammar) (t : Char) : keys (addAux g t) = keys g ++ [t] := by
  simp [keys, addAux]

theorem extend_cons (g : Grammar) (t : Char) (ts : List Char) :
    extend g (t :: ts) = extend (addAux g t) ts := rfl

theorem extend_append (g : Grammar) (ts us : List Char) :
    extend g (ts ++ us) = extend (extend g ts) us := by
  simp [extend, List.foldl_append]

theorem Clean_extend (ts : List Char) : ∀ g : Grammar, Clean g → Clean (extend g ts) := by
  induction ts with
  | nil => intro g h; exact h
  | cons t ts ih => intro g h; exact ih _ (Clean_addAux g t h)

theorem keys_extend (ts : List Char) : ∀ g : Grammar, keys (extend g ts) = keys g ++ ts := by
  induction ts with
  | nil => intro g; simp [extend]
  | cons t ts ih => intro g; rw [extend_cons, ih, keys_addAux]; simp

theorem productions_extend (ts : List Char) : ∀ g : Grammar,
    (extend g ts).productions_ = g.productions_ ++ ts.map auxProd := by
  induction ts with
  | nil => intro g; simp [extend]
  | cons t ts ih => intro g; rw [extend_cons, ih]; simp [addAux]

theorem start_extend (ts : List Char) : ∀ g : Grammar,
    (extend g ts).start_symbol_ = g.start_symbol_ := by
  induction ts with
  | nil => intro g; rfl
  | cons t ts ih => intro g; rw [extend_cons, ih]; rfl

theorem counter_extend (ts : List Char) : ∀ g : Grammar,
    (extend g ts).counter_d_ = g.counter_d_ := by
  induction ts with
  | nil => intro g; rfl
  | cons t ts ih => intro g; rw [extend_cons, ih]; rfl

theorem extend_setProductions (ts : List Char) : ∀ (g : Grammar) (ps qs : List Production),
    { extend { g with productions_ := ps } ts with productions_ := qs }
      = { extend g ts with productions_ := qs } := by
  induction ts with
  | nil => intro g ps qs; rfl
  | cons t ts ih =>
    intro g ps qs
    rw [extend_cons, extend_cons]
    have h : addAux { g with productions_ := ps } t
        = { addAux g t with productions_ := ps ++ [auxProd t] } := rfl
    rw [h, ih]

theorem isolateTokens_spec (toks : List Str) : ∀ g : Grammar, Clean g →
    ∃ ts : List Char, isolateTokens g toks = some (toks.map isolate, extend g ts) ∧
      ts.Nodup ∧
      (∀ t ∈ ts, t ∉ keys g ∧ isupper t = false ∧ [t] ∈ toks) ∧
      (∀ t, [t] ∈ toks → isupper t = false → t ∈ keys g ∨ t ∈ ts) := by
  induction toks with
  | nil => intro g _; exact ⟨[], rfl, List.nodup_nil, by simp, by simp⟩
  | cons tok toks ih =>
    intro g hc
    have keep : isolate tok = tok → (∀ t, tok = [t] → isupper t = true) →
        isolateTokens g (tok :: toks) = (isolateTokens g toks).map
          (fun r => (tok :: r.1, r.2)) →
        ∃ ts : List Char, isolateTokens g (tok :: toks)
            = some ((tok :: toks).map isolate, extend g ts) ∧
          ts.Nodup ∧
          (∀ t ∈ ts, t ∉ keys g ∧ isupper t = false ∧ [t] ∈ tok :: toks) ∧
          (∀ t, [t] ∈ tok :: toks → isupper t = false → t ∈ keys g ∨ t ∈ ts) := by
      intro hiso hup heq
      obtain ⟨ts, h1, h2, h3, h4⟩ := ih g hc
      refine ⟨ts, ?_, h2, ?_, ?_⟩
      · rw [heq, h1]; simp [hiso]
      · intro t ht
        obtain ⟨a, b, c⟩ := h3 t ht
        exact ⟨a, b, List.mem_cons_of_mem _ c⟩
      · intro t ht hu
        rcases List.mem_cons.mp ht with e | e
        · have := hup t e.symm
          rw [this] at hu; cases hu
        · exact h4 t e hu
    rcases tok with _ | ⟨c, _ | ⟨d, rest⟩⟩
    · apply keep
      · simp [isolate, isTerminalTok]
      · intro t h; cases h
      · simp only [isolateTokens]
        cases isolateTokens g toks <;> rfl
    · by_cases hup : isupper c = true
      · apply keep
        · simp [isolate, isTerminalTok, hup]
        · intro t h
          have : c = t := by simpa using h
          rw [← this]; exact hup
        · simp only [isolateTokens, hup, if_true]
          cases isolateTokens g toks <;> rfl
      · simp only [Bool.not_eq_true] at hup
        have hiso : isolate [c] = ['C', c] := by simp [isolate, isTerminalTok, hup]
        by_cases hk : c ∈ keys g
        · obtain ⟨ts, h1, h2, h3, h4⟩ := ih g hc
          refine ⟨ts, ?_, h2, ?_, ?_⟩
          · simp only [isolateTokens, hup, TerminalToNonTerminal_known g c hc hk, h1]
            simp [hiso]
          · intro t ht
            obtain ⟨a, b, c⟩ := h3 t ht
            exact ⟨a, b, List.mem_cons_of_mem _ c⟩
          · intro t ht hu
            rcases List.mem_cons.mp ht with e | e
            · have : t = c := by simpa using e
              subst this
              exact Or.inl hk
            · exact h4 t e hu
        · obtain ⟨ts, h1, h2, h3, h4⟩ := ih (addAux g c) (Clean_addAux g c hc)
          rw [keys_addAux] at h3 h4
          refine ⟨c :: ts, ?_, ?_, ?_, ?_⟩
          · simp only [isolateTokens, hup, TerminalToNonTerminal_new g c hc hk, h1]
            simp [hiso, extend_cons]
          · refine List.nodup_cons.mpr ⟨?_, h2⟩
            intro hin
            exact (h3 c hin).1 (by simp)
          · intro t ht
            rcases List.mem_cons.mp ht with e | e
            · subst e
              exact ⟨hk, hup, List.mem_cons_self _ _⟩
            · obtain ⟨a, b, c⟩ := h3 t e
              exact ⟨fun h => a (List.mem_append_left _ h), b, List.mem_cons_of_mem _ c⟩
          · intro t ht hu
            rcases List.mem_cons.mp ht with e | e
            · have : t = c := by simpa using e
              subst this
              exact Or.inr (List.mem_cons_self _ _)
            · rcases h4 t e hu with h | h
              · rcases List.mem_append.mp h with h | h
                · exact Or.inl h
                · right
                  have : t = c := by simpa using h
                  subst this
                  exact List.mem_cons_self _ _
              · exact Or.inr (List.mem_cons_of_mem _ h)
    · apply keep
      · simp [isolate, isTerminalTok]
      · intro t h; simp at h
      · simp only [isolateTokens]
        cases isolateTokens g toks <;> rfl

theorem getElem?_mid (done todo rest : List Production) (p : Production) :
    (done ++ p :: todo ++ rest)[done.length]? = some p := by
  rw [List.append_assoc, List.getElem?_append_right (Nat.le_refl _)]
  simp

theorem set_mid (done todo rest : List Production) (p q : Production) :
    (done ++ p :: todo ++ rest).set done.length q = done ++ q :: todo ++ rest := by
  rw [List.append_assoc, List.append_assoc, List.set_append_right _ _ (Nat.le_refl _)]
  simp

theorem firstLoop_spec (count : Nat) :
    ∀ (i : Nat) (g : Grammar) (done todo rest : List Production),
      Clean g → g.productions_ = done ++ todo ++ rest → done.length = i →
      todo.length = count →
      ∃ ts : List Char,
        firstLoop count i g = some
          { extend g ts with
            productions_ := done ++ todo.map isolateProd ++ rest ++ ts.map auxProd } ∧
        ts.Nodup ∧
        (∀ t ∈ ts, t ∉ keys g ∧ isupper t = false ∧
          ∃ p ∈ todo, 2 ≤ p.rhs.length ∧ [t] ∈ p.rhs) ∧
        (∀ p ∈ todo, 2 ≤ p.rhs.length → ∀ t, [t] ∈ p.rhs → isupper t = false →
          t ∈ keys g ∨ t ∈ ts) := by
  induction count with
  | zero =>
    intro i g done todo rest hc hp hi ht
    have : todo = [] := List.length_eq_zero.mp ht
    subst this
    refine ⟨[], ?_, List.nodup_nil, by simp, by simp⟩
    simp only [firstLoop, extend, List.foldl_nil, List.map_nil, List.append_nil] at hp ⊢
    rw [← hp]
  | succ n ih =>
    intro i g done todo rest hc hp hi ht
    rcases todo with _ | ⟨p, todo⟩
    · simp at ht
    have hlen : todo.length = n := by simpa using ht
    have hget : g.productions_[i]? = some p := by
      rw [hp, ← hi]; exact getElem?_mid done todo rest p
    by_cases h2 : 2 ≤ p.rhs.length
    · obtain ⟨ts1, e1, nd1, a1, b1⟩ := isolateTokens_spec p.rhs g hc
      have hiso : isolateProd p = { lhs := p.lhs, rhs := p.rhs.map isolate } := by
        simp [isolateProd, h2]
      have hset : (extend g ts1).productions_.set i { lhs := p.lhs, rhs := p.rhs.map isolate }
          = (done ++ [isolateProd p]) ++ todo ++ (rest ++ ts1.map auxProd) := by
        rw [productions_extend, hp, ← hi, hiso]
        have := set_mid done todo (rest ++ ts1.map auxProd) p
          { lhs := p.lhs, rhs := p.rhs.map isolate }
        simp only [List.append_assoc, List.cons_append, List.nil_append] at this ⊢
        exact this
      have hc1 : Clean { extend g ts1 with productions_ :=
          ((extend g ts1).productions_.set i { lhs := p.lhs, rhs := p.rhs.map isolate }) } :=
        Clean_extend ts1 g hc
      obtain ⟨ts2, e2, nd2, a2, b2⟩ := ih (i + 1) _ (done ++ [isolateProd p]) todo
        (rest ++ ts1.map auxProd) hc1 hset (by simp [hi]) hlen
      have hk : keys { extend g ts1 with productions_ :=
          ((extend g ts1).productions_.set i { lhs := p.lhs, rhs := p.rhs.map isolate }) }
          = keys g ++ ts1 := keys_extend ts1 g
      rw [hk] at a2 b2
      refine ⟨ts1 ++ ts2, ?_, ?_, ?_, ?_⟩
      · unfold firstLoop
        simp only [hget, h2, if_true, e1]
        rw [e2, extend_setProductions, ← extend_append]
        simp
      · refine List.nodup_append.mpr ⟨nd1, nd2, ?_⟩
        intro t h1 h2
        exact (a2 t h2).1 (List.mem_append_right _ h1)
      · intro t ht
        rcases List.mem_append.mp ht with h | h
        · obtain ⟨x, y, z⟩ := a1 t h
          exact ⟨x, y, p, List.mem_cons_self _ _, h2, z⟩
        · obtain ⟨x, y, q, hq, z⟩ := a2 t h
          exact ⟨fun hh => x (List.mem_append_left _ hh), y, q, List.mem_cons_of_mem _ hq, z⟩
      · intro q hq hq2 t htq hu
        rcases List.mem_cons.mp hq with e | e
        · subst e
          rcases b1 t htq hu with h | h
          · exact Or.inl h
          · exact Or.inr (List.mem_append_left _ h)
        · rcases b2 q e hq2 t htq hu with h | h
          · rcases List.mem_append.mp h with h | h
            · exact Or.inl h
            · exact Or.inr (List.mem_append_left _ h)
          · exact Or.inr (List.mem_append_right _ h)
    · have hiso : isolateProd p = p := by simp [isolateProd, h2]
      obtain ⟨ts2, e2, nd2, a2, b2⟩ := ih (i + 1) g (done ++ [p]) todo rest hc
        (by rw [hp]; simp) (by simp [hi]) hlen
      refine ⟨ts2, ?_, nd2, ?_, ?_⟩
      · unfold firstLoop
        simp only [hget, h2, if_false]
        rw [e2]
        simp [hiso]
      · intro t ht
        obtain ⟨x, y, q, hq, z⟩ := a2 t ht
        exact ⟨x, y, q, List.mem_cons_of_mem _ hq, z⟩
      · intro q hq hq2 t htq hu
        rcases List.mem_cons.mp hq with e | e
        · subst e; exact absurd hq2 h2
        · exact b2 q e hq2 t htq hu

/-! ## The format pass -/

theorem validateTerminals_ok_iff (ts : List Char) :
    validateTerminals ts = .ok () ↔ ∀ t ∈ ts, iscntrl t = false := by
  induction ts with
  | nil => simp [validateTerminals]
  | cons t ts ih =>
    by_cases h : iscntrl t = true
    · simp [validateTerminals, h]
    · simp only [Bool.not_eq_true] at h
      simp [validateTerminals, h, ih]

theorem validateNonTerminals_ok_iff (nts : List Str) :
    validateNonTerminals nts = .ok () ↔ ∀ nt ∈ nts, ∃ c, nt = [c] ∧ isupper c = true := by
  induction nts with
  | nil => simp [validateNonTerminals]
  | cons nt nts ih =>
    rcases nt with _ | ⟨c, _ | ⟨d, r⟩⟩
    · simp [validateNonTerminals]
    · by_cases h : isupper c = true
      · simp [validateNonTerminals, startsUpper, h, ih]
      · simp only [Bool.not_eq_true] at h
        simp [validateNonTerminals, startsUpper, h]
    · simp [validateNonTerminals]

theorem validateTokens_ok_iff (g : Grammar) (toks : List Str) :
    validateTokens g toks = .ok () ↔ ∀ tok ∈ toks,
      ∃ c cs, tok = c :: cs ∧
        (if isupper c then tok ∈ g.nonterminals_ else cs = [] ∧ c ∈ g.terminals_) := by
  induction toks with
  | nil => simp [validateTokens]
  | cons tok toks ih =>
    rcases tok with _ | ⟨c, cs⟩
    · simp [validateTokens]
    · have head : (∃ c2 cs2, c :: cs = c2 :: cs2 ∧
          (if isupper c2 then c :: cs ∈ g.nonterminals_ else cs2 = [] ∧ c2 ∈ g.terminals_)) ↔
          (if isupper c then c :: cs ∈ g.nonterminals_ else cs = [] ∧ c ∈ g.terminals_) := by
        constructor
        · rintro ⟨c2, cs2, h, hh⟩
          cases h
          exact hh
        · intro h
          exact ⟨c, cs, rfl, h⟩
      rw [List.forall_mem_cons, head, ← ih]
      by_cases hu : isupper c = true
      · by_cases hm : (c :: cs) ∈ g.nonterminals_
        · simp [validateTokens, hu, hm]
        · simp [validateTokens, hu, hm]
      · simp only [Bool.not_eq_true] at hu
        by_cases hcs : cs = []
        · by_cases hm : c ∈ g.terminals_
          · simp [validateTokens, hu, hcs, hm]
          · simp [validateTokens, hu, hcs, hm]
        · simp [validateTokens, hu, hcs]

theorem validateProductions_ok_iff (g : Grammar) (ps : List Production) :
    validateProductions g ps = .ok () ↔ ∀ p ∈ ps, p.lhs ∈ g.nonterminals_ ∧
      (p.rhs ≠ [['&']] → validateTokens g p.rhs = .ok ()) := by
  induction ps with
  | nil => simp [validateProductions]
  | cons p ps ih =>
    by_cases hl : p.lhs ∈ g.nonterminals_
    · by_cases he : p.rhs = [['&']]
      · simp [validateProductions, hl, he, ih]
      · rcases except_unit_cases (validateTokens g p.rhs) with h | ⟨e, h⟩
        · simp [validateProductions, hl, he, h, ih]
        · simp [validateProductions, hl, he, h]
    · simp [validateProductions, hl]

theorem ValidateFormat_ok_iff (g : Grammar) :
    ValidateFormat g = .ok () ↔
      validateTerminals g.terminals_ = .ok () ∧ validateNonTerminals g.nonterminals_ = .ok () ∧
        validateProductions g g.productions_ = .ok () := by
  unfold ValidateFormat
  rcases except_unit_cases (validateTerminals g.terminals_) with h1 | ⟨e, h1⟩
  · rcases except_unit_cases (validateNonTerminals g.nonterminals_) with h2 | ⟨e, h2⟩
    · simp [h1, h2]
    · simp [h1, h2]
  · simp [h1]

theorem Validated_of_ok (g : Grammar) (h : ValidateFormat g = .ok ()) : Validated g := by
  obtain ⟨h1, h2, h3⟩ := (ValidateFormat_ok_iff g).mp h
  have hn := (validateNonTerminals_ok_iff _).mp h2
  have hp := (validateProductions_ok_iff g _).mp h3
  refine ⟨(validateTerminals_ok_iff _).mp h1, hn, fun p hp1 => (hp p hp1).1, ?_⟩
  intro p hp1 hne tok htok
  obtain ⟨c, cs, rfl, hc⟩ := (validateTokens_ok_iff g _).mp ((hp p hp1).2 hne) tok htok
  by_cases hu : isupper c = true
  · rw [if_pos hu] at hc
    obtain ⟨d, hd, _⟩ := hn _ hc
    have hcs : cs = [] := by simpa using (List.cons.inj hd).2
    subst hcs
    exact ⟨c, rfl, by rw [if_pos hu]; exact hc⟩
  · rw [if_neg hu] at hc
    obtain ⟨hcs, hm⟩ := hc
    subst hcs
    exact ⟨c, rfl, by rw [if_neg hu]; exact hm⟩

/-! ## The reader -/

theorem TrimString_head (s : Str) (c : Char) (r : Str) (h : TrimString s = c :: r) :
    isTrimChar c = false := by
  unfold TrimString at h
  have hpre : (s.dropWhile isTrimChar).rdropWhile isTrimChar <+: s.dropWhile isTrimChar :=
    List.rdropWhile_prefix _ _
  rw [h] at hpre
  obtain ⟨t, ht⟩ := hpre
  have hne : s.dropWhile isTrimChar ≠ [] := by rw [← ht]; simp
  have := List.head_dropWhile_not isTrimChar s hne
  simp only [← ht, List.cons_append, List.head_cons] at this
  simpa using this

theorem extractWord_spec (s w r : Str) (h : extractWord s = some (w, r)) :
    w ≠ [] ∧ ∀ c ∈ w, isspace c = false := by
  unfold extractWord at h
  simp only at h
  split at h
  · cases h
  · rename_i hne
    simp only [Option.some.injEq, Prod.mk.injEq] at h
    obtain ⟨hw, _⟩ := h
    subst hw
    constructor
    · have hh := List.head_dropWhile_not isspace s hne
      rcases hd : s.dropWhile isspace with _ | ⟨c, cs⟩
      · exact absurd hd hne
      · simp only [hd, List.head_cons] at hh
        simp [List.takeWhile_cons, hh]
    · intro c hc
      have := List.mem_takeWhile_imp hc
      simpa using this

theorem tokenizeRhs_eq (rhs_all : Str) : tokenizeRhs rhs_all = rhs_all.map (fun c => [c]) := by
  unfold tokenizeRhs
  split
  · rename_i h; subst h; rfl
  · simp

theorem parseProduction_spec (line : Str) (p : Production)
    (h : parseProduction line = .ok p) :
    (p.lhs ≠ [] ∧ ∀ c ∈ p.lhs, isspace c = false) ∧
    ∃ rhs_all : Str, rhs_all ≠ [] ∧ (∀ c ∈ rhs_all, isspace c = false) ∧
      p.rhs = rhs_all.map (fun c => [c]) := by
  unfold parseProduction at h
  split at h
  · cases h
  · rename_i left rest h1
    split at h
    · cases h
    · rename_i rhs_all r2 h2
      simp only [Except.ok.injEq] at h
      subst h
      obtain ⟨a1, a2⟩ := extractWord_spec _ _ _ h1
      obtain ⟨b1, b2⟩ := extractWord_spec _ _ _ h2
      exact ⟨⟨a1, a2⟩, rhs_all, b1, b2, tokenizeRhs_eq _⟩

theorem readProductions_spec (ls : List Str) : ∀ (n : Nat) (acc ps : List Production),
    readProductions n ls acc = .ok ps →
    ∀ p ∈ ps, p ∈ acc ∨ ∃ line, parseProduction line = .ok p := by
  induction ls with
  | nil =>
    intro n acc ps h p hp
    cases n with
    | zero => simp only [readProductions, Except.ok.injEq] at h; subst h; exact Or.inl hp
    | succ n => simp [readProductions] at h
  | cons line rest ih =>
    intro n acc ps h p hp
    cases n with
    | zero => simp only [readProductions, Except.ok.injEq] at h; subst h; exact Or.inl hp
    | succ n =>
      simp only [readProductions] at h
      split at h
      · exact ih _ _ _ h p hp
      · split at h
        · cases h
        · rename_i prod hprod
          rcases ih _ _ _ h p hp with h1 | h1
          · rcases List.mem_append.mp h1 with h2 | h2
            · exact Or.inl h2
            · simp only [List.mem_singleton] at h2
              subst h2
              exact Or.inr ⟨_, hprod⟩
          · exact Or.inr h1

theorem readTerminals_spec (ls : List Str) : ∀ (n : Nat) (acc ts : List Char) (rest : List Str),
    readTerminals n ls acc = .ok (ts, rest) →
    ∀ t ∈ ts, t ∈ acc ∨ isTrimChar t = false := by
  induction ls with
  | nil =>
    intro n acc ts rest h t ht
    cases n with
    | zero =>
      simp only [readTerminals, Except.ok.injEq, Prod.mk.injEq] at h
      obtain ⟨h1, _⟩ := h; subst h1; exact Or.inl ht
    | succ n => simp [readTerminals] at h
  | cons line ls ih =>
    intro n acc ts rest h t ht
    cases n with
    | zero =>
      simp only [readTerminals, Except.ok.injEq, Prod.mk.injEq] at h
      obtain ⟨h1, _⟩ := h; subst h1; exact Or.inl ht
    | succ n =>
      simp only [readTerminals] at h
      split at h
      · exact ih _ _ _ _ h t ht
      · split at h
        · rename_i c hc
          rcases ih _ _ _ _ h t ht with h1 | h1
          · rcases (mem_set_insert _ _ _).mp h1 with h2 | h2
            · subst h2
              exact Or.inr (TrimString_head _ _ _ hc)
            · exact Or.inl h2
          · exact Or.inr h1
        · cases h

theorem readNonTerminals_spec (ls : List Str) :
    ∀ (n : Nat) (nt_list nts nt_list2 nts2 : List Str) (rest : List Str),
      readNonTerminals n ls nt_list nts = .ok (nt_list2, nts2, rest) →
      (∀ x ∈ nt_list, x ∈ nts) → ∀ x ∈ nt_list2, x ∈ nts2 := by
  induction ls with
  | nil =>
    intro n nt_list nts nt_list2 nts2 rest h hinv
    cases n with
    | zero =>
      simp only [readNonTerminals, Except.ok.injEq, Prod.mk.injEq] at h
      obtain ⟨h1, h2, _⟩ := h; subst h1 h2; exact hinv
    | succ n => simp [readNonTerminals] at h
  | cons line ls ih =>
    intro n nt_list nts nt_list2 nts2 rest h hinv
    cases n with
    | zero =>
      simp only [readNonTerminals, Except.ok.injEq, Prod.mk.injEq] at h
      obtain ⟨h1, h2, _⟩ := h; subst h1 h2; exact hinv
    | succ n =>
      simp only [readNonTerminals] at h
      split at h
      · exact ih _ _ _ _ _ _ h hinv
      · refine ih _ _ _ _ _ _ h ?_
        intro x hx
        rcases List.mem_append.mp hx with h1 | h1
        · exact (mem_set_insert _ _ _).mpr (Or.inr (hinv x h1))
        · simp only [List.mem_singleton] at h1
          exact (mem_set_insert _ _ _).mpr (Or.inl h1)

theorem Loaded_of_ok (text : Str) (g : Grammar) (h : ReadFromFile text = .ok g) :
    Loaded g := by
  unfold ReadFromFile at h
  split at h
  · cases h
  · rename_i n_terms ls1 _
    split at h
    · cases h
    · rename_i terminals ls2 hT
      split at h
      · cases h
      · rename_i n_nt ls3 _
        split at h
        · cases h
        · rename_i nt_list nonterminals ls4 hN
          split at h
          · cases h
          · rename_i start tl
            split at h
            · cases h
            · rename_i pcount ls5 _
              split at h
              · cases h
              · rename_i productions hP
                simp only [Except.ok.injEq] at h
                subst h
                have hps := readProductions_spec _ _ _ _ hP
                refine ⟨rfl, rfl, ?_, ?_, ?_, ?_, ?_⟩
                · exact readNonTerminals_spec _ _ _ _ _ _ _ hN (by simp) start
                    (List.mem_cons_self _ _)
                · intro t ht
                  rcases readTerminals_spec _ _ _ _ _ hT t ht with h1 | h1
                  · simp at h1
                  · exact h1
                · intro p hp
                  rcases hps p hp with h1 | ⟨line, h1⟩
                  · simp at h1
                  · obtain ⟨_, rhs_all, hne, _, hr⟩ := parseProduction_spec _ _ h1
                    rw [hr]
                    simpa using hne
                · intro p hp tok htok
                  rcases hps p hp with h1 | ⟨line, h1⟩
                  · simp at h1
                  · obtain ⟨_, rhs_all, _, hs, hr⟩ := parseProduction_spec _ _ h1
                    rw [hr] at htok
                    obtain ⟨c, hc, rfl⟩ := List.mem_map.mp htok
                    exact ⟨c, rfl, hs c hc⟩
                · intro p hp
                  rcases hps p hp with h1 | ⟨line, h1⟩
                  · simp at h1
                  · exact (parseProduction_spec _ _ h1).1

/-! ## The result of the transformation -/

theorem addDs_setProductions (n : Nat) : ∀ (g : Grammar) (ps : List Production),
    addDs n { g with productions_ := ps } = { addDs n g with productions_ := ps } := by
  induction n with
  | zero => intro g ps; rfl
  | succ n ih =>
    intro g ps
    show addDs n (NewD { g with productions_ := ps }).2
      = { addDs n (NewD g).2 with productions_ := ps }
    have e : (NewD { g with productions_ := ps }).2
        = { (NewD g).2 with productions_ := ps } := rfl
    rw [e]
    exact ih _ ps

theorem TransformToCNF_clean (g : Grammar) (hc : Clean g) :
    ∃ ts : List Char,
      TransformToCNF g = some
        { addDs (dCount (isolated g ts)) (extend g ts) with
          productions_ := binarize g.counter_d_ (isolated g ts) } ∧
      firstLoop g.productions_.length 0 g = some
        { extend g ts with productions_ := isolated g ts } ∧
      ts.Nodup ∧
      (∀ t ∈ ts, t ∉ keys g ∧ isupper t = false ∧
        ∃ p ∈ g.productions_, 2 ≤ p.rhs.length ∧ [t] ∈ p.rhs) ∧
      (∀ p ∈ g.productions_, 2 ≤ p.rhs.length → ∀ t, [t] ∈ p.rhs → isupper t = false →
        t ∈ keys g ∨ t ∈ ts) := by
  obtain ⟨ts, h1, h2, h3, h4⟩ := firstLoop_spec g.productions_.length 0 g [] g.productions_ []
    hc (by simp) rfl rfl
  have h1b : firstLoop g.productions_.length 0 g = some
      { extend g ts with productions_ := isolated g ts } := by
    rw [h1]; simp [isolated]
  refine ⟨ts, ?_, h1b, h2, h3, h4⟩
  unfold TransformToCNF
  rw [h1b]
  simp only
  rw [secondLoop_spec, addDs_setProductions]
  simp only [List.nil_append, counter_extend]

theorem Clean_of_loaded (g : Grammar) (hl : Loaded g) (hv : Validated g) : Clean g := by
  constructor
  · intro e he; rw [hl.map_empty] at he; simp at he
  · intro nt hnt
    obtain ⟨c, hc, _⟩ := hv.nonterminals_ok nt hnt
    left; rw [hc]; rfl

theorem mem_chain (rhs : List Str) : ∀ (k : Nat) (lhs : Str) (q : Production),
    2 ≤ rhs.length → q ∈ chain k lhs rhs →
    ∃ b c, q.rhs = [b, c] ∧ b ∈ rhs ∧ (c ∈ rhs ∨ ∃ j, c = dName j) := by
  induction rhs with
  | nil => intro k lhs q h; simp at h
  | cons b rest ih =>
    intro k lhs q h hq
    rcases rest with _ | ⟨c, _ | ⟨d, rest⟩⟩
    · simp at h
    · simp only [chain, List.mem_singleton] at hq
      subst hq
      exact ⟨b, c, rfl, by simp, Or.inl (by simp)⟩
    · rw [chain, List.mem_cons] at hq
      rcases hq with rfl | hq
      · exact ⟨b, dName (k + 1), rfl, by simp, Or.inr ⟨_, rfl⟩⟩
      · obtain ⟨x, y, h1, h2, h3⟩ := ih (k + 1) _ q (by simp) hq
        refine ⟨x, y, h1, List.mem_cons_of_mem _ h2, ?_⟩
        rcases h3 with h3 | h3
        · exact Or.inl (List.mem_cons_of_mem _ h3)
        · exact Or.inr h3

theorem mem_binarize (ps : List Production) : ∀ (k : Nat) (q : Production),
    q ∈ binarize k ps →
    (q ∈ ps ∧ q.rhs.length ≤ 2) ∨
      ∃ p ∈ ps, 3 ≤ p.rhs.length ∧ ∃ k2, q ∈ chain k2 p.lhs p.rhs := by
  induction ps with
  | nil => intro k q h; simp [binarize] at h
  | cons p ps ih =>
    intro k q h
    by_cases h3 : 3 ≤ p.rhs.length
    · rw [binarize, if_pos h3, List.mem_append] at h
      rcases h with h | h
      · exact Or.inr ⟨p, List.mem_cons_self _ _, h3, k, h⟩
      · rcases ih _ q h with ⟨a, b⟩ | ⟨p2, a, b⟩
        · exact Or.inl ⟨List.mem_cons_of_mem _ a, b⟩
        · exact Or.inr ⟨p2, List.mem_cons_of_mem _ a, b⟩
    · rw [binarize, if_neg h3, List.mem_cons] at h
      rcases h with h | h
      · subst h
        exact Or.inl ⟨List.mem_cons_self _ _, by omega⟩
      · rcases ih _ q h with ⟨a, b⟩ | ⟨p2, a, b⟩
        · exact Or.inl ⟨List.mem_cons_of_mem _ a, b⟩
        · exact Or.inr ⟨p2, List.mem_cons_of_mem _ a, b⟩

theorem startsUpper_dName (j : Nat) : startsUpper (dName j) = true := by
  simp [dName, startsUpper, isupper]

theorem startsUpper_isolate (c : Char) : startsUpper (isolate [c]) = true := by
  by_cases h : isupper c = true
  · simp [isolate, isTerminalTok, h, startsUpper]
  · simp only [Bool.not_eq_true] at h
    have e : isolate [c] = ['C', c] := by simp [isolate, isTerminalTok, h]
    rw [e]
    rfl

/-- The productions after the first loop, for a grammar that was read and passed the two
validations: a right-hand side of two tokens or more holds only tokens that start with an
upper-case letter, and a shorter one is a single terminal. -/
theorem isolated_shape (g : Grammar) (ts : List Char) (hl : Loaded g)
    (hpre : CheckPreconditions g = .ok ())
    (hts : ∀ t ∈ ts, isupper t = false) :
    ∀ p ∈ isolated g ts,
      (2 ≤ p.rhs.length ∧ ∀ tok ∈ p.rhs, startsUpper tok = true) ∨
      (∃ a : Char, p.rhs = [[a]] ∧ isupper a = false) := by
  intro p hp
  obtain ⟨_, hunit⟩ := (CheckPreconditions_ok_iff g).mp hpre
  rcases List.mem_append.mp hp with h | h
  · obtain ⟨p0, hp0, rfl⟩ := List.mem_map.mp h
    by_cases h2 : 2 ≤ p0.rhs.length
    · left
      simp only [isolateProd, if_pos h2, List.length_map]
      refine ⟨h2, ?_⟩
      intro tok htok
      obtain ⟨tok0, h0, rfl⟩ := List.mem_map.mp htok
      obtain ⟨c, rfl, _⟩ := hl.rhs_one p0 hp0 tok0 h0
      exact startsUpper_isolate c
    · right
      simp only [isolateProd, if_neg h2]
      rcases hr : p0.rhs with _ | ⟨tok, _ | ⟨tok2, rest⟩⟩
      · exact absurd hr (hl.rhs_ne p0 hp0)
      · obtain ⟨c, hc, _⟩ := hl.rhs_one p0 hp0 tok (by rw [hr]; simp)
        subst hc
        have := hunit p0 hp0 [c] hr
        exact ⟨c, rfl, by simpa [startsUpper] using this⟩
      · rw [hr] at h2; simp at h2
  · obtain ⟨t, ht, rfl⟩ := List.mem_map.mp h
    right
    exact ⟨t, rfl, hts t ht⟩

/-- After the two loops every right-hand side is two tokens that start with an upper-case
letter, or one token of one character that is not upper-case, for a grammar that was read
and passed the two validations. -/
theorem binarize_isolated_forms (g : Grammar) (ts : List Char) (k : Nat) (hl : Loaded g)
    (hpre : CheckPreconditions g = .ok ()) (hts : ∀ t ∈ ts, isupper t = false) :
    ∀ q ∈ binarize k (isolated g ts),
      (∃ B C : Str, q.rhs = [B, C] ∧ startsUpper B = true ∧ startsUpper C = true) ∨
      (∃ a : Char, q.rhs = [[a]] ∧ isupper a = false) := by
  intro q hq
  have hshape := isolated_shape g ts hl hpre hts
  rcases mem_binarize _ _ q hq with ⟨hm, _⟩ | ⟨p, hp, hp3, k2, hch⟩
  · rcases hshape q hm with ⟨h2, hup⟩ | h
    · left
      rcases hr : q.rhs with _ | ⟨b, _ | ⟨c, _ | ⟨d, rest⟩⟩⟩
      · rw [hr] at h2; simp at h2
      · rw [hr] at h2; simp at h2
      · exact ⟨b, c, rfl, hup b (by rw [hr]; simp), hup c (by rw [hr]; simp)⟩
      · rename_i hlen
        rw [hr] at hlen; simp at hlen
    · exact Or.inr h
  · left
    obtain ⟨b, c, hbc, hb, hc⟩ := mem_chain p.rhs k2 p.lhs q (by omega) hch
    rcases hshape p hp with ⟨_, hup⟩ | ⟨a, ha, _⟩
    · refine ⟨b, c, hbc, hup b hb, ?_⟩
      rcases hc with hc | ⟨j, rfl⟩
      · exact hup c hc
      · exact startsUpper_dName j
    · rw [ha] at hp3; simp at hp3

theorem lookup_of_key (g : Grammar) (hc : Clean g) (t : Char) (ht : t ∈ keys g) :
    g.terminal_to_nt_.lookup t = some ['C', t] := by
  cases hl : g.terminal_to_nt_.lookup t with
  | none => exact absurd ht ((lookup_none_iff _ _).mp hl)
  | some nt =>
    have := hc.1 _ (mem_of_lookup _ _ _ hl)
    simp only at this
    rw [this]

theorem chain_lhs (rhs : List Str) : ∀ (k : Nat) (lhs : Str) (q : Production),
    q ∈ chain k lhs rhs → q.lhs = lhs ∨ ∃ j, q.lhs = dName j := by
  induction rhs with
  | nil => intro k lhs q hq; simp only [chain, List.mem_singleton] at hq; subst hq; exact Or.inl rfl
  | cons b rest ih =>
    intro k lhs q hq
    rcases rest with _ | ⟨c, _ | ⟨d, rest⟩⟩
    · simp only [chain, List.mem_singleton] at hq; subst hq; exact Or.inl rfl
    · simp only [chain, List.mem_singleton] at hq; subst hq; exact Or.inl rfl
    · rw [chain, List.mem_cons] at hq
      rcases hq with rfl | hq
      · exact Or.inl rfl
      · rcases ih (k + 1) _ q hq with h | h
        · exact Or.inr ⟨_, h⟩
        · exact Or.inr h

theorem filter_lhs_binarize (N : Str) (hN : ∀ j, N ≠ dName j) (ps : List Production) :
    ∀ k : Nat, (∀ p ∈ ps, p.lhs = N → p.rhs.length ≤ 2) →
      (binarize k ps).filter (fun q => decide (q.lhs = N))
        = ps.filter (fun q => decide (q.lhs = N)) := by
  induction ps with
  | nil => intro k _; simp [binarize]
  | cons p ps ih =>
    intro k h
    have ih2 := fun k2 => ih k2 (fun q hq => h q (List.mem_cons_of_mem _ hq))
    by_cases h3 : 3 ≤ p.rhs.length
    · have hne : p.lhs ≠ N := by
        intro e
        have := h p (List.mem_cons_self _ _) e
        omega
      have hnil : (chain k p.lhs p.rhs).filter (fun q => decide (q.lhs = N)) = [] := by
        rw [List.filter_eq_nil_iff]
        intro q hq
        simp only [decide_eq_true_eq]
        rcases chain_lhs _ _ _ q hq with e | ⟨j, e⟩
        · rw [e]; exact hne
        · rw [e]; exact fun e2 => hN j e2.symm
      rw [binarize, if_pos h3, List.filter_append, hnil, ih2, List.nil_append,
        List.filter_cons_of_neg (by simpa using hne)]
    · rw [binarize, if_neg h3, List.filter_cons, List.filter_cons, ih2]

theorem filter_auxProd (a : Char) (ts : List Char) (hnd : ts.Nodup) (ha : a ∈ ts) :
    (ts.map auxProd).filter (fun q => decide (q.lhs = ['C', a])) = [auxProd a] := by
  induction ts with
  | nil => simp at ha
  | cons t ts ih =>
    obtain ⟨hnot, hnd2⟩ := List.nodup_cons.mp hnd
    have hnone : ∀ us : List Char, a ∉ us →
        (us.map auxProd).filter (fun q => decide (q.lhs = ['C', a])) = [] := by
      intro us hus
      rw [List.filter_eq_nil_iff]
      intro q hq
      obtain ⟨u, hu, rfl⟩ := List.mem_map.mp hq
      simp only [auxProd, decide_eq_true_eq, List.cons.injEq, and_true, true_and]
      intro e
      exact hus (e ▸ hu)
    by_cases e : t = a
    · subst e
      rw [List.map_cons, List.filter_cons_of_pos (by simp [auxProd]), hnone ts hnot]
    · have ha2 : a ∈ ts := by
        rcases List.mem_cons.mp ha with h | h
        · exact absurd h.symm e
        · exact h
      rw [List.map_cons, List.filter_cons_of_neg (by simpa [auxProd] using e), ih hnd2 ha2]

/-- C5. In a grammar that was read and passed `ValidateFormat` and `CheckPreconditions`,
let the terminal `a` be the token at place `x` of the right-hand side of the production
`i` and at place `y` of that of the production `j`, two different productions with two
tokens or more. Then the first loop of `TransformToCNF` puts the same name `N = Ca` at
both places; in the result `a` is mapped to `N`, there is exactly one production with the
left-hand side `N`, namely `N -> a`, and `a` is a token of no right-hand side of two
tokens or more. -/
theorem C5_shared_terminal (text : Str) (g : Grammar)
    (hload : ReadFromFile text = .ok g) (hval : ValidateFormat g = .ok ())
    (hpre : CheckPreconditions g = .ok ())
    (a : Char) (i j x y : Nat) (p1 p2 : Production) (_hij : i ≠ j)
    (hi : g.productions_[i]? = some p1) (hj : g.productions_[j]? = some p2)
    (h1 : 2 ≤ p1.rhs.length) (h2 : 2 ≤ p2.rhs.length)
    (hx : p1.rhs[x]? = some [a]) (hy : p2.rhs[y]? = some [a]) (ha : isupper a = false) :
    ∃ (N : Str) (g1 g2 : Grammar) (r1 r2 : List Str),
      N = ['C', a] ∧
      firstLoop g.productions_.length 0 g = some g1 ∧ TransformToCNF g = some g2 ∧
      g1.productions_[i]? = some { lhs := p1.lhs, rhs := r1 } ∧
      g1.productions_[j]? = some { lhs := p2.lhs, rhs := r2 } ∧
      r1[x]? = some N ∧ r2[y]? = some N ∧
      g2.terminal_to_nt_.lookup a = some N ∧
      g2.productions_.filter (fun q => decide (q.lhs = N)) = [{ lhs := N, rhs := [[a]] }] ∧
      ∀ q ∈ g2.productions_, 2 ≤ q.rhs.length → [a] ∉ q.rhs := by
  have hl := Loaded_of_ok text g hload
  have hv := Validated_of_ok g hval
  have hc := Clean_of_loaded g hl hv
  obtain ⟨ts, e2, e1, nd, a3, a4⟩ := TransformToCNF_clean g hc
  have hmem1 : p1 ∈ g.productions_ := List.mem_iff_getElem?.mpr ⟨i, hi⟩
  have hats : a ∈ ts := by
    rcases a4 p1 hmem1 h1 a (List.mem_iff_getElem?.mpr ⟨x, hx⟩) ha with h | h
    · simp [keys, hl.map_empty] at h
    · exact h
  have hiso : isolate [a] = ['C', a] := by simp [isolate, isTerminalTok, ha]
  have hget : ∀ (n : Nat) (p : Production), g.productions_[n]? = some p → 2 ≤ p.rhs.length →
      (isolated g ts)[n]? = some { lhs := p.lhs, rhs := p.rhs.map isolate } := by
    intro n p hn hp
    have hlt : n < g.productions_.length := by
      by_contra hge
      rw [List.getElem?_eq_none (by omega)] at hn
      cases hn
    unfold isolated
    rw [List.getElem?_append_left (by simpa using hlt), List.getElem?_map, hn]
    simp [isolateProd, hp]
  have hshape := isolated_shape g ts hl hpre (fun t ht => (a3 t ht).2.1)
  refine ⟨['C', a], _, _, p1.rhs.map isolate, p2.rhs.map isolate, rfl, e1, e2,
    hget i p1 hi h1, hget j p2 hj h2, ?_, ?_, ?_, ?_, ?_⟩
  · rw [List.getElem?_map, hx]; simp [hiso]
  · rw [List.getElem?_map, hy]; simp [hiso]
  · simp only [addDs_map]
    apply lookup_of_key _ (Clean_extend ts g hc)
    rw [keys_extend]
    exact List.mem_append_right _ hats
  · simp only
    rw [filter_lhs_binarize ['C', a] (by intro j; simp [dName])]
    · unfold isolated
      rw [List.filter_append, filter_auxProd a ts nd hats]
      have hnil : (g.productions_.map isolateProd).filter
          (fun q => decide (q.lhs = ['C', a])) = [] := by
        rw [List.filter_eq_nil_iff]
        intro q hq
        obtain ⟨p, hp, rfl⟩ := List.mem_map.mp hq
        obtain ⟨c, hc2, _⟩ := hv.nonterminals_ok _ (hv.lhs_ok p hp)
        have hlhs : (isolateProd p).lhs = p.lhs := by
          unfold isolateProd; split <;> rfl
        simp [hlhs, hc2]
      rw [hnil]
      rfl
    · intro p hp hlhs
      rcases hshape p hp with ⟨_, _⟩ | ⟨b, hb, _⟩
      · rcases List.mem_append.mp hp with h | h
        · obtain ⟨p0, hp0, rfl⟩ := List.mem_map.mp h
          obtain ⟨c, hc2, _⟩ := hv.nonterminals_ok _ (hv.lhs_ok p0 hp0)
          have hlhs2 : (isolateProd p0).lhs = p0.lhs := by
            unfold isolateProd; split <;> rfl
          rw [hlhs2, hc2] at hlhs
          simp at hlhs
        · obtain ⟨t, _, rfl⟩ := List.mem_map.mp h
          simp [auxProd]
      · rw [hb]; simp
  · intro q hq hq2 hin
    simp only at hq
    have hnot : startsUpper [a] = false := by simpa [startsUpper] using ha
    rcases mem_binarize _ _ q hq with ⟨hm, _⟩ | ⟨p, hp, hp3, k2, hch⟩
    · rcases hshape q hm with ⟨_, hup⟩ | ⟨b, hb, _⟩
      · rw [hup _ hin] at hnot; cases hnot
      · rw [hb] at hq2; simp at hq2
    · obtain ⟨b, c, hbc, hb, hc3⟩ := mem_chain p.rhs k2 p.lhs q (by omega) hch
      rcases hshape p hp with ⟨_, hup⟩ | ⟨b2, hb2, _⟩
      · rw [hbc] at hin
        rcases List.mem_cons.mp hin with e | e
        · rw [← e] at hb; rw [hup _ hb] at hnot; cases hnot
        · simp only [List.mem_singleton] at e
          rcases hc3 with h | ⟨j2, h⟩
          · rw [← e] at h; rw [hup _ h] at hnot; cases hnot
          · rw [← e] at h
            simp only [dName, List.cons.injEq] at h
            rw [h.1] at ha
            exact absurd ha (by decide)
      · rw [hb2] at hp3; simp at hp3

theorem C5_shared_terminal_witness :
    ∃ (N : Str) (g1 g2 : Grammar) (r1 r2 : List Str),
      N = ['C', 'a'] ∧
      firstLoop sharedGrammar.productions_.length 0 sharedGrammar = some g1 ∧
      TransformToCNF sharedGrammar = some g2 ∧
      g1.productions_[0]? = some { lhs := ['S'], rhs := r1 } ∧
      g1.productions_[1]? = some { lhs := ['A'], rhs := r2 } ∧
      r1[0]? = some N ∧ r2[0]? = some N ∧
      g2.terminal_to_nt_.lookup 'a' = some N ∧
      g2.productions_.filter (fun q => decide (q.lhs = N))
        = [{ lhs := N, rhs := [['a']] }] ∧
      ∀ q ∈ g2.productions_, 2 ≤ q.rhs.length → ['a'] ∉ q.rhs :=
  C5_shared_terminal sharedText sharedGrammar rfl rfl rfl 'a' 0 1 0 0
    { lhs := ['S'], rhs := [['a'], ['A']] } { lhs := ['A'], rhs := [['a'], ['b']] }
    (by decide) rfl rfl (by decide) (by decide) rfl rfl rfl

/-! ## Derivations and simulations -/

theorem digitChar_toNat (k : Nat) (hk : k < 10) : (Nat.digitChar k).toNat = 48 + k := by
  interval_cases k <;> rfl

theorem digitsValue_append (xs : Str) (d : Char) :
    digitsValue (xs ++ [d]) = 10 * digitsValue xs + (d.toNat - 48) := by
  simp [digitsValue, List.foldl_append]

theorem toDigitsCore_spec (fuel : Nat) : ∀ (n : Nat) (ds : Str), n < fuel →
    ∃ xs : Str, Nat.toDigitsCore 10 fuel n ds = xs ++ ds ∧ xs ≠ [] ∧
      (∀ c ∈ xs, isdigit c = true) ∧ digitsValue xs = n := by
  induction fuel with
  | zero => intro n ds h; omega
  | succ f ih =>
    intro n ds h
    have hd := digitChar_toNat (n % 10) (Nat.mod_lt _ (by decide))
    have hdig : isdigit (Nat.digitChar (n % 10)) = true := by
      have := Nat.mod_lt n (show 10 > 0 by decide)
      simp only [isdigit, hd, Bool.and_eq_true, decide_eq_true_eq]
      omega
    unfold Nat.toDigitsCore
    simp only
    split
    · rename_i h0
      refine ⟨[Nat.digitChar (n % 10)], rfl, by simp, ?_, ?_⟩
      · intro c hc
        simp only [List.mem_singleton] at hc
        rw [hc]; exact hdig
      · simp only [digitsValue, List.foldl_cons, List.foldl_nil, hd]
        omega
    · rename_i h0
      obtain ⟨xs, e, hne, hall, hv⟩ := ih (n / 10) (Nat.digitChar (n % 10) :: ds) (by omega)
      refine ⟨xs ++ [Nat.digitChar (n % 10)], ?_, by simp, ?_, ?_⟩
      · rw [e]; simp
      · intro c hc
        rcases List.mem_append.mp hc with h1 | h1
        · exact hall c h1
        · simp only [List.mem_singleton] at h1
          rw [h1]; exact hdig
      · rw [digitsValue_append, hv, hd]
        omega

theorem to_string_spec (n : Nat) :
    to_string n ≠ [] ∧ (∀ c ∈ to_string n, isdigit c = true) ∧ digitsValue (to_string n) = n := by
  obtain ⟨xs, e, hne, hall, hv⟩ := toDigitsCore_spec (n + 1) n [] (by omega)
  have : to_string n = xs := by
    unfold to_string Nat.toDigits
    rw [e]; simp
  rw [this]
  exact ⟨hne, hall, hv⟩

theorem to_string_injective : Function.Injective to_string := by
  intro a b h
  rw [← (to_string_spec a).2.2, ← (to_string_spec b).2.2, h]

theorem dName_injective : Function.Injective dName := by
  intro a b h
  simp only [dName, List.cons.injEq, true_and] at h
  exact to_string_injective h

theorem dName_length (j : Nat) : 2 ≤ (dName j).length := by
  have := (to_string_spec j).1
  rcases h : to_string j with _ | ⟨c, cs⟩
  · exact absurd h this
  · simp [dName, h]

/-! ## The second loop preserves the language -/

theorem not_trim_of_not_space (c : Char) (h : isspace c = false) : isTrimChar c = false := by
  simp only [isTrimChar, Bool.or_eq_false_iff, decide_eq_false_iff_not]
  refine ⟨⟨⟨?_, ?_⟩, ?_⟩, ?_⟩ <;> (rintro rfl; revert h; decide)

theorem not_space_of_digit (c : Char) (h : isdigit c = true) : isspace c = false := by
  simp only [isdigit, Bool.and_eq_true, decide_eq_true_eq] at h
  simp only [isspace, Bool.or_eq_false_iff, Bool.and_eq_false_iff, decide_eq_false_iff_not]
  omega

theorem not_space_of_upper (c : Char) (h : isupper c = true) : isspace c = false := by
  simp only [isupper, Bool.and_eq_true, decide_eq_true_eq] at h
  simp only [isspace, Bool.or_eq_false_iff, Bool.and_eq_false_iff, decide_eq_false_iff_not]
  omega

theorem not_space_of_terminal (c : Char) (h1 : iscntrl c = false) (h2 : isTrimChar c = false) :
    isspace c = false := by
  by_contra hs
  simp only [Bool.not_eq_false] at hs
  simp only [iscntrl, Bool.or_eq_false_iff, decide_eq_false_iff_not] at h1
  simp only [isspace, Bool.or_eq_true, Bool.and_eq_true, decide_eq_true_eq] at hs
  rcases hs with hs | hs
  · have : c = ' ' := toNat_injective (by rw [hs]; rfl)
    subst this
    revert h2; decide
  · omega

theorem newline_is_space : isspace '\n' = true := by decide

theorem splitLines_line (l rest : Str) (hl : '\n' ∉ l) :
    splitLines (l ++ '\n' :: rest) = l :: splitLines rest := by
  induction l with
  | nil => simp [splitLines]
  | cons c l ih =>
    have hc : c ≠ '\n' := fun e => hl (e ▸ List.mem_cons_self _ _)
    have hl2 : '\n' ∉ l := fun e => hl (List.mem_cons_of_mem _ e)
    rw [List.cons_append, splitLines, if_neg hc, ih hl2]

/-- The lines `L`, each followed by `\n`. -/
theorem splitLines_unlines (L : List Str) (hL : ∀ l ∈ L, '\n' ∉ l) :
    splitLines ((L.map (fun l => l ++ ['\n'])).flatten) = L := by
  induction L with
  | nil => rfl
  | cons l L ih =>
    rw [List.map_cons, List.flatten_cons, List.append_assoc, List.singleton_append,
      splitLines_line l _ (hL l (List.mem_cons_self _ _)),
      ih (fun l2 h2 => hL l2 (List.mem_cons_of_mem _ h2))]

theorem TrimString_id (s : Str) (hne : s ≠ [])
    (hhead : ∀ c r, s = c :: r → isTrimChar c = false)
    (hlast : isTrimChar (s.getLast hne) = false) : TrimString s = s := by
  unfold TrimString
  have h1 : s.dropWhile isTrimChar = s := by
    rcases s with _ | ⟨c, r⟩
    · rfl
    · rw [List.dropWhile_cons_of_neg (by simp [hhead c r rfl])]
  rw [h1, List.rdropWhile_eq_self_iff]
  intro hl
  simp [hlast]

theorem TrimString_id_of_all (s : Str) (hne : s ≠ [])
    (hall : ∀ c ∈ s, isTrimChar c = false) : TrimString s = s := by
  apply TrimString_id s hne
  · intro c r e
    exact hall c (e ▸ List.mem_cons_self _ _)
  · exact hall _ (List.getLast_mem hne)

theorem extractInt_to_string (n : Nat) (hn : n ≤ 2147483647) :
    extractInt (to_string n) = some (n : Int) := by
  obtain ⟨hne, hall, hv⟩ := to_string_spec n
  rcases hs : to_string n with _ | ⟨c, r⟩
  · exact absurd hs hne
  · rw [hs] at hall hv
    have hc : isdigit c = true := hall c (List.mem_cons_self _ _)
    have hsp : isspace c = false := not_space_of_digit c hc
    have hminus : c ≠ '-' := by rintro rfl; revert hc; decide
    have hplus : c ≠ '+' := by rintro rfl; revert hc; decide
    have htake : (c :: r).takeWhile isdigit = c :: r := List.takeWhile_eq_self_iff.mpr hall
    unfold extractInt
    simp only [List.dropWhile_cons_of_neg (show ¬ isspace c = true by simp [hsp]), hminus,
      hplus, or_self, if_false, htake, decide_False, hv]
    simp only [reduceCtorEq, if_false, Bool.false_eq_true]
    rw [if_neg]
    omega

theorem read_int_line_to_string (n : Nat) (hn : n ≤ 2147483647) (rest : List Str) :
    read_int_line (to_string n :: rest) = .ok ((n : Int), rest) := by
  obtain ⟨hne, hall, _⟩ := to_string_spec n
  have ht : TrimString (to_string n) = to_string n :=
    TrimString_id_of_all _ hne
      (fun c hc => not_trim_of_not_space c (not_space_of_digit c (hall c hc)))
  rw [read_int_line, ht, if_neg hne, extractInt_to_string n hn]

theorem readTerminals_written (T : List Char) (rest : List Str)
    (hT : ∀ t ∈ T, isTrimChar t = false) : ∀ acc : List Char,
    readTerminals T.length (T.map (fun t => [t]) ++ rest) acc
      = .ok (T.foldl (fun s t => set_insert t s) acc, rest) := by
  induction T with
  | nil => intro acc; simp [readTerminals]
  | cons t T ih =>
    intro acc
    have ht : TrimString [t] = [t] :=
      TrimString_id_of_all [t] (by simp) (by simpa using hT t (List.mem_cons_self _ _))
    simp only [List.length_cons, List.map_cons, List.cons_append, readTerminals, ht,
      List.foldl_cons]
    simp only [reduceCtorEq, if_false]
    exact ih (fun t2 h2 => hT t2 (List.mem_cons_of_mem _ h2)) _

theorem readNonTerminals_written (N : List Str) (rest : List Str)
    (hN : ∀ nt ∈ N, nt ≠ [] ∧ TrimString nt = nt) : ∀ nt_list nts : List Str,
    readNonTerminals N.length (N ++ rest) nt_list nts
      = .ok (nt_list ++ N, N.foldl (fun s x => set_insert x s) nts, rest) := by
  induction N with
  | nil => intro nt_list nts; simp [readNonTerminals]
  | cons nt N ih =>
    intro nt_list nts
    obtain ⟨hne, ht⟩ := hN nt (List.mem_cons_self _ _)
    rw [List.length_cons, List.cons_append, readNonTerminals, ht, if_neg hne,
      ih (fun t2 h2 => hN t2 (List.mem_cons_of_mem _ h2))]
    simp

theorem takeWhile_word (w : Str) (c : Char) (r : Str)
    (hw : ∀ x ∈ w, isspace x = false) (hc : isspace c = true) :
    (w ++ c :: r).takeWhile (fun x => !isspace x) = w ∧
    (w ++ c :: r).dropWhile (fun x => !isspace x) = c :: r := by
  induction w with
  | nil => simp [hc]
  | cons x w ih =>
    have hx := hw x (List.mem_cons_self _ _)
    have := ih (fun y hy => hw y (List.mem_cons_of_mem _ hy))
    simp [hx, this]

theorem takeWhile_word_end (w : Str) (hw : ∀ x ∈ w, isspace x = false) :
    w.takeWhile (fun x => !isspace x) = w ∧ w.dropWhile (fun x => !isspace x) = [] := by
  induction w with
  | nil => simp
  | cons x w ih =>
    have hx := hw x (List.mem_cons_self _ _)
    have := ih (fun y hy => hw y (List.mem_cons_of_mem _ hy))
    simp [hx, this]

theorem dropWhile_space_word (w r : Str) (hne : w ≠ [])
    (hw : ∀ x ∈ w, isspace x = false) : (w ++ r).dropWhile isspace = w ++ r := by
  rcases w with _ | ⟨x, w⟩
  · exact absurd rfl hne
  · have hx := hw x (List.mem_cons_self _ _)
    rw [List.cons_append, List.dropWhile_cons_of_neg (by simp [hx])]

theorem parseProduction_written (lhs rhs_all : Str)
    (hl : lhs ≠ [] ∧ ∀ c ∈ lhs, isspace c = false)
    (hr : rhs_all ≠ [] ∧ ∀ c ∈ rhs_all, isspace c = false) :
    parseProduction (lhs ++ ' ' :: rhs_all)
      = .ok { lhs := lhs, rhs := rhs_all.map (fun c => [c]) } := by
  have hsp : isspace ' ' = true := by decide
  have e1 : extractWord (lhs ++ ' ' :: rhs_all) = some (lhs, ' ' :: rhs_all) := by
    unfold extractWord
    simp only [dropWhile_space_word lhs _ hl.1 hl.2]
    obtain ⟨a, b⟩ := takeWhile_word lhs ' ' rhs_all hl.2 hsp
    rw [a, b, if_neg]
    rcases lhs with _ | ⟨x, l⟩
    · exact absurd rfl hl.1
    · simp
  have e2 : extractWord (' ' :: rhs_all) = some (rhs_all, []) := by
    unfold extractWord
    have hd : (' ' :: rhs_all).dropWhile isspace = rhs_all := by
      rw [List.dropWhile_cons_of_pos hsp]
      have := dropWhile_space_word rhs_all [] hr.1 hr.2
      simpa using this
    simp only [hd]
    obtain ⟨a, b⟩ := takeWhile_word_end rhs_all hr.2
    rw [a, b, if_neg hr.1]
  unfold parseProduction
  simp only [e1, e2, tokenizeRhs_eq]

theorem productionLine_eq (p : Production) :
    productionLine p = (p.lhs ++ ' ' :: RhsToString p.rhs) ++ ['\n'] := by
  unfold productionLine
  split
  · rename_i h; rw [h]; simp [RhsToString]
  · simp

theorem line_ok (p : Production)
    (hl : p.lhs ≠ [] ∧ ∀ c ∈ p.lhs, isspace c = false)
    (hr : RhsToString p.rhs ≠ [] ∧ ∀ c ∈ RhsToString p.rhs, isspace c = false) :
    '\n' ∉ p.lhs ++ ' ' :: RhsToString p.rhs ∧
    p.lhs ++ ' ' :: RhsToString p.rhs ≠ [] ∧
    TrimString (p.lhs ++ ' ' :: RhsToString p.rhs) = p.lhs ++ ' ' :: RhsToString p.rhs := by
  have hne : p.lhs ++ ' ' :: RhsToString p.rhs ≠ [] := by simp
  refine ⟨?_, hne, ?_⟩
  · intro hin
    rcases List.mem_append.mp hin with h | h
    · have := hl.2 _ h; rw [newline_is_space] at this; cases this
    · rcases List.mem_cons.mp h with h | h
      · revert h; decide
      · have := hr.2 _ h; rw [newline_is_space] at this; cases this
  · apply TrimString_id _ hne
    · intro c r e
      rcases hlhs : p.lhs with _ | ⟨x, l⟩
      · exact absurd hlhs hl.1
      · rw [hlhs] at e
        simp only [List.cons_append, List.cons.injEq] at e
        rw [← e.1]
        exact not_trim_of_not_space x (hl.2 x (by rw [hlhs]; simp))
    · have hlast : (p.lhs ++ ' ' :: RhsToString p.rhs).getLast hne
          = (RhsToString p.rhs).getLast hr.1 := by
        rw [List.getLast_append_of_ne_nil (List.cons_ne_nil _ _), List.getLast_cons hr.1]
      rw [hlast]
      exact not_trim_of_not_space _ (hr.2 _ (List.getLast_mem _))

theorem readProductions_written (P : List Production)
    (hP : ∀ p ∈ P, (p.lhs ≠ [] ∧ ∀ c ∈ p.lhs, isspace c = false) ∧
      (RhsToString p.rhs ≠ [] ∧ ∀ c ∈ RhsToString p.rhs, isspace c = false)) :
    ∀ acc : List Production,
      readProductions P.length (P.map (fun p => p.lhs ++ ' ' :: RhsToString p.rhs)) acc
        = .ok (acc ++ P.map reread) := by
  induction P with
  | nil => intro acc; simp [readProductions]
  | cons p P ih =>
    intro acc
    obtain ⟨hl, hr⟩ := hP p (List.mem_cons_self _ _)
    obtain ⟨_, hne, ht⟩ := line_ok p hl hr
    simp only [List.length_cons, List.map_cons, readProductions, ht, if_neg hne,
      parseProduction_written _ _ hl hr]
    rw [ih (fun t2 h2 => hP t2 (List.mem_cons_of_mem _ h2))]
    simp [reread]

theorem not_newline_of_not_trim (c : Char) (h : isTrimChar c = false) : c ≠ '\n' := by
  rintro rfl
  revert h
  decide

theorem to_string_no_newline (n : Nat) : '\n' ∉ to_string n := by
  intro hin
  have := not_space_of_digit _ ((to_string_spec n).2.1 _ hin)
  rw [newline_is_space] at this
  cases this

/-- The lines of the text that `WriteToFile` writes. -/
theorem WriteToFile_lines (g : Grammar) :
    WriteToFile g = ((to_string g.terminals_.length ::
      (g.terminals_.map (fun t => [t]) ++ (to_string g.nonterminals_.length ::
        (g.nonterminals_ ++ (to_string g.productions_.length ::
          g.productions_.map (fun p => p.lhs ++ ' ' :: RhsToString p.rhs)))))).map
            (fun l => l ++ ['\n'])).flatten := by
  have hp : g.productions_.map productionLine
      = (g.productions_.map (fun p => p.lhs ++ ' ' :: RhsToString p.rhs)).map
          (fun l => l ++ ['\n']) := by
    rw [List.map_map]
    apply List.map_congr_left
    intro p _
    exact productionLine_eq p
  have ht : g.terminals_.map (fun t => [t, '\n'])
      = (g.terminals_.map (fun t => [t])).map (fun l => l ++ ['\n']) := by
    rw [List.map_map]
    apply List.map_congr_left
    intro t _
    rfl
  unfold WriteToFile
  rw [hp, ht]
  simp only [List.map_cons, List.map_append, List.flatten_cons, List.flatten_append,
    List.append_assoc]

/-- Reading the text written for a grammar, when it can be read: the sets are rebuilt
from their members, the first non-terminal written is the start symbol, the counter and
the map are reset, and each right-hand side is read one character at a time. -/
theorem ReadFromFile_WriteToFile (g : Grammar) (hw : Writable g) :
    ∃ start rest, g.nonterminals_ = start :: rest ∧
      ReadFromFile (WriteToFile g) = .ok
        { terminals_ := g.terminals_.foldl (fun s t => set_insert t s) [],
          nonterminals_ := g.nonterminals_.foldl (fun s x => set_insert x s) [],
          start_symbol_ := start,
          productions_ := g.productions_.map reread,
          counter_d_ := 0, terminal_to_nt_ := [] } := by
  rcases hN : g.nonterminals_ with _ | ⟨start, rest⟩
  · exact absurd hN hw.nonterminals_ne
  refine ⟨start, rest, rfl, ?_⟩
  have hlines : splitLines (WriteToFile g) = to_string g.terminals_.length ::
      (g.terminals_.map (fun t => [t]) ++ (to_string g.nonterminals_.length ::
        (g.nonterminals_ ++ (to_string g.productions_.length ::
          g.productions_.map (fun p => p.lhs ++ ' ' :: RhsToString p.rhs))))) := by
    rw [WriteToFile_lines]
    apply splitLines_unlines
    intro l hl
    simp only [List.mem_cons, List.mem_append, List.mem_map] at hl
    rcases hl with rfl | ⟨t, ht, rfl⟩ | rfl | hnt | rfl | ⟨p, hp, rfl⟩
    · exact to_string_no_newline _
    · intro hin
      simp only [List.mem_singleton] at hin
      exact not_newline_of_not_trim t (hw.terminals_ok t ht) hin.symm
    · exact to_string_no_newline _
    · intro hin
      exact not_newline_of_not_trim _ ((hw.nonterminals_ok l hnt).2 _ hin) rfl
    · exact to_string_no_newline _
    · exact (line_ok p (hw.productions_ok p hp).1 (hw.productions_ok p hp).2).1
  have hNok : ∀ nt ∈ g.nonterminals_, nt ≠ [] ∧ TrimString nt = nt := by
    intro nt hnt
    obtain ⟨a, b⟩ := hw.nonterminals_ok nt hnt
    exact ⟨a, TrimString_id_of_all nt a b⟩
  unfold ReadFromFile
  rw [hlines]
  simp only [read_int_line_to_string _ hw.terminals_size, Int.toNat_ofNat,
    readTerminals_written _ _ hw.terminals_ok,
    read_int_line_to_string _ hw.nonterminals_size,
    readNonTerminals_written _ _ hNok, List.nil_append,
    read_int_line_to_string _ hw.productions_size,
    readProductions_written _ hw.productions_ok]
  simp only [hN]

/-! ## The text written after the transformation -/

theorem mem_terminals_extend (ts : List Char) : ∀ (g : Grammar) (t : Char),
    t ∈ (extend g ts).terminals_ ↔ t ∈ g.terminals_ ∨ t ∈ ts := by
  induction ts with
  | nil => intro g t; simp [extend]
  | cons u ts ih =>
    intro g t
    rw [extend_cons, ih]
    simp only [addAux, mem_set_insert, List.mem_cons]
    tauto

theorem mem_nonterminals_extend (ts : List Char) : ∀ (g : Grammar) (nt : Str),
    nt ∈ (extend g ts).nonterminals_ ↔ nt ∈ g.nonterminals_ ∨ ∃ t ∈ ts, nt = ['C', t] := by
  induction ts with
  | nil => intro g nt; simp [extend]
  | cons u ts ih =>
    intro g nt
    rw [extend_cons, ih]
    simp only [addAux, mem_set_insert, List.mem_cons, exists_eq_or_imp]
    tauto

theorem mem_nonterminals_addDs (n : Nat) : ∀ (g : Grammar) (nt : Str),
    nt ∈ (addDs n g).nonterminals_ ↔
      nt ∈ g.nonterminals_ ∨ ∃ j, g.counter_d_ < j ∧ j ≤ g.counter_d_ + n ∧ nt = dName j := by
  induction n with
  | zero =>
    intro g nt
    simp only [addDs, Nat.add_zero]
    constructor
    · exact Or.inl
    · rintro (h | ⟨j, h1, h2, _⟩)
      · exact h
      · omega
  | succ n ih =>
    intro g nt
    rw [addDs, ih]
    simp only [NewD, mem_set_insert]
    constructor
    · rintro ((h | h) | ⟨j, h1, h2, h3⟩)
      · exact Or.inr ⟨g.counter_d_ + 1, by omega, by omega, h⟩
      · exact Or.inl h
      · exact Or.inr ⟨j, by omega, by omega, h3⟩
    · rintro (h | ⟨j, h1, h2, h3⟩)
      · exact Or.inl (Or.inr h)
      · by_cases e : j = g.counter_d_ + 1
        · subst e; exact Or.inl (Or.inl h3)
        · exact Or.inr ⟨j, by omega, by omega, h3⟩

theorem dName_no_space (j : Nat) : dName j ≠ [] ∧ ∀ c ∈ dName j, isspace c = false := by
  refine ⟨by simp [dName], ?_⟩
  intro c hc
  simp only [dName, List.mem_cons] at hc
  rcases hc with rfl | hc
  · decide
  · exact not_space_of_digit c ((to_string_spec j).2.1 c hc)

theorem aux_no_space (t : Char) (ht : isspace t = false) :
    ∀ c ∈ (['C', t] : Str), isspace c = false := by
  intro c hc
  simp only [List.mem_cons, List.mem_singleton, List.not_mem_nil, or_false] at hc
  rcases hc with rfl | rfl
  · decide
  · exact ht

theorem isolate_no_space (c : Char) (hc : isspace c = false) :
    ∀ x ∈ isolate [c], isspace x = false := by
  intro x hx
  by_cases hu : isupper c = true
  · have e : isolate [c] = [c] := by simp [isolate, isTerminalTok, hu]
    rw [e, List.mem_singleton] at hx
    rw [hx]; exact hc
  · simp only [Bool.not_eq_true] at hu
    have e : isolate [c] = ['C', c] := by simp [isolate, isTerminalTok, hu]
    rw [e] at hx
    exact aux_no_space c hc x hx

/-- No white space in the productions after the first loop. -/
theorem isolated_no_space (g : Grammar) (ts : List Char) (hl : Loaded g)
    (hts : ∀ t ∈ ts, isspace t = false) :
    ∀ p ∈ isolated g ts, (p.lhs ≠ [] ∧ ∀ c ∈ p.lhs, isspace c = false) ∧
      ∀ tok ∈ p.rhs, ∀ c ∈ tok, isspace c = false := by
  intro p hp
  rcases List.mem_append.mp hp with hm | hm
  · obtain ⟨p0, hp0, rfl⟩ := List.mem_map.mp hm
    have hlhs : (isolateProd p0).lhs = p0.lhs := by
      unfold isolateProd; split <;> rfl
    rw [hlhs]
    refine ⟨hl.lhs_word p0 hp0, ?_⟩
    intro tok htok
    by_cases h2 : 2 ≤ p0.rhs.length
    · simp only [isolateProd, if_pos h2] at htok
      obtain ⟨tok0, h0, rfl⟩ := List.mem_map.mp htok
      obtain ⟨c, rfl, hc⟩ := hl.rhs_one p0 hp0 tok0 h0
      exact isolate_no_space c hc
    · simp only [isolateProd, if_neg h2] at htok
      obtain ⟨c, rfl, hc⟩ := hl.rhs_one p0 hp0 tok htok
      intro x hx
      rw [List.mem_singleton] at hx
      rw [hx]; exact hc
  · obtain ⟨t, ht, rfl⟩ := List.mem_map.mp hm
    refine ⟨⟨by simp [auxProd], aux_no_space t (hts t ht)⟩, ?_⟩
    intro tok htok
    simp only [auxProd, List.mem_singleton] at htok
    intro x hx
    rw [htok, List.mem_singleton] at hx
    rw [hx]; exact hts t ht

/-- No white space in the productions after the two loops. -/
theorem binarize_no_space (ps : List Production) (k : Nat)
    (hps : ∀ p ∈ ps, (p.lhs ≠ [] ∧ ∀ c ∈ p.lhs, isspace c = false) ∧
      ∀ tok ∈ p.rhs, ∀ c ∈ tok, isspace c = false) :
    ∀ q ∈ binarize k ps, (q.lhs ≠ [] ∧ ∀ c ∈ q.lhs, isspace c = false) ∧
      ∀ tok ∈ q.rhs, ∀ c ∈ tok, isspace c = false := by
  intro q hq
  rcases mem_binarize _ _ q hq with ⟨hm, _⟩ | ⟨p, hp, hp3, k2, hch⟩
  · exact hps q hm
  · constructor
    · rcases chain_lhs _ _ _ q hch with e | ⟨j, e⟩
      · rw [e]; exact (hps p hp).1
      · rw [e]; exact dName_no_space j
    · obtain ⟨b, c, hbc, hb, hc⟩ := mem_chain p.rhs k2 p.lhs q (by omega) hch
      intro tok htok
      rw [hbc] at htok
      simp only [List.mem_cons, List.mem_singleton, List.not_mem_nil, or_false] at htok
      rcases htok with rfl | rfl
      · exact (hps p hp).2 _ hb
      · rcases hc with hc | ⟨j, rfl⟩
        · exact (hps p hp).2 _ hc
        · exact (dName_no_space j).2

theorem RhsToString_ne_of_forms (q : Production)
    (h : (∃ B C : Str, q.rhs = [B, C] ∧ startsUpper B = true ∧ startsUpper C = true) ∨
      (∃ a : Char, q.rhs = [[a]] ∧ isupper a = false)) : RhsToString q.rhs ≠ [] := by
  rcases h with ⟨B, C, e, hB, _⟩ | ⟨a, e, _⟩
  · rw [e]
    rcases B with _ | ⟨b, B⟩
    · simp [startsUpper] at hB
    · simp [RhsToString]
  · rw [e]; simp [RhsToString]

/-- The result of `TransformToCNF` can be written and read, for a grammar that was read
and passed the two validations, when its three counts fit in an `int`. -/
theorem Writable_result (g : Grammar) (ts : List Char) (hl : Loaded g) (hv : Validated g)
    (hpre : CheckPreconditions g = .ok ())
    (hts : ∀ t ∈ ts, isupper t = false ∧ ∃ p ∈ g.productions_, [t] ∈ p.rhs)
    (hT : (extend g ts).terminals_.length ≤ 2147483647)
    (hN : (addDs (dCount (isolated g ts)) (extend g ts)).nonterminals_.length ≤ 2147483647)
    (hP : (binarize g.counter_d_ (isolated g ts)).length ≤ 2147483647) :
    Writable { addDs (dCount (isolated g ts)) (extend g ts) with
               productions_ := binarize g.counter_d_ (isolated g ts) } := by
  have hsp : ∀ t ∈ ts, isspace t = false := by
    intro t ht
    obtain ⟨_, p, hp, htok⟩ := hts t ht
    obtain ⟨c, e, hc⟩ := hl.rhs_one p hp [t] htok
    have : t = c := by simpa using e
    rw [this]; exact hc
  refine ⟨by simpa using hT, hN, hP, ?_, ?_, ?_, ?_⟩
  · intro t ht
    simp only [addDs_terminals] at ht
    rcases (mem_terminals_extend ts g t).mp ht with h | h
    · exact hl.terminals_trim t h
    · exact not_trim_of_not_space t (hsp t h)
  · intro hnil
    have hmem : g.start_symbol_ ∈
        (addDs (dCount (isolated g ts)) (extend g ts)).nonterminals_ :=
      (mem_nonterminals_addDs _ _ _).mpr
        (Or.inl ((mem_nonterminals_extend ts g _).mpr (Or.inl hl.start_mem)))
    simp only at hnil
    rw [hnil] at hmem
    simp at hmem
  · intro nt hnt
    simp only at hnt
    rcases (mem_nonterminals_addDs _ _ _).mp hnt with h | ⟨j, _, _, rfl⟩
    · rcases (mem_nonterminals_extend ts g nt).mp h with h | ⟨t, ht, rfl⟩
      · obtain ⟨c, rfl, hc⟩ := hv.nonterminals_ok nt h
        refine ⟨by simp, ?_⟩
        intro x hx
        rw [List.mem_singleton] at hx
        rw [hx]
        exact not_trim_of_not_space c (not_space_of_upper c hc)
      · exact ⟨by simp, fun x hx => not_trim_of_not_space x (aux_no_space t (hsp t ht) x hx)⟩
    · exact ⟨(dName_no_space j).1,
        fun x hx => not_trim_of_not_space x ((dName_no_space j).2 x hx)⟩
  · intro q hq
    simp only at hq
    obtain ⟨h1, h2⟩ := binarize_no_space _ _ (isolated_no_space g ts hl hsp) q hq
    refine ⟨h1, RhsToString_ne_of_forms q
      (binarize_isolated_forms g ts _ hl hpre (fun t ht => (hts t ht).1) q hq), ?_⟩
    intro c hc
    obtain ⟨tok, htok, hc2⟩ := List.mem_flatten.mp hc
    exact h2 tok htok c hc2

/-- C8, as amended. For a grammar read by `ReadFromFile` and accepted by `ValidateFormat`
and `CheckPreconditions`, the text that `WriteToFile` writes for the result of
`TransformToCNF` is read by `ReadFromFile` (when the three counts fit in an `int`), and
the grammar read has the productions written, in the same order and with the same
left-hand sides, each right-hand side being read one character per token: `A -> a` comes
back token for token, and `A -> B C` comes back as the characters of the two names, as
many tokens as `B` and `C` have characters. -/
theorem C8_written_result_read_by_characters (text : Str) (g : Grammar)
    (hload : ReadFromFile text = .ok g) (hval : ValidateFormat g = .ok ())
    (hpre : CheckPreconditions g = .ok ()) :
    ∃ g2, TransformToCNF g = some g2 ∧
      (g2.terminals_.length ≤ 2147483647 → g2.nonterminals_.length ≤ 2147483647 →
        g2.productions_.length ≤ 2147483647 →
        ∃ g3, ReadFromFile (WriteToFile g2) = .ok g3 ∧
          g3.productions_ = g2.productions_.map reread ∧
          ∀ p ∈ g2.productions_, (reread p).lhs = p.lhs ∧
            (p.rhs.length = 1 → (reread p).rhs = p.rhs) ∧
            ∀ B C : Str, p.rhs = [B, C] →
              (reread p).rhs = (B ++ C).map (fun c => [c]) ∧
              (reread p).rhs.length = B.length + C.length) := by
  have hl := Loaded_of_ok text g hload
  have hv := Validated_of_ok g hval
  obtain ⟨ts, h1, _, _, h3, _⟩ := TransformToCNF_clean g (Clean_of_loaded g hl hv)
  refine ⟨_, h1, ?_⟩
  intro hT hN hP
  have hts : ∀ t ∈ ts, isupper t = false ∧ ∃ p ∈ g.productions_, [t] ∈ p.rhs := by
    intro t ht
    obtain ⟨_, hu, p, hp, _, htok⟩ := h3 t ht
    exact ⟨hu, p, hp, htok⟩
  have hw := Writable_result g ts hl hv hpre hts (by simpa using hT) hN hP
  obtain ⟨start, rest, _, hread⟩ := ReadFromFile_WriteToFile _ hw
  refine ⟨_, hread, rfl, ?_⟩
  intro p hp
  have hcnf := binarize_isolated_forms g ts _ hl hpre (fun t ht => (hts t ht).1) p hp
  refine ⟨rfl, ?_, ?_⟩
  · intro h1
    rcases hcnf with ⟨B, C, e, _, _⟩ | ⟨a, e, _⟩
    · rw [e] at h1; simp at h1
    · simp [reread, RhsToString, e]
  · intro B C e
    simp [reread, RhsToString, e]

theorem C8_written_result_read_by_characters_witness :
    ∃ g2, TransformToCNF aSbGrammar = some g2 ∧
      (g2.terminals_.length ≤ 2147483647 → g2.nonterminals_.length ≤ 2147483647 →
        g2.productions_.length ≤ 2147483647 →
        ∃ g3, ReadFromFile (WriteToFile g2) = .ok g3 ∧
          g3.productions_ = g2.productions_.map reread ∧
          ∀ p ∈ g2.productions_, (reread p).lhs = p.lhs ∧
            (p.rhs.length = 1 → (reread p).rhs = p.rhs) ∧
            ∀ B C : Str, p.rhs = [B, C] →
              (reread p).rhs = (B ++ C).map (fun c => [c]) ∧
              (reread p).rhs.length = B.length + C.length) :=
  C8_written_result_read_by_characters aSbText aSbGrammar rfl rfl rfl

/-- C8, as stated, fails at its own witness `S -> aSb`: there is no reading of the text
written for the result in which every right-hand side has one or two tokens and equals the
right-hand side written; `S -> Ca D1` is written `S CaD1` and read as `S -> C a D 1`. -/
theorem C8_read_back_not_CNF_counterexample :
    ¬ ∃ g2 g3, TransformToCNF aSbGrammar = some g2 ∧
      ReadFromFile (WriteToFile g2) = .ok g3 ∧
      (∀ p ∈ g3.productions_, p.rhs.length = 1 ∨ p.rhs.length = 2) ∧
      g3.productions_.map Production.rhs = g2.productions_.map Production.rhs := by
  rintro ⟨g2, g3, h2, h3, hlen, _⟩
  have e2 : TransformToCNF aSbGrammar = some
      { terminals_ := ['a', 'b'],
        nonterminals_ := [['C', 'a'], ['C', 'b'], ['D', '1'], ['S']],
        start_symbol_ := ['S'],
        productions_ :=
          [{ lhs := ['S'], rhs := [['C', 'a'], ['D', '1']] },
           { lhs := ['D', '1'], rhs := [['S'], ['C', 'b']] },
           { lhs := ['C', 'a'], rhs := [['a']] },
           { lhs := ['C', 'b'], rhs := [['b']] }],
        counter_d_ := 1,
        terminal_to_nt_ := [('a', ['C', 'a']), ('b', ['C', 'b'])] } := by decide
  rw [e2, Option.some.injEq] at h2
  subst h2
  have e3 : ReadFromFile (WriteToFile
      { terminals_ := ['a', 'b'],
        nonterminals_ := [['C', 'a'], ['C', 'b'], ['D', '1'], ['S']],
        start_symbol_ := ['S'],
        productions_ :=
          [{ lhs := ['S'], rhs := [['C', 'a'], ['D', '1']] },
           { lhs := ['D', '1'], rhs := [['S'], ['C', 'b']] },
           { lhs := ['C', 'a'], rhs := [['a']] },
           { lhs := ['C', 'b'], rhs := [['b']] }],
        counter_d_ := 1,
        terminal_to_nt_ := [('a', ['C', 'a']), ('b', ['C', 'b'])] }) = .ok
      { terminals_ := ['a', 'b'],
        nonterminals_ := [['C', 'a'], ['C', 'b'], ['D', '1'], ['S']],
        start_symbol_ := ['C', 'a'],
        productions_ :=
          [{ lhs := ['S'], rhs := [['C'], ['a'], ['D'], ['1']] },
           { lhs := ['D', '1'], rhs := [['S'], ['C'], ['b']] },
           { lhs := ['C', 'a'], rhs := [['a']] },
           { lhs := ['C', 'b'], rhs := [['b']] }],
        counter_d_ := 0, terminal_to_nt_ := [] } := by rfl
  rw [e3, Except.ok.injEq] at h3
  subst h3
  have := hlen { lhs := ['S'], rhs := [['C'], ['a'], ['D'], ['1']] } (by simp)
  simp at this

/-! ## Sets as increasing lists -/

theorem set_insert_of_mem {α : Type} [LinearOrder α] [DecidableEq α]
    [∀ a b : α, Decidable (a < b)] (x : α) (s : List α)
    (hs : s.Sorted (fun a b => a < b)) (hx : x ∈ s) : set_insert x s = s := by
  induction s with
  | nil => simp at hx
  | cons y ys ih =>
    have hy := List.sorted_cons.mp hs
    rcases List.mem_cons.mp hx with rfl | hin
    · simp [set_insert]
    · have hlt : y < x := hy.1 x hin
      have h1 : ¬ x < y := lt_asymm hlt
      have h2 : x ≠ y := ne_of_gt hlt
      simp only [set_insert, if_neg h1, if_neg h2]
      rw [ih hy.2 hin]

theorem set_insert_sorted {α : Type} [LinearOrder α] [DecidableEq α]
    [∀ a b : α, Decidable (a < b)] (x : α) (s : List α)
    (hs : s.Sorted (fun a b => a < b)) : (set_insert x s).Sorted (fun a b => a < b) := by
  induction s with
  | nil => simp [set_insert]
  | cons y ys ih =>
    have hy := List.sorted_cons.mp hs
    unfold set_insert
    by_cases h1 : x < y
    · rw [if_pos h1]
      refine List.sorted_cons.mpr ⟨?_, hs⟩
      intro b hb
      rcases List.mem_cons.mp hb with rfl | hb
      · exact h1
      · exact lt_trans h1 (hy.1 b hb)
    · rw [if_neg h1]
      by_cases h2 : x = y
      · rw [if_pos h2]; exact hs
      · rw [if_neg h2]
        refine List.sorted_cons.mpr ⟨?_, ih hy.2⟩
        intro b hb
        rcases (mem_set_insert x b ys).mp hb with rfl | hb
        · exact lt_of_le_of_ne (not_lt.mp h1) (Ne.symm h2)
        · exact hy.1 b hb

/-! ## The declared non-terminals -/

theorem declared_fold_mem (nts : List Str) : ∀ (acc : List Char) (c : Char),
    c ∈ nts.foldl (fun out nt => match nt with
        | [c] => if isupper c then set_insert c out else out
        | _ => out) acc ↔
      c ∈ acc ∨ ([c] ∈ nts ∧ isupper c = true) := by
  induction nts with
  | nil => intro acc c; simp
  | cons nt nts ih =>
    intro acc c
    rw [List.foldl_cons, ih]
    rcases nt with _ | ⟨d, _ | ⟨e, r⟩⟩
    · simp
    · by_cases hd : isupper d = true
      · simp only [hd, if_true, mem_set_insert, List.mem_cons, List.cons.injEq, and_true]
        constructor
        · rintro ((rfl | h) | h)
          · exact Or.inr ⟨Or.inl rfl, hd⟩
          · exact Or.inl h
          · exact Or.inr ⟨Or.inr h.1, h.2⟩
        · rintro (h | ⟨rfl | h, hu⟩)
          · exact Or.inl (Or.inr h)
          · exact Or.inl (Or.inl rfl)
          · exact Or.inr ⟨h, hu⟩
      · simp only [hd, List.mem_cons, List.cons.injEq, and_true]
        constructor
        · rintro (h | h)
          · exact Or.inl h
          · exact Or.inr ⟨Or.inr h.1, h.2⟩
        · rintro (h | ⟨rfl | h, hu⟩)
          · exact Or.inl h
          · exact absurd hu hd
          · exact Or.inr ⟨h, hu⟩
    · simp

theorem declared_fold_sorted (nts : List Str) : ∀ acc : List Char,
    acc.Sorted (fun a b => a < b) →
    (nts.foldl (fun out nt => match nt with
        | [c] => if isupper c then set_insert c out else out
        | _ => out) acc).Sorted (fun a b => a < b) := by
  induction nts with
  | nil => intro acc h; exact h
  | cons nt nts ih =>
    intro acc h
    rw [List.foldl_cons]
    apply ih
    rcases nt with _ | ⟨d, _ | ⟨e, r⟩⟩
    · exact h
    · by_cases hd : isupper d = true
      · simp only [hd, if_true]; exact set_insert_sorted d acc h
      · simp only [hd]; exact h
    · exact h

/-- C15. `DeclaredNonTerminals` returns exactly the set of the characters `c` such that
the one-character string `c` is in the non-terminal set and `c` is an upper-case letter
(as a strictly increasing list); the result depends on nothing but the non-terminal set,
neither on the productions nor on the start symbol; for the non-terminals `S`, `A`, `B`,
`C` it returns `{A, B, C, S}`. -/
theorem C15_declared_nonterminals (g : Grammar) :
    (∀ c : Char, c ∈ DeclaredNonTerminals g ↔ ([c] ∈ g.nonterminals_ ∧ isupper c = true)) ∧
    (DeclaredNonTerminals g).Sorted (fun a b => a < b) ∧
    (∀ (terminals : List Char) (start : Str) (productions : List Production) (counter : Nat)
      (map : List (Char × Str)),
      DeclaredNonTerminals
        { terminals_ := terminals, nonterminals_ := g.nonterminals_, start_symbol_ := start,
          productions_ := productions, counter_d_ := counter, terminal_to_nt_ := map }
        = DeclaredNonTerminals g) ∧
    DeclaredNonTerminals declaredExample = ['A', 'B', 'C', 'S'] := by
  refine ⟨?_, ?_, ?_, by decide⟩
  · intro c
    unfold DeclaredNonTerminals
    rw [declared_fold_mem]
    simp
  · unfold DeclaredNonTerminals
    exact declared_fold_sorted _ [] List.sorted_nil
  · intro _ _ _ _ _
    rfl

/-! ## The guards of the traversal -/

theorem reachable_of_upper_start (g : Grammar) (s : Char) (rest : Str)
    (hstart : g.start_symbol_ = s :: rest) (hup : isupper s = true) :
    ∃ R, ReachableNonTerminals g = some R ∧ s ∈ R := by
  obtain ⟨R, hR, hS, _, _⟩ := reachLoop_spec g.productions_ s 27 [s] [s] (by simp)
    (by simpa using hup) (by simp) (by simp) (by simp) (by
      intro c hc X hXS _
      simp only [List.mem_singleton] at hc
      subst hc
      exact hXS) (by simp)
  refine ⟨R, ?_, hS⟩
  unfold ReachableNonTerminals
  rw [hstart]
  simp only [hup]
  exact hR

/-- C16, as amended. `ReachableNonTerminals` returns the empty set whenever no start
symbol is set or the first character of the start symbol is not an upper-case letter, for
every grammar, whatever its productions and the length of the name of the start symbol;
and only then: when the name starts with an upper-case letter the set returned holds that
letter. -/
theorem C16_reachable_empty_iff (g : Grammar) :
    ReachableNonTerminals g = some [] ↔
      (g.start_symbol_ = [] ∨
        ∃ (s : Char) (rest : Str), g.start_symbol_ = s :: rest ∧ isupper s = false) := by
  constructor
  · intro h
    rcases hs : g.start_symbol_ with _ | ⟨s, rest⟩
    · exact Or.inl rfl
    · right
      refine ⟨s, rest, rfl, ?_⟩
      cases hu : isupper s with
      | false => rfl
      | true =>
        obtain ⟨R, hR, hmem⟩ := reachable_of_upper_start g s rest hs hu
        rw [h, Option.some.injEq] at hR
        rw [← hR] at hmem
        simp at hmem
  · intro h
    unfold ReachableNonTerminals
    rcases h with h | ⟨s, rest, h, hu⟩
    · rw [h]
    · rw [h]
      simp [hu]

/-- C16, as stated, fails on the grammar read from `abText`: its start symbol `Ab` is not
an upper-case letter (it is two characters long), and `ReachableNonTerminals` returns
`{A}`, not the empty set. -/
theorem C16_long_start_symbol_counterexample :
    ReadFromFile abText = .ok abGrammar ∧
    (¬ ∃ c : Char, abGrammar.start_symbol_ = [c] ∧ isupper c = true) ∧
    ReachableNonTerminals abGrammar = some ['A'] ∧
    ReachableNonTerminals abGrammar ≠ some [] :=
  ⟨rfl, by rintro ⟨c, h, _⟩; simp [abGrammar] at h, by decide, by decide⟩

/-! ## The start symbol -/

theorem readNonTerminals_list (ls : List Str) :
    ∀ (n : Nat) (nt_list nts nt_list2 nts2 : List Str) (rest : List Str),
      readNonTerminals n ls nt_list nts = .ok (nt_list2, nts2, rest) →
      ∃ new : List Str, nt_list2 = nt_list ++ new ∧ (n = 0 → new = []) ∧
        (0 < n → ∃ x tl, new = x :: tl ∧ firstNonBlank ls = some x ∧ x ≠ []) := by
  induction ls with
  | nil =>
    intro n nt_list nts nt_list2 nts2 rest h
    cases n with
    | zero =>
      simp only [readNonTerminals, Except.ok.injEq, Prod.mk.injEq] at h
      exact ⟨[], by simp [h.1], fun _ => rfl, fun h0 => absurd h0 (by decide)⟩
    | succ n => simp [readNonTerminals] at h
  | cons line ls ih =>
    intro n nt_list nts nt_list2 nts2 rest h
    cases n with
    | zero =>
      simp only [readNonTerminals, Except.ok.injEq, Prod.mk.injEq] at h
      exact ⟨[], by simp [h.1], fun _ => rfl, fun h0 => absurd h0 (by decide)⟩
    | succ n =>
      simp only [readNonTerminals] at h
      by_cases hb : TrimString line = []
      · rw [if_pos hb] at h
        obtain ⟨new, e, _, h2⟩ := ih _ _ _ _ _ _ h
        refine ⟨new, e, fun h0 => absurd h0 (by simp), fun _ => ?_⟩
        obtain ⟨x, tl, e2, e3, e4⟩ := h2 (by simp)
        exact ⟨x, tl, e2, by simp [firstNonBlank, hb, e3], e4⟩
      · rw [if_neg hb] at h
        obtain ⟨new, e, _, _⟩ := ih _ _ _ _ _ _ h
        refine ⟨TrimString line :: new, by rw [e]; simp, fun h0 => absurd h0 (by simp),
          fun _ => ⟨TrimString line, new, rfl, by simp [firstNonBlank, hb], hb⟩⟩

/-- C13. After every successful `ReadFromFile` the start symbol is defined (not empty) and
is the first non-terminal listed: the first line that is not blank, trimmed, after the
line of the non-terminal count, which is positive. And when the count read for the
non-terminals is zero (or negative), `ReadFromFile` fails, with the error of the missing
non-terminals, instead of building a grammar without start symbol. -/
theorem C13_start_symbol_is_first_nonterminal (text : Str) :
    (∀ g, ReadFromFile text = .ok g →
      ∃ n_terms ls1 terminals ls2 n_nt ls3,
        read_int_line (splitLines text) = .ok (n_terms, ls1) ∧
        readTerminals n_terms.toNat ls1 [] = .ok (terminals, ls2) ∧
        read_int_line ls2 = .ok (n_nt, ls3) ∧
        0 < n_nt ∧ g.start_symbol_ ≠ [] ∧ firstNonBlank ls3 = some g.start_symbol_) ∧
    (∀ n_terms ls1 terminals ls2 n_nt ls3,
        read_int_line (splitLines text) = .ok (n_terms, ls1) →
        readTerminals n_terms.toNat ls1 [] = .ok (terminals, ls2) →
        read_int_line ls2 = .ok (n_nt, ls3) →
        n_nt ≤ 0 → ReadFromFile text = .error .noNonTerminals) := by
  constructor
  · intro g h
    unfold ReadFromFile at h
    split at h
    · cases h
    · rename_i n_terms ls1 h1
      split at h
      · cases h
      · rename_i terminals ls2 hT
        split at h
        · cases h
        · rename_i n_nt ls3 h3
          split at h
          · cases h
          · rename_i nt_list nonterminals ls4 hN
            split at h
            · cases h
            · rename_i start tl
              split at h
              · cases h
              · split at h
                · cases h
                · simp only [Except.ok.injEq] at h
                  subst h
                  obtain ⟨new, e, h0, hpos⟩ := readNonTerminals_list _ _ _ _ _ _ _ hN
                  have hn : 0 < n_nt.toNat := by
                    by_contra hz
                    have := h0 (by omega)
                    rw [this] at e
                    simp at e
                  obtain ⟨x, tl2, e2, e3, e4⟩ := hpos hn
                  rw [e2] at e
                  simp only [List.nil_append, List.cons.injEq] at e
                  refine ⟨n_terms, ls1, terminals, ls2, n_nt, ls3, h1, hT, h3, ?_, ?_, ?_⟩
                  · omega
                  · rw [e.1]; exact e4
                  · rw [e.1]; exact e3
  · intro n_terms ls1 terminals ls2 n_nt ls3 h1 hT h3 hle
    have hz : n_nt.toNat = 0 := by omega
    unfold ReadFromFile
    simp only [h1, hT, h3, hz, readNonTerminals]

theorem C13_start_symbol_is_first_nonterminal_witness :
    ∃ n_terms ls1 terminals ls2 n_nt ls3,
      read_int_line (splitLines aSbText) = .ok (n_terms, ls1) ∧
      readTerminals n_terms.toNat ls1 [] = .ok (terminals, ls2) ∧
      read_int_line ls2 = .ok (n_nt, ls3) ∧
      0 < n_nt ∧ aSbGrammar.start_symbol_ ≠ [] ∧
      firstNonBlank ls3 = some aSbGrammar.start_symbol_ :=
  (C13_start_symbol_is_first_nonterminal aSbText).1 aSbGrammar rfl

/-! ## What the format pass accepts -/

theorem ok_of_Validated (g : Grammar) (h : Validated g) : ValidateFormat g = .ok () := by
  rw [ValidateFormat_ok_iff]
  refine ⟨(validateTerminals_ok_iff _).mpr h.terminals_ok,
    (validateNonTerminals_ok_iff _).mpr h.nonterminals_ok, ?_⟩
  rw [validateProductions_ok_iff]
  intro p hp
  refine ⟨h.lhs_ok p hp, fun hne => ?_⟩
  rw [validateTokens_ok_iff]
  intro tok htok
  obtain ⟨c, rfl, hc⟩ := h.rhs_ok p hp hne tok htok
  refine ⟨c, [], rfl, ?_⟩
  by_cases hu : isupper c = true
  · rw [if_pos hu] at hc ⊢; exact hc
  · rw [if_neg hu] at hc ⊢; exact ⟨rfl, hc⟩

/-- C11, as amended. `ValidateFormat` succeeds if and only if: no declared terminal is a
control character; every declared non-terminal is exactly one upper-case letter; every
left-hand side is a declared non-terminal; and every right-hand side, unless it is the
single token `&`, holds only tokens that either start with an upper-case letter and are a
declared non-terminal, or are one character that is not an upper-case letter and is a
declared terminal. Otherwise it fails. -/
theorem C11_ValidateFormat_succeeds_iff (g : Grammar) :
    (ValidateFormat g = .ok () ↔
      ((∀ t ∈ g.terminals_, iscntrl t = false) ∧
       (∀ nt ∈ g.nonterminals_, ∃ c, nt = [c] ∧ isupper c = true) ∧
       (∀ p ∈ g.productions_, p.lhs ∈ g.nonterminals_) ∧
       (∀ p ∈ g.productions_, p.rhs ≠ [['&']] → ∀ tok ∈ p.rhs,
         (startsUpper tok = true ∧ tok ∈ g.nonterminals_) ∨
         (∃ c, tok = [c] ∧ isupper c = false ∧ c ∈ g.terminals_)))) ∧
    (ValidateFormat g ≠ .ok () ↔ ∃ e, ValidateFormat g = .error e) := by
  constructor
  · constructor
    · intro h
      have hv := Validated_of_ok g h
      refine ⟨hv.terminals_ok, hv.nonterminals_ok, hv.lhs_ok, ?_⟩
      intro p hp hne tok htok
      obtain ⟨c, rfl, hc⟩ := hv.rhs_ok p hp hne tok htok
      by_cases hu : isupper c = true
      · rw [if_pos hu] at hc
        exact Or.inl ⟨by simpa [startsUpper] using hu, hc⟩
      · rw [if_neg hu] at hc
        exact Or.inr ⟨c, rfl, by simpa using hu, hc⟩
    · rintro ⟨h1, h2, h3, h4⟩
      apply ok_of_Validated
      refine ⟨h1, h2, h3, ?_⟩
      intro p hp hne tok htok
      rcases h4 p hp hne tok htok with ⟨hu, hm⟩ | ⟨c, rfl, hu, hm⟩
      · obtain ⟨c, rfl, hc⟩ := h2 tok hm
        exact ⟨c, rfl, by rw [if_pos hc]; exact hm⟩
      · exact ⟨c, rfl, by rw [if_neg (by simp [hu])]; exact hm⟩
  · constructor
    · intro h
      rcases except_unit_cases (ValidateFormat g) with h1 | h1
      · exact absurd h1 h
      · exact h1
    · rintro ⟨e, he⟩ h
      rw [he] at h
      cases h

/-- C11, as stated, fails on the grammar read from `upperTerminalText`: the terminal `A`
is declared and is no control character, `S` is one upper-case letter and declared, and
the only token of the right-hand side of `S -> A` is the one-character declared terminal
`A`; yet `ValidateFormat` fails, because the token starts with an upper-case letter and
is no declared non-terminal. -/
theorem C11_upper_case_terminal_counterexample :
    ReadFromFile upperTerminalText = .ok upperTerminalGrammar ∧
    (∀ t ∈ upperTerminalGrammar.terminals_, iscntrl t = false) ∧
    (∀ nt ∈ upperTerminalGrammar.nonterminals_, ∃ c, nt = [c] ∧ isupper c = true) ∧
    (∀ p ∈ upperTerminalGrammar.productions_, p.lhs ∈ upperTerminalGrammar.nonterminals_) ∧
    (∀ p ∈ upperTerminalGrammar.productions_, p.rhs ≠ [['&']] → ∀ tok ∈ p.rhs,
       (startsUpper tok = true ∧ tok ∈ upperTerminalGrammar.nonterminals_) ∨
       (∃ c, tok = [c] ∧ c ∈ upperTerminalGrammar.terminals_)) ∧
    ValidateFormat upperTerminalGrammar = .error .rhsNonTerminalNotDeclared := by
  refine ⟨rfl, by decide, ?_, by decide, ?_, rfl⟩
  · intro nt hnt
    simp only [upperTerminalGrammar, List.mem_singleton] at hnt
    exact ⟨'S', hnt, by decide⟩
  · intro p hp _ tok htok
    simp only [upperTerminalGrammar, List.mem_singleton] at hp
    subst hp
    simp only [List.mem_singleton] at htok
    exact Or.inr ⟨'A', htok, by simp [upperTerminalGrammar]⟩

/-! ## The exact shape of the second pass -/

theorem chain_eq_words (rhs : List Str) : ∀ (k : Nat) (lhs : Str), 3 ≤ rhs.length →
    chain k lhs rhs = blockWords k { lhs := lhs, rhs := rhs } := by
  induction rhs with
  | nil => intro k lhs h; simp at h
  | cons b rest ih =>
    intro k lhs h
    rcases rest with _ | ⟨c, _ | ⟨d, rest⟩⟩
    · simp at h
    · simp at h
    · rcases rest with _ | ⟨e, rest⟩
      · simp [chain, blockWords]
      · have ih2 := ih (k + 1) (dName (k + 1)) (by simp)
        rw [chain, ih2]
        have hlen : ¬ (c :: d :: e :: rest).length ≤ 2 := by simp
        have hlen2 : ¬ (b :: c :: d :: e :: rest).length ≤ 2 := by simp
        simp only [blockWords, if_neg hlen, if_neg hlen2]
        have e1 : (b :: c :: d :: e :: rest).length - 3 = ((c :: d :: e :: rest).length - 3) + 1 := by
          simp
        rw [e1, List.range_succ_eq_map, List.map_cons, List.map_map]
        simp only [List.length_cons, List.getD_cons_zero, List.getD_cons_succ,
          List.singleton_append, List.cons_append, List.cons.injEq, true_and,
          Nat.add_zero]
        simp only [List.nil_append]
        refine congrArg₂ List.cons rfl (congrArg₂ (fun x y => x ++ y) ?_ ?_)
        · apply List.map_congr_left
          intro i _
          have a1 : k + 1 + 1 + i = k + 1 + (i + 1) := by omega
          have a2 : k + 1 + 2 + i = k + 2 + (i + 1) := by omega
          simp only [Function.comp, Nat.succ_eq_add_one, List.getD_cons_succ, a1, a2]
        · have a3 : k + 1 + (rest.length + 1 + 1 + 1) - 2
              = k + (rest.length + 1 + 1 + 1 + 1) - 2 := by omega
          have a4 : rest.length + 1 + 1 + 1 - 2 = rest.length + 1 := by omega
          have a5 : rest.length + 1 + 1 + 1 - 1 = rest.length + 2 := by omega
          have a6 : rest.length + 1 + 1 + 1 + 1 - 2 = (rest.length + 1) + 1 := by omega
          have a7 : rest.length + 1 + 1 + 1 + 1 - 1 = (rest.length + 2) + 1 := by omega
          rw [a3, a4, a5, a6, a7]
          simp only [List.getD_cons_succ]

theorem binarize_eq_words (ps : List Production) : ∀ k : Nat,
    secondPassWords k ps = (binarize k ps, k + dCount ps) := by
  induction ps with
  | nil => intro k; simp [secondPassWords, binarize, dCount]
  | cons p ps ih =>
    intro k
    by_cases h3 : 3 ≤ p.rhs.length
    · have hc : counterWords k p = k + (p.rhs.length - 2) := by
        simp only [counterWords, if_neg (show ¬ p.rhs.length ≤ 2 by omega)]
        omega
      rw [secondPassWords, hc, ih, binarize, if_pos h3, dCount,
        chain_eq_words p.rhs k p.lhs h3, Nat.add_assoc]
    · have hle : p.rhs.length ≤ 2 := by omega
      have hc : counterWords k p = k := by simp [counterWords, hle]
      have hb : blockWords k p = [p] := by simp [blockWords, hle]
      have e : p.rhs.length - 2 = 0 := by omega
      rw [secondPassWords, hc, hb, ih, binarize, if_neg h3, dCount, e, Nat.zero_add]
      rfl

/-- C18. The second loop of `TransformToCNF` maps the production list `p_1 ... p_n` to
the concatenation, in the same order, of one block per production: a production with at
most two tokens gives itself, and `A -> B1 ... Bm` with `m >= 3`, reached when the counter
has the value `k`, gives the `m - 1` productions `A -> B1 D(k+1)`,
`D(k+1) -> B2 D(k+2)`, ..., `D(k+m-2) -> B(m-1) Bm` and leaves the counter at `k+m-2`,
`D(i)` being `D` followed by the decimal digits of `i`. The productions of the result of
`TransformToCNF` are those blocks for the list that the first loop leaves. -/
theorem C18_shape_of_binarization (g : Grammar) (ps acc : List Production) :
    (∃ g2, secondLoop ps g acc = some (g2, acc ++ (secondPassWords g.counter_d_ ps).1) ∧
      g2.counter_d_ = (secondPassWords g.counter_d_ ps).2) ∧
    (∀ g1, firstLoop g.productions_.length 0 g = some g1 →
      ∃ g2, TransformToCNF g = some g2 ∧
        g2.productions_ = (secondPassWords g1.counter_d_ g1.productions_).1 ∧
        g2.counter_d_ = (secondPassWords g1.counter_d_ g1.productions_).2) := by
  constructor
  · rw [binarize_eq_words]
    exact ⟨_, secondLoop_spec ps g acc, by simp⟩
  · intro g1 h1
    unfold TransformToCNF
    rw [h1]
    simp only
    rw [secondLoop_spec, binarize_eq_words]
    exact ⟨_, rfl, by simp, by simp⟩

theorem C18_shape_of_binarization_witness :
    ∃ g2, TransformToCNF aSbGrammar = some g2 ∧
      g2.productions_ = (secondPassWords 0
        [{ lhs := ['S'], rhs := [['C', 'a'], ['S'], ['C', 'b']] },
         { lhs := ['C', 'a'], rhs := [['a']] }, { lhs := ['C', 'b'], rhs := [['b']] }]).1 ∧
      g2.counter_d_ = (secondPassWords 0
        [{ lhs := ['S'], rhs := [['C', 'a'], ['S'], ['C', 'b']] },
         { lhs := ['C', 'a'], rhs := [['a']] }, { lhs := ['C', 'b'], rhs := [['b']] }]).2 :=
  (C18_shape_of_binarization aSbGrammar [] []).2
    { terminals_ := ['a', 'b'], nonterminals_ := [['C', 'a'], ['C', 'b'], ['S']],
      start_symbol_ := ['S'],
      productions_ := [{ lhs := ['S'], rhs := [['C', 'a'], ['S'], ['C', 'b']] },
         { lhs := ['C', 'a'], rhs := [['a']] }, { lhs := ['C', 'b'], rhs := [['b']] }],
      counter_d_ := 0, terminal_to_nt_ := [('a', ['C', 'a']), ('b', ['C', 'b'])] }
    (by decide)

/-! ## The search for a free name -/

theorem candidateAt_injective (name : Str) : Function.Injective (candidateAt name) := by
  intro i j h
  unfold candidateAt at h
  by_cases hi : i = 0
  · by_cases hj : j = 0
    · rw [hi, hj]
    · rw [if_pos hi, if_neg hj] at h
      have : to_string j = [] := by
        have h2 : name ++ [] = name ++ to_string j := by simpa using h
        exact (List.append_cancel_left h2).symm
      exact absurd this (to_string_spec j).1
  · by_cases hj : j = 0
    · rw [if_neg hi, if_pos hj] at h
      have : to_string i = [] := by
        have h2 : name ++ to_string i = name ++ [] := by simpa using h
        exact List.append_cancel_left h2
      exact absurd this (to_string_spec i).1
    · rw [if_neg hi, if_neg hj] at h
      exact to_string_injective (List.append_cancel_left h)

theorem findCandidate_spec (nts : List Str) (name : Str) (j : Nat) :
    ∀ (fuel s : Nat) (cnd : Str), 1 ≤ s → cnd = candidateAt name (s - 1) →
      s - 1 ≤ j → j < s - 1 + fuel → candidateAt name j ∉ nts →
      (∀ i, s - 1 ≤ i → i < j → candidateAt name i ∈ nts) →
      findCandidate nts name fuel s cnd = some (candidateAt name j) := by
  intro fuel
  induction fuel with
  | zero => intro s cnd _ _ h1 h2; omega
  | succ f ih =>
    intro s cnd hs hc h1 h2 hfree hocc
    unfold findCandidate
    by_cases hin : cnd ∈ nts
    · rw [if_pos hin]
      have hne : j ≠ s - 1 := by
        intro e
        rw [e, ← hc] at hfree
        exact hfree hin
      apply ih (s + 1) _ (by omega)
      · have : s + 1 - 1 = s := by omega
        rw [this]
        simp [candidateAt, show s ≠ 0 by omega]
      · omega
      · omega
      · exact hfree
      · intro i hi1 hi2
        exact hocc i (by omega) hi2
    · rw [if_neg hin]
      have he : j = s - 1 := by
        by_contra hne
        have := hocc (s - 1) (Nat.le_refl _) (by omega)
        rw [← hc] at this
        exact hin this
      rw [he, ← hc]

theorem exists_free_candidate (nts : List Str) (name : Str) :
    ∃ j, j < nts.length + 1 ∧ candidateAt name j ∉ nts := by
  by_contra hno
  have hall : ∀ j, j < nts.length + 1 → candidateAt name j ∈ nts := by
    intro j hj
    by_contra hn
    exact hno ⟨j, hj, hn⟩
  have hnd : ((List.range (nts.length + 1)).map (candidateAt name)).Nodup :=
    (List.nodup_range _).map (candidateAt_injective name)
  have hsub : (List.range (nts.length + 1)).map (candidateAt name) ⊆ nts := by
    intro x hx
    obtain ⟨j, hj, rfl⟩ := List.mem_map.mp hx
    exact hall j (List.mem_range.mp hj)
  have := (List.subperm_of_subset hnd hsub).length_le
  simp at this

/-- The search for a free name returns, with the fuel it gets: the first candidate that
is not a non-terminal. -/
theorem findCandidate_total (nts : List Str) (name : Str) :
    ∃ j, findCandidate nts name (nts.length + 1) 1 name = some (candidateAt name j) ∧
      candidateAt name j ∉ nts ∧ ∀ i, i < j → candidateAt name i ∈ nts := by
  classical
  have hex := exists_free_candidate nts name
  let P : Nat → Prop := fun j => j < nts.length + 1 ∧ candidateAt name j ∉ nts
  have hP : ∃ j, P j := hex
  have hj := Nat.find_spec hP
  have hmin : ∀ i, i < Nat.find hP → candidateAt name i ∈ nts := by
    intro i hi
    by_contra hn
    exact Nat.find_min hP hi ⟨by have := hj.1; omega, hn⟩
  refine ⟨Nat.find hP, ?_, hj.2, hmin⟩
  apply findCandidate_spec nts name (Nat.find hP) (nts.length + 1) 1 name (Nat.le_refl _)
  · simp [candidateAt]
  · omega
  · have := hj.1; omega
  · exact hj.2
  · intro i _ hi
    exact hmin i hi

/-- C20. For every grammar and every terminal `t` that has no auxiliary yet,
`TerminalToNonTerminal` returns: the name `C` followed by `t` when that name is no
non-terminal, and otherwise `C` followed by `t` and by the decimal digits of the least
`k >= 1` for which that name is no non-terminal. The name returned was no non-terminal
before the call and is one afterwards, the production `name -> t` is appended, and a later
call for the same `t` (in any state whose map still holds the entry) returns the same name
and leaves the grammar as it is, so it adds no production. -/
theorem C20_naming_rule (g : Grammar) (t : Char)
    (hnew : g.terminal_to_nt_.lookup t = none) :
    ∃ name g2, TerminalToNonTerminal g t = some (name, g2) ∧
      ((['C', t] ∉ g.nonterminals_ ∧ name = ['C', t]) ∨
       (['C', t] ∈ g.nonterminals_ ∧ ∃ k, 1 ≤ k ∧ name = ['C', t] ++ to_string k ∧
          ∀ j, 1 ≤ j → j < k → ['C', t] ++ to_string j ∈ g.nonterminals_)) ∧
      name ∉ g.nonterminals_ ∧ name ∈ g2.nonterminals_ ∧
      g2.terminal_to_nt_.lookup t = some name ∧
      g2.productions_ = g.productions_ ++ [{ lhs := name, rhs := [[t]] }] ∧
      TerminalToNonTerminal g2 t = some (name, g2) ∧
      ∀ g3 : Grammar, g3.terminal_to_nt_.lookup t = some name →
        TerminalToNonTerminal g3 t = some (name, g3) := by
  obtain ⟨j, hfind, hfree, hocc⟩ := findCandidate_total g.nonterminals_ ['C', t]
  have hlook : (g.terminal_to_nt_ ++ [(t, candidateAt ['C', t] j)]).lookup t
      = some (candidateAt ['C', t] j) := by
    rw [List.lookup_append, hnew]
    simp
  have hlater : ∀ g3 : Grammar, g3.terminal_to_nt_.lookup t = some (candidateAt ['C', t] j) →
      TerminalToNonTerminal g3 t = some (candidateAt ['C', t] j, g3) := by
    intro g3 h3
    simp [TerminalToNonTerminal, h3]
  refine ⟨candidateAt ['C', t] j,
    { g with nonterminals_ := set_insert (candidateAt ['C', t] j) g.nonterminals_,
             terminal_to_nt_ := g.terminal_to_nt_ ++ [(t, candidateAt ['C', t] j)],
             productions_ := g.productions_ ++ [{ lhs := candidateAt ['C', t] j, rhs := [[t]] }],
             terminals_ := set_insert t g.terminals_ },
    ?_, ?_, hfree, ?_, hlook, rfl, hlater _ hlook, hlater⟩
  · simp only [TerminalToNonTerminal, hnew, hfind]
  · by_cases h0 : j = 0
    · left
      subst h0
      exact ⟨by simpa [candidateAt] using hfree, by simp [candidateAt]⟩
    · right
      refine ⟨by simpa [candidateAt] using hocc 0 (by omega), j, by omega,
        by simp [candidateAt, h0], ?_⟩
      intro i hi1 hi2
      have := hocc i hi2
      simpa [candidateAt, show i ≠ 0 by omega] using this
  · exact (mem_set_insert _ _ _).mpr (Or.inl rfl)

theorem C20_naming_rule_witness :
    ∃ name g2, TerminalToNonTerminal aSbGrammar 'a' = some (name, g2) ∧
      ((['C', 'a'] ∉ aSbGrammar.nonterminals_ ∧ name = ['C', 'a']) ∨
       (['C', 'a'] ∈ aSbGrammar.nonterminals_ ∧ ∃ k, 1 ≤ k ∧
          name = ['C', 'a'] ++ to_string k ∧
          ∀ j, 1 ≤ j → j < k → ['C', 'a'] ++ to_string j ∈ aSbGrammar.nonterminals_)) ∧
      name ∉ aSbGrammar.nonterminals_ ∧ name ∈ g2.nonterminals_ ∧
      g2.terminal_to_nt_.lookup 'a' = some name ∧
      g2.productions_ = aSbGrammar.productions_ ++ [{ lhs := name, rhs := [['a']] }] ∧
      TerminalToNonTerminal g2 'a' = some (name, g2) ∧
      ∀ g3 : Grammar, g3.terminal_to_nt_.lookup 'a' = some name →
        TerminalToNonTerminal g3 'a' = some (name, g3) :=
  C20_naming_rule aSbGrammar 'a' rfl

/-! ## The transformation returns, on every grammar -/

theorem Grows_refl (g : Grammar) : Grows g g :=
  ⟨rfl, rfl, fun _ h => h, fun _ h => h, Nat.le_refl _⟩

theorem Grows_trans {a b c : Grammar} (h1 : Grows a b) (h2 : Grows b c) : Grows a c :=
  ⟨h2.start_eq.trans h1.start_eq, h2.counter_eq.trans h1.counter_eq,
   fun nt h => h2.nonterminals_sub nt (h1.nonterminals_sub nt h),
   fun t h => h2.terminals_sub t (h1.terminals_sub t h),
   Nat.le_trans h1.productions_len h2.productions_len⟩

theorem TerminalToNonTerminal_total (g : Grammar) (t : Char) :
    ∃ name g1, TerminalToNonTerminal g t = some (name, g1) ∧ Grows g g1 := by
  cases hl : g.terminal_to_nt_.lookup t with
  | some nt => exact ⟨nt, g, by simp [TerminalToNonTerminal, hl], Grows_refl g⟩
  | none =>
    obtain ⟨j, hfind, _, _⟩ := findCandidate_total g.nonterminals_ ['C', t]
    refine ⟨candidateAt ['C', t] j,
      { g with nonterminals_ := set_insert (candidateAt ['C', t] j) g.nonterminals_,
               terminal_to_nt_ := g.terminal_to_nt_ ++ [(t, candidateAt ['C', t] j)],
               productions_ :=
                 g.productions_ ++ [{ lhs := candidateAt ['C', t] j, rhs := [[t]] }],
               terminals_ := set_insert t g.terminals_ },
      by simp only [TerminalToNonTerminal, hl, hfind], ?_⟩
    refine ⟨rfl, rfl, ?_, ?_, by simp⟩
    · intro nt h; exact (mem_set_insert _ _ _).mpr (Or.inr h)
    · intro u h; exact (mem_set_insert _ _ _).mpr (Or.inr h)

theorem isolateTokens_total (toks : List Str) : ∀ g : Grammar,
    ∃ toks1 g1, isolateTokens g toks = some (toks1, g1) ∧ Grows g g1 := by
  induction toks with
  | nil => intro g; exact ⟨[], g, rfl, Grows_refl g⟩
  | cons tok toks ih =>
    intro g
    have hother : ∃ toks1 g1, (match isolateTokens g toks with
        | none => none
        | some (toks1, g1) => some (tok :: toks1, g1)) = some (toks1, g1) ∧ Grows g g1 := by
      obtain ⟨toks1, g1, h1, hg⟩ := ih g
      exact ⟨tok :: toks1, g1, by rw [h1], hg⟩
    rcases tok with _ | ⟨t, _ | ⟨u, rest⟩⟩
    · simpa only [isolateTokens] using hother
    · by_cases hu : isupper t = true
      · simpa only [isolateTokens, hu, if_true] using hother
      · obtain ⟨name, g1, h1, hg1⟩ := TerminalToNonTerminal_total g t
        obtain ⟨toks1, g2, h2, hg2⟩ := ih g1
        refine ⟨name :: toks1, g2, ?_, Grows_trans hg1 hg2⟩
        simp only [isolateTokens, hu, h1, h2]
        simp
    · simpa only [isolateTokens] using hother

theorem firstLoop_total (count : Nat) : ∀ (i : Nat) (g : Grammar),
    i + count ≤ g.productions_.length →
    ∃ g1, firstLoop count i g = some g1 ∧ Grows g g1 := by
  induction count with
  | zero => intro i g _; exact ⟨g, rfl, Grows_refl g⟩
  | succ count ih =>
    intro i g h
    have hi : i < g.productions_.length := by omega
    simp only [firstLoop, List.getElem?_eq_getElem hi]
    by_cases h2 : 2 ≤ (g.productions_[i]).rhs.length
    · rw [if_pos h2]
      obtain ⟨rhs1, g1, h1, hg1⟩ := isolateTokens_total (g.productions_[i]).rhs g
      rw [h1]
      have hlen := hg1.productions_len
      obtain ⟨g3, h3, hg3⟩ := ih (i + 1)
        { g1 with productions_ :=
            g1.productions_.set i { lhs := (g.productions_[i]).lhs, rhs := rhs1 } }
        (by simp only [List.length_set]; omega)
      refine ⟨g3, h3, Grows_trans ?_ hg3⟩
      exact ⟨hg1.start_eq, hg1.counter_eq, hg1.nonterminals_sub, hg1.terminals_sub,
        by simp only [List.length_set]; exact hlen⟩
    · rw [if_neg h2]
      exact ih (i + 1) g (by omega)

/-- The transformation returns on every grammar; the start symbol is the one before, and
every non-terminal and every terminal present before is present afterwards. -/
theorem TransformToCNF_total (g : Grammar) :
    ∃ g2, TransformToCNF g = some g2 ∧ g2.start_symbol_ = g.start_symbol_ ∧
      (∀ nt ∈ g.nonterminals_, nt ∈ g2.nonterminals_) ∧
      (∀ t ∈ g.terminals_, t ∈ g2.terminals_) := by
  obtain ⟨g1, h1, hg1⟩ := firstLoop_total g.productions_.length 0 g (by omega)
  refine ⟨{ addDs (dCount g1.productions_) g1 with
            productions_ := [] ++ binarize g1.counter_d_ g1.productions_ }, ?_, ?_, ?_, ?_⟩
  · simp only [TransformToCNF, h1, secondLoop_spec]
  · simp only [addDs_start]; exact hg1.start_eq
  · intro nt h
    exact (mem_nonterminals_addDs _ _ _).mpr (Or.inl (hg1.nonterminals_sub nt h))
  · intro t h
    simp only [addDs_terminals]
    exact hg1.terminals_sub t h

/-- C14. `TransformToCNF` returns on every grammar, so in particular on every grammar
accepted by `ValidateFormat` and `CheckPreconditions`: every index that the two loops
read is in bounds and the search for an unused auxiliary name ends. The same holds of
its parts: `TerminalToNonTerminal` returns in every grammar state for every terminal, and
the second loop returns on every list of productions. -/
theorem C14_TransformToCNF_returns (g : Grammar) :
    (∃ g2, TransformToCNF g = some g2) ∧
    (∀ t : Char, ∃ name g1, TerminalToNonTerminal g t = some (name, g1)) ∧
    (∀ (ps acc : List Production), ∃ r, secondLoop ps g acc = some r) ∧
    (∀ (rhs : List Str), ∃ r, isolateTokens g rhs = some r) := by
  refine ⟨?_, ?_, ?_, ?_⟩
  · obtain ⟨g2, h, _⟩ := TransformToCNF_total g
    exact ⟨g2, h⟩
  · intro t
    obtain ⟨name, g1, h, _⟩ := TerminalToNonTerminal_total g t
    exact ⟨name, g1, h⟩
  · intro ps acc
    exact ⟨_, secondLoop_spec ps g acc⟩
  · intro rhs
    obtain ⟨toks1, g1, h, _⟩ := isolateTokens_total rhs g
    exact ⟨_, h⟩

/-! ## No symbol is deleted -/

theorem readTerminals_sorted (ls : List Str) :
    ∀ (n : Nat) (acc ts : List Char) (rest : List Str),
      readTerminals n ls acc = .ok (ts, rest) →
      acc.Sorted (fun a b => a < b) → ts.Sorted (fun a b => a < b) := by
  induction ls with
  | nil =>
    intro n acc ts rest h hs
    cases n with
    | zero =>
      simp only [readTerminals, Except.ok.injEq, Prod.mk.injEq] at h
      obtain ⟨h1, _⟩ := h; subst h1; exact hs
    | succ n => simp [readTerminals] at h
  | cons line ls ih =>
    intro n acc ts rest h hs
    cases n with
    | zero =>
      simp only [readTerminals, Except.ok.injEq, Prod.mk.injEq] at h
      obtain ⟨h1, _⟩ := h; subst h1; exact hs
    | succ n =>
      simp only [readTerminals] at h
      split at h
      · exact ih _ _ _ _ h hs
      · split at h
        · exact ih _ _ _ _ h (set_insert_sorted _ _ hs)
        · cases h

/-- The terminal set that `ReadFromFile` builds is in strictly increasing order. -/
theorem terminals_sorted_of_ok (text : Str) (g : Grammar) (h : ReadFromFile text = .ok g) :
    g.terminals_.Sorted (fun a b => a < b) := by
  unfold ReadFromFile at h
  split at h
  · cases h
  · split at h
    · cases h
    · rename_i terminals ls2 hT
      split at h
      · cases h
      · split at h
        · cases h
        · split at h
          · cases h
          · split at h
            · cases h
            · split at h
              · cases h
              · simp only [Except.ok.injEq] at h
                subst h
                exact readTerminals_sorted _ _ _ _ _ hT List.sorted_nil

theorem terminals_extend_of_mem (ts : List Char) : ∀ g : Grammar,
    g.terminals_.Sorted (fun a b => a < b) → (∀ t ∈ ts, t ∈ g.terminals_) →
    (extend g ts).terminals_ = g.terminals_ := by
  induction ts with
  | nil => intro g _ _; rfl
  | cons t ts ih =>
    intro g hs h
    have e : (addAux g t).terminals_ = g.terminals_ :=
      set_insert_of_mem t g.terminals_ hs (h t (List.mem_cons_self _ _))
    rw [extend_cons, ih (addAux g t) (by rw [e]; exact hs)
      (fun u hu => by rw [e]; exact h u (List.mem_cons_of_mem _ hu)), e]

theorem TerminalToNonTerminal_terminals (g : Grammar) (t : Char) (name : Str) (g1 : Grammar)
    (h : TerminalToNonTerminal g t = some (name, g1)) :
    (∀ u ∈ g1.terminals_, u ∈ g.terminals_ ∨ u = t) ∧
    ∃ extra, g1.productions_ = g.productions_ ++ extra := by
  unfold TerminalToNonTerminal at h
  split at h
  · simp only [Option.some.injEq, Prod.mk.injEq] at h
    obtain ⟨_, rfl⟩ := h
    exact ⟨fun u hu => Or.inl hu, [], by simp⟩
  · split at h
    · cases h
    · simp only [Option.some.injEq, Prod.mk.injEq] at h
      obtain ⟨_, rfl⟩ := h
      refine ⟨?_, _, rfl⟩
      intro u hu
      rcases (mem_set_insert _ _ _).mp hu with h1 | h1
      · exact Or.inr h1
      · exact Or.inl h1

theorem isolateTokens_terminals (toks : List Str) :
    ∀ (g : Grammar) (toks1 : List Str) (g1 : Grammar),
      isolateTokens g toks = some (toks1, g1) →
      (∀ u ∈ g1.terminals_, u ∈ g.terminals_ ∨ ([u] ∈ toks ∧ isupper u = false)) ∧
      ∃ extra, g1.productions_ = g.productions_ ++ extra := by
  induction toks with
  | nil =>
    intro g toks1 g1 h
    simp only [isolateTokens, Option.some.injEq, Prod.mk.injEq] at h
    obtain ⟨_, rfl⟩ := h
    exact ⟨fun u hu => Or.inl hu, [], by simp⟩
  | cons tok toks ih =>
    intro g toks1 g1 h
    have hother : (match isolateTokens g toks with
        | none => none
        | some (toks1, g1) => some (tok :: toks1, g1)) = some (toks1, g1) →
        (∀ u ∈ g1.terminals_, u ∈ g.terminals_ ∨ ([u] ∈ tok :: toks ∧ isupper u = false)) ∧
        ∃ extra, g1.productions_ = g.productions_ ++ extra := by
      intro h2
      cases hr : isolateTokens g toks with
      | none => rw [hr] at h2; cases h2
      | some r =>
        obtain ⟨ta, ga⟩ := r
        rw [hr] at h2
        simp only [Option.some.injEq, Prod.mk.injEq] at h2
        obtain ⟨_, rfl⟩ := h2
        obtain ⟨ha, hb⟩ := ih g ta ga hr
        refine ⟨?_, hb⟩
        intro u hu
        rcases ha u hu with h3 | ⟨h3, h4⟩
        · exact Or.inl h3
        · exact Or.inr ⟨List.mem_cons_of_mem _ h3, h4⟩
    rcases tok with _ | ⟨t, _ | ⟨v, rest⟩⟩
    · exact hother (by simpa only [isolateTokens] using h)
    · by_cases hu : isupper t = true
      · exact hother (by simpa only [isolateTokens, hu, if_true] using h)
      · simp only [isolateTokens, hu] at h
        cases hr : TerminalToNonTerminal g t with
        | none => rw [hr] at h; simp at h
        | some r =>
          obtain ⟨name, ga⟩ := r
          rw [hr] at h
          simp only [Bool.false_eq_true, if_false] at h
          cases hr2 : isolateTokens ga toks with
          | none => rw [hr2] at h; cases h
          | some r2 =>
            obtain ⟨tb, gb⟩ := r2
            rw [hr2] at h
            simp only [Option.some.injEq, Prod.mk.injEq] at h
            obtain ⟨_, rfl⟩ := h
            obtain ⟨ha1, ea, hea⟩ := TerminalToNonTerminal_terminals g t name ga hr
            obtain ⟨hb1, eb, heb⟩ := ih ga tb gb hr2
            refine ⟨?_, ea ++ eb, by rw [heb, hea, List.append_assoc]⟩
            intro u hu2
            rcases hb1 u hu2 with h3 | ⟨h3, h4⟩
            · rcases ha1 u h3 with h5 | h5
              · exact Or.inl h5
              · subst h5
                exact Or.inr ⟨List.mem_cons_self _ _, by simpa using hu⟩
            · exact Or.inr ⟨List.mem_cons_of_mem _ h3, h4⟩
    · exact hother (by simpa only [isolateTokens] using h)

/-- A terminal of the grammar after the first loop was a terminal before, or it is a token
of a right-hand side of two tokens or more among the productions still to be visited. -/
theorem firstLoop_terminals (orig : List Production) (count : Nat) :
    ∀ (i : Nat) (g g1 : Grammar), firstLoop count i g = some g1 →
      i + count ≤ g.productions_.length →
      (∀ j p, i ≤ j → j < i + count → g.productions_[j]? = some p → p ∈ orig) →
      ∀ u ∈ g1.terminals_, u ∈ g.terminals_ ∨
        ∃ p ∈ orig, 2 ≤ p.rhs.length ∧ [u] ∈ p.rhs ∧ isupper u = false := by
  induction count with
  | zero =>
    intro i g g1 h _ _ u hu
    simp only [firstLoop, Option.some.injEq] at h
    subst h
    exact Or.inl hu
  | succ count ih =>
    intro i g g1 h hlen hinv u hu
    have hi : i < g.productions_.length := by omega
    have hpi : g.productions_[i] ∈ orig :=
      hinv i _ (Nat.le_refl _) (by omega) (List.getElem?_eq_getElem hi)
    simp only [firstLoop, List.getElem?_eq_getElem hi] at h
    by_cases h2 : 2 ≤ (g.productions_[i]).rhs.length
    · rw [if_pos h2] at h
      cases hr : isolateTokens g (g.productions_[i]).rhs with
      | none => rw [hr] at h; cases h
      | some r =>
        obtain ⟨rhs1, ga⟩ := r
        rw [hr] at h
        obtain ⟨ha, extra, hex⟩ := isolateTokens_terminals _ g rhs1 ga hr
        have := ih (i + 1) _ g1 h
          (by simp only [List.length_set, hex, List.length_append]; omega)
          (by
            intro j p hj1 hj2 hjp
            simp only at hjp
            rw [List.getElem?_set_ne (by omega), hex,
              List.getElem?_append_left (by omega)] at hjp
            exact hinv j p (by omega) (by omega) hjp) u hu
        rcases this with h3 | h3
        · rcases ha u h3 with h4 | ⟨h4, h5⟩
          · exact Or.inl h4
          · exact Or.inr ⟨_, hpi, h2, h4, h5⟩
        · exact Or.inr h3
    · rw [if_neg h2] at h
      exact ih (i + 1) g g1 h (by omega)
        (fun j p hj1 hj2 hjp => hinv j p (by omega) (by omega) hjp) u hu

/-- C17. `TransformToCNF` deletes no symbol and leaves the start symbol as it is: on every
grammar it returns a grammar with the same start symbol in which every non-terminal and
every terminal present before is present. For a grammar accepted by `ValidateFormat` the
terminals afterwards are exactly the terminals before, and when the grammar was read by
`ReadFromFile` the terminal set, as the ordered list that represents it, is the same. -/
theorem C17_no_symbol_deleted (g : Grammar) :
    (∃ g2, TransformToCNF g = some g2 ∧ StartSymbol g2 = StartSymbol g ∧
      (∀ nt ∈ g.nonterminals_, nt ∈ g2.nonterminals_) ∧
      (∀ t ∈ g.terminals_, t ∈ g2.terminals_)) ∧
    (ValidateFormat g = .ok () →
      ∃ g2, TransformToCNF g = some g2 ∧ (∀ t, t ∈ g2.terminals_ ↔ t ∈ g.terminals_) ∧
        ∀ text : Str, ReadFromFile text = .ok g → g2.terminals_ = g.terminals_) := by
  refine ⟨TransformToCNF_total g, ?_⟩
  intro hval
  have hv := Validated_of_ok g hval
  obtain ⟨g1, hg1, hgrow⟩ := firstLoop_total g.productions_.length 0 g (by omega)
  have hterm : ∀ u ∈ g1.terminals_, u ∈ g.terminals_ := by
    intro u hu
    rcases firstLoop_terminals g.productions_ _ 0 g g1 hg1 (by omega)
      (fun j p _ _ hjp => List.mem_iff_getElem?.mpr ⟨j, hjp⟩) u hu with h | ⟨p, hp, h2, hmem, hlow⟩
    · exact h
    · have hne : p.rhs ≠ [['&']] := by
        intro e; rw [e] at h2; simp at h2
      obtain ⟨c, hc, hcase⟩ := hv.rhs_ok p hp hne [u] hmem
      have hct : c = u := by simpa using hc.symm
      subst hct
      simpa [hlow] using hcase
  refine ⟨{ addDs (dCount g1.productions_) g1 with
            productions_ := [] ++ binarize g1.counter_d_ g1.productions_ }, ?_, ?_, ?_⟩
  · simp only [TransformToCNF, hg1, secondLoop_spec]
  · intro t
    simp only [addDs_terminals]
    exact ⟨hterm t, hgrow.terminals_sub t⟩
  · intro text hload
    have hl := Loaded_of_ok text g hload
    obtain ⟨ts, h1, hf, _, h3, _⟩ := TransformToCNF_clean g (Clean_of_loaded g hl hv)
    rw [hg1] at hf
    simp only [Option.some.injEq] at hf
    simp only [addDs_terminals]
    rw [hf]
    apply terminals_extend_of_mem ts g (terminals_sorted_of_ok text g hload)
    intro t ht
    apply hterm
    rw [hf]
    exact (mem_terminals_extend ts g t).mpr (Or.inr ht)

theorem C17_no_symbol_deleted_witness :
    ∃ g2, TransformToCNF aSbGrammar = some g2 ∧
      (∀ t, t ∈ g2.terminals_ ↔ t ∈ aSbGrammar.terminals_) ∧
      ∀ text : Str, ReadFromFile text = .ok aSbGrammar →
        g2.terminals_ = aSbGrammar.terminals_ :=
  (C17_no_symbol_deleted aSbGrammar).2 rfl

/-! ## The symbols of the result are declared -/

theorem chain_symbols (rhs : List Str) : ∀ (k : Nat) (lhs : Str) (q : Production),
    q ∈ chain k lhs rhs →
    (q.lhs = lhs ∨ ∃ j, k < j ∧ j ≤ k + (rhs.length - 2) ∧ q.lhs = dName j) ∧
    ∀ tok ∈ q.rhs, tok ∈ rhs ∨ ∃ j, k < j ∧ j ≤ k + (rhs.length - 2) ∧ tok = dName j := by
  induction rhs with
  | nil =>
    intro k lhs q hq
    simp only [chain, List.mem_singleton] at hq
    subst hq
    exact ⟨Or.inl rfl, fun tok h => Or.inl h⟩
  | cons b rest ih =>
    intro k lhs q hq
    rcases rest with _ | ⟨c, _ | ⟨d, rest⟩⟩
    · simp only [chain, List.mem_singleton] at hq
      subst hq
      exact ⟨Or.inl rfl, fun tok h => Or.inl h⟩
    · simp only [chain, List.mem_singleton] at hq
      subst hq
      exact ⟨Or.inl rfl, fun tok h => Or.inl h⟩
    · rw [chain, List.mem_cons] at hq
      rcases hq with rfl | hq
      · refine ⟨Or.inl rfl, ?_⟩
        intro tok htok
        simp only [List.mem_cons, List.mem_singleton, List.not_mem_nil, or_false] at htok
        rcases htok with rfl | rfl
        · exact Or.inl (List.mem_cons_self _ _)
        · exact Or.inr ⟨k + 1, by omega, by simp only [List.length_cons]; omega, rfl⟩
      · obtain ⟨h1, h2⟩ := ih (k + 1) _ q hq
        simp only [List.length_cons] at h1 h2 ⊢
        constructor
        · rcases h1 with h1 | ⟨j, a, b2, e⟩
          · exact Or.inr ⟨k + 1, by omega, by omega, h1⟩
          · exact Or.inr ⟨j, by omega, by omega, e⟩
        · intro tok htok
          rcases h2 tok htok with h3 | ⟨j, a, b2, e⟩
          · exact Or.inl (List.mem_cons_of_mem _ h3)
          · exact Or.inr ⟨j, by omega, by omega, e⟩

theorem binarize_symbols (ps : List Production) : ∀ (k : Nat) (q : Production),
    q ∈ binarize k ps →
    ((∃ p ∈ ps, q.lhs = p.lhs) ∨ ∃ j, k < j ∧ j ≤ k + dCount ps ∧ q.lhs = dName j) ∧
    ∀ tok ∈ q.rhs, (∃ p ∈ ps, tok ∈ p.rhs) ∨ ∃ j, k < j ∧ j ≤ k + dCount ps ∧ tok = dName j := by
  induction ps with
  | nil => intro k q h; simp [binarize] at h
  | cons p ps ih =>
    intro k q h
    have hrec : ∀ k2, k ≤ k2 → k2 + dCount ps ≤ k + dCount (p :: ps) → q ∈ binarize k2 ps →
        ((∃ p2 ∈ p :: ps, q.lhs = p2.lhs) ∨
          ∃ j, k < j ∧ j ≤ k + dCount (p :: ps) ∧ q.lhs = dName j) ∧
        ∀ tok ∈ q.rhs, (∃ p2 ∈ p :: ps, tok ∈ p2.rhs) ∨
          ∃ j, k < j ∧ j ≤ k + dCount (p :: ps) ∧ tok = dName j := by
      intro k2 hk1 hk2 hq
      obtain ⟨h1, h2⟩ := ih k2 q hq
      constructor
      · rcases h1 with ⟨p2, hp2, e⟩ | ⟨j, a, b, e⟩
        · exact Or.inl ⟨p2, List.mem_cons_of_mem _ hp2, e⟩
        · exact Or.inr ⟨j, by omega, by omega, e⟩
      · intro tok htok
        rcases h2 tok htok with ⟨p2, hp2, e⟩ | ⟨j, a, b, e⟩
        · exact Or.inl ⟨p2, List.mem_cons_of_mem _ hp2, e⟩
        · exact Or.inr ⟨j, by omega, by omega, e⟩
    by_cases h3 : 3 ≤ p.rhs.length
    · rw [binarize, if_pos h3, List.mem_append] at h
      rcases h with h | h
      · obtain ⟨h1, h2⟩ := chain_symbols _ _ _ _ h
        simp only [dCount]
        constructor
        · rcases h1 with h1 | ⟨j, a, b, e⟩
          · exact Or.inl ⟨p, List.mem_cons_self _ _, h1⟩
          · exact Or.inr ⟨j, a, by omega, e⟩
        · intro tok htok
          rcases h2 tok htok with h4 | ⟨j, a, b, e⟩
          · exact Or.inl ⟨p, List.mem_cons_self _ _, h4⟩
          · exact Or.inr ⟨j, a, by omega, e⟩
      · exact hrec _ (by omega) (by simp only [dCount]; omega) h
    · rw [binarize, if_neg h3, List.mem_cons] at h
      rcases h with rfl | h
      · exact ⟨Or.inl ⟨q, List.mem_cons_self _ _, rfl⟩,
          fun tok htok => Or.inl ⟨q, List.mem_cons_self _ _, htok⟩⟩
      · exact hrec k (Nat.le_refl _) (by simp only [dCount]; omega) h

theorem isolateProd_lhs (p : Production) : (isolateProd p).lhs = p.lhs := by
  unfold isolateProd; split <;> rfl

/-- C12. For a grammar read by `ReadFromFile` and accepted by `ValidateFormat` and by
`CheckPreconditions`, the grammar that `TransformToCNF` returns has its symbols declared:
the left-hand side of every production is in the non-terminal set, and every token of a
right-hand side either starts with an upper-case letter and is in the non-terminal set, or
is one character (not upper-case) that is in the terminal set. -/
theorem C12_symbols_declared_after_transform (text : Str) (g : Grammar)
    (hload : ReadFromFile text = .ok g) (hval : ValidateFormat g = .ok ())
    (hpre : CheckPreconditions g = .ok ()) :
    ∃ g2, TransformToCNF g = some g2 ∧
      ∀ q ∈ g2.productions_, q.lhs ∈ g2.nonterminals_ ∧
        ∀ tok ∈ q.rhs, (startsUpper tok = true ∧ tok ∈ g2.nonterminals_) ∨
          (∃ c, tok = [c] ∧ isupper c = false ∧ c ∈ g2.terminals_) := by
  have hl := Loaded_of_ok text g hload
  have hv := Validated_of_ok g hval
  obtain ⟨heps, _⟩ := (CheckPreconditions_ok_iff g).mp hpre
  obtain ⟨ts, h1, _, _, h3, h4⟩ := TransformToCNF_clean g (Clean_of_loaded g hl hv)
  refine ⟨_, h1, ?_⟩
  have hN : ∀ nt, nt ∈ (extend g ts).nonterminals_ →
      nt ∈ (addDs (dCount (isolated g ts)) (extend g ts)).nonterminals_ :=
    fun nt h => (mem_nonterminals_addDs _ _ _).mpr (Or.inl h)
  have hD : ∀ j, g.counter_d_ < j → j ≤ g.counter_d_ + dCount (isolated g ts) →
      dName j ∈ (addDs (dCount (isolated g ts)) (extend g ts)).nonterminals_ := by
    intro j a b
    refine (mem_nonterminals_addDs _ _ _).mpr (Or.inr ⟨j, ?_, ?_, rfl⟩)
    · rw [counter_extend]; exact a
    · rw [counter_extend]; exact b
  have hold : ∀ nt, nt ∈ g.nonterminals_ → nt ∈ (extend g ts).nonterminals_ :=
    fun nt h => (mem_nonterminals_extend ts g nt).mpr (Or.inl h)
  have haux : ∀ t ∈ ts, ['C', t] ∈ (extend g ts).nonterminals_ :=
    fun t h => (mem_nonterminals_extend ts g _).mpr (Or.inr ⟨t, h, rfl⟩)
  have hlhs : ∀ p ∈ isolated g ts, p.lhs ∈ (extend g ts).nonterminals_ := by
    intro p hp
    rcases List.mem_append.mp hp with h | h
    · obtain ⟨p0, hp0, rfl⟩ := List.mem_map.mp h
      rw [isolateProd_lhs]
      exact hold _ (hv.lhs_ok p0 hp0)
    · obtain ⟨t, ht, rfl⟩ := List.mem_map.mp h
      exact haux t ht
  have htok : ∀ p ∈ isolated g ts, ∀ tok ∈ p.rhs,
      (startsUpper tok = true ∧ tok ∈ (extend g ts).nonterminals_) ∨
      (∃ c, tok = [c] ∧ isupper c = false ∧ c ∈ (extend g ts).terminals_) := by
    intro p hp tok htok
    rcases List.mem_append.mp hp with h | h
    · obtain ⟨p0, hp0, rfl⟩ := List.mem_map.mp h
      by_cases h2 : 2 ≤ p0.rhs.length
      · simp only [isolateProd, if_pos h2] at htok
        obtain ⟨tok0, htok0, rfl⟩ := List.mem_map.mp htok
        obtain ⟨c, hc, hcase⟩ := hv.rhs_ok p0 hp0 (heps p0 hp0) tok0 htok0
        subst hc
        left
        by_cases hu : isupper c = true
        · rw [if_pos hu] at hcase
          have e : isolate [c] = [c] := by simp [isolate, isTerminalTok, hu]
          rw [e]
          exact ⟨by simp [startsUpper, hu], hold _ hcase⟩
        · simp only [Bool.not_eq_true] at hu
          have e : isolate [c] = ['C', c] := by simp [isolate, isTerminalTok, hu]
          rw [e]
          refine ⟨rfl, haux c ?_⟩
          rcases h4 p0 hp0 h2 c htok0 hu with h5 | h5
          · simp [keys, hl.map_empty] at h5
          · exact h5
      · simp only [isolateProd, if_neg h2] at htok
        obtain ⟨c, hc, hcase⟩ := hv.rhs_ok p0 hp0 (heps p0 hp0) tok htok
        subst hc
        by_cases hu : isupper c = true
        · rw [if_pos hu] at hcase
          exact Or.inl ⟨by simp [startsUpper, hu], hold _ hcase⟩
        · rw [if_neg hu] at hcase
          simp only [Bool.not_eq_true] at hu
          exact Or.inr ⟨c, rfl, hu, (mem_terminals_extend ts g c).mpr (Or.inl hcase)⟩
    · obtain ⟨t, ht, rfl⟩ := List.mem_map.mp h
      simp only [auxProd, List.mem_singleton] at htok
      subst htok
      exact Or.inr ⟨t, rfl, (h3 t ht).2.1, (mem_terminals_extend ts g t).mpr (Or.inr ht)⟩
  intro q hq
  obtain ⟨a, b⟩ := binarize_symbols _ _ q hq
  constructor
  · rcases a with ⟨p, hp, e⟩ | ⟨j, j1, j2, e⟩
    · rw [e]; exact hN _ (hlhs p hp)
    · rw [e]; exact hD j j1 j2
  · intro tok ht
    rcases b tok ht with ⟨p, hp, hmem⟩ | ⟨j, j1, j2, e⟩
    · rcases htok p hp tok hmem with ⟨u, hin⟩ | ⟨c, hc, hlow, hin⟩
      · exact Or.inl ⟨u, hN _ hin⟩
      · exact Or.inr ⟨c, hc, hlow, by simpa only [addDs_terminals] using hin⟩
    · rw [e]
      exact Or.inl ⟨startsUpper_dName j, hD j j1 j2⟩

theorem C12_symbols_declared_after_transform_witness :
    ∃ g2, TransformToCNF aSbGrammar = some g2 ∧
      ∀ q ∈ g2.productions_, q.lhs ∈ g2.nonterminals_ ∧
        ∀ tok ∈ q.rhs, (startsUpper tok = true ∧ tok ∈ g2.nonterminals_) ∨
          (∃ c, tok = [c] ∧ isupper c = false ∧ c ∈ g2.terminals_) :=
  C12_symbols_declared_after_transform aSbText aSbGrammar rfl rfl rfl

/-! ## The auxiliary names are fresh -/

theorem map_extend (ts : List Char) : ∀ g : Grammar,
    (extend g ts).terminal_to_nt_ = g.terminal_to_nt_ ++ ts.map (fun t => (t, ['C', t])) := by
  induction ts with
  | nil => intro g; simp [extend]
  | cons t ts ih => intro g; rw [extend_cons, ih]; simp [addAux]

theorem filter_one_length (j : Nat) (p : Production) (rest : List Production) :
    ((p :: rest).filter (fun q => decide (q.lhs = dName j))).length
      = (if p.lhs = dName j then 1 else 0)
        + (rest.filter (fun q => decide (q.lhs = dName j))).length := by
  rw [List.filter_cons]
  by_cases h : p.lhs = dName j
  · simp only [h, decide_True, if_true, List.length_cons]; omega
  · simp only [h, decide_False, Bool.false_eq_true, if_false]; omega

theorem chain_count (j : Nat) (rhs : List Str) : ∀ (k : Nat) (lhs : Str),
    ((chain k lhs rhs).filter (fun q => decide (q.lhs = dName j))).length
      = (if lhs = dName j then 1 else 0)
        + (if k < j ∧ j ≤ k + (rhs.length - 2) then 1 else 0) := by
  induction rhs with
  | nil =>
    intro k lhs
    have e : chain k lhs [] = [{ lhs := lhs, rhs := [] }] := rfl
    rw [e, filter_one_length, List.filter_nil, List.length_nil, List.length_nil,
      if_neg (by omega : ¬ (k < j ∧ j ≤ k + (0 - 2)))]
  | cons b rest ih =>
    intro k lhs
    rcases rest with _ | ⟨c, _ | ⟨d, rest⟩⟩
    · have e : chain k lhs [b] = [{ lhs := lhs, rhs := [b] }] := rfl
      rw [e, filter_one_length, List.filter_nil, List.length_nil,
        if_neg (by simp only [List.length_cons, List.length_nil]; omega :
          ¬ (k < j ∧ j ≤ k + ([b].length - 2)))]
    · have e : chain k lhs [b, c] = [{ lhs := lhs, rhs := [b, c] }] := rfl
      rw [e, filter_one_length, List.filter_nil, List.length_nil,
        if_neg (by simp only [List.length_cons, List.length_nil]; omega :
          ¬ (k < j ∧ j ≤ k + ([b, c].length - 2)))]
    · have hrec := ih (k + 1) (dName (k + 1))
      rw [chain, filter_one_length, hrec]
      simp only [List.length_cons]
      by_cases h1 : k + 1 = j
      · have e : dName (k + 1) = dName j := by rw [h1]
        rw [if_pos e, if_neg (by omega : ¬ (k + 1 < j ∧ j ≤ k + 1 + (rest.length + 1 + 1 - 2))),
          if_pos (by omega : k < j ∧ j ≤ k + (rest.length + 1 + 1 + 1 - 2))]
      · have e : dName (k + 1) ≠ dName j := fun h => h1 (dName_injective h)
        rw [if_neg e]
        by_cases h2 : k + 1 < j ∧ j ≤ k + 1 + (rest.length + 1 + 1 - 2)
        · rw [if_pos h2, if_pos (by omega : k < j ∧ j ≤ k + (rest.length + 1 + 1 + 1 - 2))]
        · rw [if_neg h2, if_neg (by omega : ¬ (k < j ∧ j ≤ k + (rest.length + 1 + 1 + 1 - 2)))]

/-- Among the productions after the second loop, started with the counter at `k`, the
name `D<j>` is the left-hand side of exactly one when `k < j <= k + dCount ps`, and of
none otherwise, provided that it is the left-hand side of none before. -/
theorem binarize_count (j : Nat) (ps : List Production) : ∀ k : Nat,
    (∀ p ∈ ps, p.lhs ≠ dName j) →
    ((binarize k ps).filter (fun q => decide (q.lhs = dName j))).length
      = if k < j ∧ j ≤ k + dCount ps then 1 else 0 := by
  induction ps with
  | nil =>
    intro k _
    simp only [binarize, dCount, List.filter_nil, List.length_nil]
    rw [if_neg (by omega : ¬ (k < j ∧ j ≤ k + 0))]
  | cons p ps ih =>
    intro k h
    have hp : p.lhs ≠ dName j := h p (List.mem_cons_self _ _)
    have ih2 := fun k2 => ih k2 (fun q hq => h q (List.mem_cons_of_mem _ hq))
    by_cases h3 : 3 ≤ p.rhs.length
    · rw [binarize, if_pos h3, List.filter_append, List.length_append, chain_count, ih2,
        if_neg hp]
      simp only [dCount]
      by_cases a : k < j ∧ j ≤ k + (p.rhs.length - 2)
      · rw [if_pos a,
          if_neg (by omega :
            ¬ (k + (p.rhs.length - 2) < j ∧ j ≤ k + (p.rhs.length - 2) + dCount ps)),
          if_pos (by omega : k < j ∧ j ≤ k + (p.rhs.length - 2 + dCount ps))]
      · rw [if_neg a]
        by_cases b : k + (p.rhs.length - 2) < j ∧ j ≤ k + (p.rhs.length - 2) + dCount ps
        · rw [if_pos b, if_pos (by omega : k < j ∧ j ≤ k + (p.rhs.length - 2 + dCount ps))]
        · rw [if_neg b,
            if_neg (by omega : ¬ (k < j ∧ j ≤ k + (p.rhs.length - 2 + dCount ps)))]
    · rw [binarize, if_neg h3, filter_one_length, if_neg hp, ih2]
      simp only [dCount]
      have e : p.rhs.length - 2 = 0 := by omega
      simp only [e, Nat.zero_add]

/-- C19. For a grammar read by `ReadFromFile` and accepted by `ValidateFormat`, the
auxiliary names that `TransformToCNF` introduces (the names of the terminals replaced and
the `D` names) are exactly the non-terminals that the result has and the grammar had not:
none of them was a non-terminal before, they are pairwise distinct, and each of them is the
left-hand side of exactly one production of the result. -/
theorem C19_auxiliary_names_fresh (text : Str) (g : Grammar)
    (hload : ReadFromFile text = .ok g) (hval : ValidateFormat g = .ok ()) :
    ∃ g2, TransformToCNF g = some g2 ∧
      (∀ nt, nt ∈ g2.nonterminals_ ↔ nt ∈ g.nonterminals_ ∨ nt ∈ introduced g g2) ∧
      (∀ n ∈ introduced g g2, n ∉ g.nonterminals_) ∧
      (introduced g g2).Nodup ∧
      ∀ n ∈ introduced g g2,
        (g2.productions_.filter (fun q => decide (q.lhs = n))).length = 1 := by
  have hl := Loaded_of_ok text g hload
  have hv := Validated_of_ok g hval
  have hc := Clean_of_loaded g hl hv
  obtain ⟨ts, h1, _, nd, _, _⟩ := TransformToCNF_clean g hc
  refine ⟨_, h1, ?_⟩
  have hintro : introduced g
      { addDs (dCount (isolated g ts)) (extend g ts) with
        productions_ := binarize g.counter_d_ (isolated g ts) }
      = ts.map (fun t => ['C', t])
        ++ (List.range' (g.counter_d_ + 1) (dCount (isolated g ts))).map dName := by
    unfold introduced
    simp only [addDs_map, addDs_counter, map_extend, counter_extend, List.drop_left,
      List.map_map, Nat.add_sub_cancel_left]
    rfl
  rw [hintro]
  have hone : ∀ nt ∈ g.nonterminals_, nt.length = 1 := by
    intro nt h
    obtain ⟨c, e, _⟩ := hv.nonterminals_ok nt h
    rw [e]; rfl
  have hmemI : ∀ n, n ∈ ts.map (fun t => ['C', t])
        ++ (List.range' (g.counter_d_ + 1) (dCount (isolated g ts))).map dName ↔
      (∃ t ∈ ts, n = ['C', t]) ∨
      ∃ j, g.counter_d_ < j ∧ j ≤ g.counter_d_ + dCount (isolated g ts) ∧ n = dName j := by
    intro n
    simp only [List.mem_append, List.mem_map, List.mem_range']
    constructor
    · rintro (⟨t, ht, rfl⟩ | ⟨j, ⟨i, hi, rfl⟩, rfl⟩)
      · exact Or.inl ⟨t, ht, rfl⟩
      · exact Or.inr ⟨_, by omega, by omega, rfl⟩
    · rintro (⟨t, ht, rfl⟩ | ⟨j, a, b, rfl⟩)
      · exact Or.inl ⟨t, ht, rfl⟩
      · exact Or.inr ⟨j, ⟨j - (g.counter_d_ + 1), by omega, by omega⟩, rfl⟩
  have hlhsOrig : ∀ p ∈ g.productions_, (isolateProd p).lhs.length = 1 := by
    intro p hp
    rw [isolateProd_lhs]
    exact hone _ (hv.lhs_ok p hp)
  refine ⟨?_, ?_, ?_, ?_⟩
  · intro nt
    rw [hmemI, mem_nonterminals_addDs, mem_nonterminals_extend, counter_extend]
    constructor
    · rintro ((h | h) | h)
      · exact Or.inl h
      · exact Or.inr (Or.inl h)
      · exact Or.inr (Or.inr h)
    · rintro (h | h | h)
      · exact Or.inl (Or.inl h)
      · exact Or.inl (Or.inr h)
      · exact Or.inr h
  · intro n hn hin
    have h1c := hone n hin
    rcases (hmemI n).mp hn with ⟨t, _, rfl⟩ | ⟨j, _, _, rfl⟩
    · simp at h1c
    · have := dName_length j
      omega
  · rw [List.nodup_append]
    refine ⟨?_, ?_, ?_⟩
    · apply nd.map
      intro a b h
      simpa using h
    · exact (List.nodup_range' _ _).map dName_injective
    · intro n ha hb
      obtain ⟨t, _, rfl⟩ := List.mem_map.mp ha
      obtain ⟨j, _, e⟩ := List.mem_map.mp hb
      simp [dName] at e
  · intro n hn
    simp only
    rcases (hmemI n).mp hn with ⟨a, hats, rfl⟩ | ⟨j, j1, j2, rfl⟩
    · rw [filter_lhs_binarize ['C', a] (by intro j; simp [dName])]
      · unfold isolated
        rw [List.filter_append, filter_auxProd a ts nd hats]
        have hnil : (g.productions_.map isolateProd).filter
            (fun q => decide (q.lhs = ['C', a])) = [] := by
          rw [List.filter_eq_nil_iff]
          intro q hq
          obtain ⟨p, hp, rfl⟩ := List.mem_map.mp hq
          have := hlhsOrig p hp
          simp only [decide_eq_true_eq]
          intro e
          rw [e] at this
          simp at this
        rw [hnil]
        rfl
      · intro p hp hlhs
        rcases List.mem_append.mp hp with h | h
        · obtain ⟨p0, hp0, rfl⟩ := List.mem_map.mp h
          have := hlhsOrig p0 hp0
          rw [hlhs] at this
          simp at this
        · obtain ⟨t, _, rfl⟩ := List.mem_map.mp h
          simp [auxProd]
    · rw [binarize_count j _ _ ?_, if_pos ⟨j1, j2⟩]
      intro p hp e
      rcases List.mem_append.mp hp with h | h
      · obtain ⟨p0, hp0, rfl⟩ := List.mem_map.mp h
        have := hlhsOrig p0 hp0
        rw [e] at this
        have := dName_length j
        omega
      · obtain ⟨t, _, rfl⟩ := List.mem_map.mp h
        simp [auxProd, dName] at e

theorem C19_auxiliary_names_fresh_witness :
    ∃ g2, TransformToCNF aSbGrammar = some g2 ∧
      (∀ nt, nt ∈ g2.nonterminals_ ↔
        nt ∈ aSbGrammar.nonterminals_ ∨ nt ∈ introduced aSbGrammar g2) ∧
      (∀ n ∈ introduced aSbGrammar g2, n ∉ aSbGrammar.nonterminals_) ∧
      (introduced aSbGrammar g2).Nodup ∧
      ∀ n ∈ introduced aSbGrammar g2,
        (g2.productions_.filter (fun q => decide (q.lhs = n))).length = 1 :=
  C19_auxiliary_names_fresh aSbText aSbGrammar rfl rfl

/-- The names introduced in the example `S -> aSb`: `Ca`, `Cb` and `D1`. -/
theorem introduced_example :
    ∃ g2, TransformToCNF aSbGrammar = some g2 ∧
      introduced aSbGrammar g2 = [['C', 'a'], ['C', 'b'], ['D', '1']] :=
  ⟨_, rfl, by decide⟩

/-! ## An example of a block of the second pass -/

/-- The block of `A -> BCDE` when the counter is at `4`:
`A -> B D5`, `D5 -> C D6`, `D6 -> D E`, and the counter is left at `6`. -/
theorem blockWords_example :
    blockWords 4 { lhs := ['A'], rhs := [['B'], ['C'], ['D'], ['E']] }
      = [{ lhs := ['A'], rhs := [['B'], ['D', '5']] },
         { lhs := ['D', '5'], rhs := [['C'], ['D', '6']] },
         { lhs := ['D', '6'], rhs := [['D'], ['E']] }] ∧
    counterWords 4 { lhs := ['A'], rhs := [['B'], ['C'], ['D'], ['E']] } = 6 := by
  decide

/-! ## The token `&` -/

/-- C21, as amended. In every grammar accepted by `ValidateFormat`, so in every grammar
read by `ReadFromFile` and accepted by it, a production whose right-hand side holds the
token `&` has that token as the sole element of its right-hand side, or `&` is a declared
terminal. -/
theorem C21_epsilon_alone_or_declared (g : Grammar) (hval : ValidateFormat g = .ok ()) :
    ∀ p ∈ g.productions_, ['&'] ∈ p.rhs → p.rhs = [['&']] ∨ '&' ∈ g.terminals_ := by
  intro p hp hmem
  by_cases he : p.rhs = [['&']]
  · exact Or.inl he
  · right
    obtain ⟨c, hc, hcase⟩ := (Validated_of_ok g hval).rhs_ok p hp he ['&'] hmem
    have e : c = '&' := by simpa using hc.symm
    subst e
    simpa [isupper] using hcase

theorem C21_epsilon_alone_or_declared_witness :
    ReadFromFile ampText = .ok ampGrammar ∧
    ∀ p ∈ ampGrammar.productions_, ['&'] ∈ p.rhs →
      p.rhs = [['&']] ∨ '&' ∈ ampGrammar.terminals_ :=
  ⟨rfl, C21_epsilon_alone_or_declared ampGrammar rfl⟩

/-- C21, as stated, fails on the grammar read from `ampText`, which `ValidateFormat`
accepts: the right-hand side of `S -> a&` holds the token `&` and a second token. -/
theorem C21_declared_ampersand_counterexample :
    ReadFromFile ampText = .ok ampGrammar ∧ ValidateFormat ampGrammar = .ok () ∧
    ∃ p ∈ ampGrammar.productions_, ['&'] ∈ p.rhs ∧ p.rhs ≠ [['&']] :=
  ⟨rfl, rfl, ⟨{ lhs := ['S'], rhs := [['a'], ['&']] }, by decide, by decide, by decide⟩⟩

/-! ## The reachable letters are declared -/

/-- The letters returned by `ReachableNonTerminals` are in every set that holds the first
letter of the start symbol and is closed under the rule of the traversal. -/
theorem reachable_in_closed (g : Grammar) (S : Char) (hstart : g.start_symbol_ = [S])
    (hup : isupper S = true) (X : Char → Prop) (hS : X S)
    (hX : ClosedUnder g.productions_ X) :
    ∃ R, ReachableNonTerminals g = some R ∧ ∀ c ∈ R, X c := by
  obtain ⟨R, hR, _, _, hleast⟩ := reachLoop_spec g.productions_ S 27 [S] [S] (by simp)
    (by simpa using hup) (by simp) (by simp) (by simp) (by
      intro c hc Y hYS _
      simp only [List.mem_singleton] at hc
      subst hc
      exact hYS) (by simp)
  refine ⟨R, ?_, fun c hc => hleast c hc X hS hX⟩
  unfold ReachableNonTerminals
  rw [hstart]
  simp only [hup]
  exact hR

theorem mem_DeclaredNonTerminals (g : Grammar) (c : Char) :
    c ∈ DeclaredNonTerminals g ↔ [c] ∈ g.nonterminals_ ∧ isupper c = true := by
  unfold DeclaredNonTerminals
  rw [declared_fold_mem]
  simp

/-- In a validated grammar, an upper-case letter that is a token of a right-hand side is a
declared non-terminal. -/
theorem upper_token_declared (g : Grammar) (hv : Validated g) (p : Production)
    (hp : p ∈ g.productions_) (B : Char) (hB : [B] ∈ p.rhs) (hup : isupper B = true) :
    [B] ∈ g.nonterminals_ := by
  by_cases he : p.rhs = [['&']]
  · rw [he] at hB
    simp only [List.mem_singleton, List.cons.injEq, and_true] at hB
    subst hB
    have hno : isupper '&' = false := by decide
    rw [hno] at hup
    cases hup
  · obtain ⟨c, hc, hcase⟩ := hv.rhs_ok p hp he [B] hB
    have e : c = B := by simpa using hc.symm
    subst e
    simpa [hup] using hcase

/-- C25. For a grammar read by `ReadFromFile` and accepted by `ValidateFormat`, every
letter that `ReachableNonTerminals` returns is returned by `DeclaredNonTerminals`; and the
same holds of the grammar that `TransformToCNF` returns for it. -/
theorem C25_reachable_subset_declared (text : Str) (g : Grammar)
    (hload : ReadFromFile text = .ok g) (hval : ValidateFormat g = .ok ()) :
    (∃ R, ReachableNonTerminals g = some R ∧ ∀ c ∈ R, c ∈ DeclaredNonTerminals g) ∧
    (∃ g2 R2, TransformToCNF g = some g2 ∧ ReachableNonTerminals g2 = some R2 ∧
      ∀ c ∈ R2, c ∈ DeclaredNonTerminals g2) := by
  have hl := Loaded_of_ok text g hload
  have hv := Validated_of_ok g hval
  obtain ⟨S, hS, hup⟩ := hv.nonterminals_ok _ hl.start_mem
  have hSmem : [S] ∈ g.nonterminals_ := by rw [← hS]; exact hl.start_mem
  constructor
  · obtain ⟨R, hR, hsub⟩ := reachable_in_closed g S hS hup
      (fun c => [c] ∈ g.nonterminals_ ∧ isupper c = true) ⟨hSmem, hup⟩
      (fun A B p _ hp _ hB hB2 => ⟨upper_token_declared g hv p hp B hB hB2, hB2⟩)
    exact ⟨R, hR, fun c hc => (mem_DeclaredNonTerminals g c).mpr (hsub c hc)⟩
  · obtain ⟨ts, h1, _, _, h3, _⟩ := TransformToCNF_clean g (Clean_of_loaded g hl hv)
    have hclosed : ClosedUnder (binarize g.counter_d_ (isolated g ts))
        (fun c => [c] ∈ g.nonterminals_ ∧ isupper c = true) := by
      intro A B q _ hq _ hB hB2
      refine ⟨?_, hB2⟩
      rcases (binarize_symbols _ _ q hq).2 [B] hB with ⟨p, hp, hmem⟩ | ⟨j, _, _, e⟩
      · rcases List.mem_append.mp hp with h | h
        · obtain ⟨p0, hp0, rfl⟩ := List.mem_map.mp h
          by_cases h2 : 2 ≤ p0.rhs.length
          · simp only [isolateProd, if_pos h2] at hmem
            obtain ⟨tok0, htok0, e⟩ := List.mem_map.mp hmem
            obtain ⟨c, hc, _⟩ := hl.rhs_one p0 hp0 tok0 htok0
            subst hc
            by_cases hu : isupper c = true
            · have e2 : isolate [c] = [c] := by simp [isolate, isTerminalTok, hu]
              rw [e2] at e
              have e3 : c = B := by simpa using e
              subst e3
              exact upper_token_declared g hv p0 hp0 c htok0 hu
            · simp only [Bool.not_eq_true] at hu
              have e2 : isolate [c] = ['C', c] := by simp [isolate, isTerminalTok, hu]
              rw [e2] at e
              simp at e
          · simp only [isolateProd, if_neg h2] at hmem
            exact upper_token_declared g hv p0 hp0 B hmem hB2
        · obtain ⟨t, ht, rfl⟩ := List.mem_map.mp h
          simp only [auxProd, List.mem_singleton, List.cons.injEq, and_true] at hmem
          subst hmem
          have := (h3 B ht).2.1
          rw [hB2] at this
          cases this
      · have := dName_length j
        rw [← e] at this
        simp at this
    obtain ⟨R, hR, hsub⟩ := reachable_in_closed
      { addDs (dCount (isolated g ts)) (extend g ts) with
        productions_ := binarize g.counter_d_ (isolated g ts) } S
      (by simp only [addDs_start, start_extend]; exact hS) hup
      (fun c => [c] ∈ g.nonterminals_ ∧ isupper c = true) ⟨hSmem, hup⟩ hclosed
    refine ⟨_, R, h1, hR, ?_⟩
    intro c hc
    obtain ⟨a, b⟩ := hsub c hc
    refine (mem_DeclaredNonTerminals _ c).mpr ⟨?_, b⟩
    exact (mem_nonterminals_addDs _ _ _).mpr
      (Or.inl ((mem_nonterminals_extend ts g _).mpr (Or.inl a)))

theorem C25_reachable_subset_declared_witness :
    (∃ R, ReachableNonTerminals declaredExample = some R ∧
      ∀ c ∈ R, c ∈ DeclaredNonTerminals declaredExample) ∧
    (∃ g2 R2, TransformToCNF declaredExample = some g2 ∧
      ReachableNonTerminals g2 = some R2 ∧ ∀ c ∈ R2, c ∈ DeclaredNonTerminals g2) :=
  C25_reachable_subset_declared declaredText declaredExample rfl rfl

/-! ## Writing and reading a grammar that was read -/

theorem ranged_le (b : Prop) [Decidable b] (x v : Int)
    (h : (if b then none
          else if x < -2147483648 ∨ 2147483647 < x then none else some x) = some v) :
    v ≤ 2147483647 := by
  by_cases hb : b
  · rw [if_pos hb] at h; cases h
  · rw [if_neg hb] at h
    by_cases hr : x < -2147483648 ∨ 2147483647 < x
    · rw [if_pos hr] at h; cases h
    · rw [if_neg hr] at h
      simp only [Option.some.injEq] at h
      rw [not_or] at hr
      omega

theorem extractInt_le (s : Str) (v : Int) (h : extractInt s = some v) : v ≤ 2147483647 :=
  ranged_le _ _ v h

theorem read_int_line_le (ls : List Str) : ∀ (n : Int) (rest : List Str),
    read_int_line ls = .ok (n, rest) → n.toNat ≤ 2147483647 := by
  induction ls with
  | nil => intro n rest h; simp [read_int_line] at h
  | cons line ls ih =>
    intro n rest h
    simp only [read_int_line] at h
    split at h
    · exact ih n rest h
    · split at h
      · rename_i out ho
        simp only [Except.ok.injEq, Prod.mk.injEq] at h
        have := extractInt_le _ _ ho
        rw [← h.1]
        omega
      · cases h

theorem set_insert_length {α : Type} [LT α] [DecidableEq α] [∀ a b : α, Decidable (a < b)]
    (x : α) (s : List α) : (set_insert x s).length ≤ s.length + 1 := by
  induction s with
  | nil => simp [set_insert]
  | cons y ys ih =>
    unfold set_insert
    split
    · simp
    · split
      · simp
      · simp only [List.length_cons]; omega

theorem readTerminals_length (ls : List Str) :
    ∀ (n : Nat) (acc ts : List Char) (rest : List Str),
      readTerminals n ls acc = .ok (ts, rest) → ts.length ≤ acc.length + n := by
  induction ls with
  | nil =>
    intro n acc ts rest h
    cases n with
    | zero =>
      simp only [readTerminals, Except.ok.injEq, Prod.mk.injEq] at h
      rw [← h.1]; omega
    | succ n => simp [readTerminals] at h
  | cons line ls ih =>
    intro n acc ts rest h
    cases n with
    | zero =>
      simp only [readTerminals, Except.ok.injEq, Prod.mk.injEq] at h
      rw [← h.1]; omega
    | succ n =>
      simp only [readTerminals] at h
      split at h
      · exact ih _ _ _ _ h
      · split at h
        · have := ih _ _ _ _ h
          rename_i c _
          have := set_insert_length c acc
          omega
        · cases h

theorem readNonTerminals_sorted (ls : List Str) :
    ∀ (n : Nat) (nt_list nts nt_list2 nts2 : List Str) (rest : List Str),
      readNonTerminals n ls nt_list nts = .ok (nt_list2, nts2, rest) →
      nts.Sorted (fun a b => a < b) →
      nts2.Sorted (fun a b => a < b) ∧ nts2.length ≤ nts.length + n := by
  induction ls with
  | nil =>
    intro n nt_list nts nt_list2 nts2 rest h hs
    cases n with
    | zero =>
      simp only [readNonTerminals, Except.ok.injEq, Prod.mk.injEq] at h
      obtain ⟨_, h2, _⟩ := h; subst h2; exact ⟨hs, by omega⟩
    | succ n => simp [readNonTerminals] at h
  | cons line ls ih =>
    intro n nt_list nts nt_list2 nts2 rest h hs
    cases n with
    | zero =>
      simp only [readNonTerminals, Except.ok.injEq, Prod.mk.injEq] at h
      obtain ⟨_, h2, _⟩ := h; subst h2; exact ⟨hs, by omega⟩
    | succ n =>
      simp only [readNonTerminals] at h
      split at h
      · exact ih _ _ _ _ _ _ h hs
      · obtain ⟨a, b⟩ := ih _ _ _ _ _ _ h (set_insert_sorted _ _ hs)
        have := set_insert_length (TrimString line) nts
        exact ⟨a, by omega⟩

theorem readProductions_length (ls : List Str) :
    ∀ (n : Nat) (acc ps : List Production),
      readProductions n ls acc = .ok ps → ps.length = acc.length + n := by
  induction ls with
  | nil =>
    intro n acc ps h
    cases n with
    | zero =>
      simp only [readProductions, Except.ok.injEq] at h
      rw [← h]; omega
    | succ n => simp [readProductions] at h
  | cons line ls ih =>
    intro n acc ps h
    cases n with
    | zero =>
      simp only [readProductions, Except.ok.injEq] at h
      rw [← h]; omega
    | succ n =>
      simp only [readProductions] at h
      split at h
      · exact ih _ _ _ h
      · split at h
        · cases h
        · have := ih _ _ _ h
          simp only [List.length_append, List.length_singleton] at this
          omega

theorem set_insert_last {α : Type} [LinearOrder α] [DecidableEq α]
    [∀ a b : α, Decidable (a < b)] (x : α) (s : List α) (h : ∀ a ∈ s, a < x) :
    set_insert x s = s ++ [x] := by
  induction s with
  | nil => rfl
  | cons y ys ih =>
    have hy : y < x := h y (List.mem_cons_self _ _)
    unfold set_insert
    rw [if_neg (lt_asymm hy), if_neg (ne_of_gt hy),
      ih (fun a ha => h a (List.mem_cons_of_mem _ ha))]
    rfl

/-- The insertion, one after the other, of the members of a strictly increasing list
builds that list. -/
theorem foldl_set_insert_sorted {α : Type} [LinearOrder α] [DecidableEq α]
    [∀ a b : α, Decidable (a < b)] (s : List α) :
    ∀ acc : List α, (acc ++ s).Sorted (fun a b => a < b) →
      s.foldl (fun r x => set_insert x r) acc = acc ++ s := by
  induction s with
  | nil => intro acc _; simp
  | cons x s ih =>
    intro acc h
    have hlt : ∀ a ∈ acc, a < x := by
      intro a ha
      exact (List.pairwise_append.mp h).2.2 a ha x (List.mem_cons_self _ _)
    rw [List.foldl_cons, set_insert_last x acc hlt, ih (acc ++ [x]) (by simpa using h)]
    simp

/-- The sizes of a grammar that was read fit in an `int`, and its non-terminal set is in
strictly increasing order. -/
theorem sizes_of_ok (text : Str) (g : Grammar) (h : ReadFromFile text = .ok g) :
    g.terminals_.length ≤ 2147483647 ∧ g.nonterminals_.length ≤ 2147483647 ∧
    g.productions_.length ≤ 2147483647 ∧ g.nonterminals_.Sorted (fun a b => a < b) := by
  unfold ReadFromFile at h
  split at h
  · cases h
  · rename_i n_terms ls1 h1
    split at h
    · cases h
    · rename_i terminals ls2 hT
      split at h
      · cases h
      · rename_i n_nt ls3 h2
        split at h
        · cases h
        · rename_i nt_list nonterminals ls4 hN
          split at h
          · cases h
          · split at h
            · cases h
            · rename_i pcount ls5 h3
              split at h
              · cases h
              · rename_i productions hP
                simp only [Except.ok.injEq] at h
                subst h
                have a1 := read_int_line_le _ _ _ h1
                have a2 := read_int_line_le _ _ _ h2
                have a3 := read_int_line_le _ _ _ h3
                have b1 := readTerminals_length _ _ _ _ _ hT
                obtain ⟨b2, b3⟩ := readNonTerminals_sorted _ _ _ _ _ _ _ hN List.sorted_nil
                have b4 := readProductions_length _ _ _ _ hP
                simp only [List.length_nil, Nat.zero_add] at b1 b3 b4
                exact ⟨Nat.le_trans b1 a1, Nat.le_trans b3 a2, by rw [b4]; exact a3, b2⟩

theorem reread_of_chars (p : Production) (h : ∀ tok ∈ p.rhs, ∃ c, tok = [c]) :
    reread p = p := by
  have e : ∀ rhs : List Str, (∀ tok ∈ rhs, ∃ c, tok = [c]) →
      (RhsToString rhs).map (fun c => [c]) = rhs := by
    intro rhs
    induction rhs with
    | nil => intro _; rfl
    | cons tok rhs ih =>
      intro h2
      obtain ⟨c, rfl⟩ := h2 tok (List.mem_cons_self _ _)
      have := ih (fun t ht => h2 t (List.mem_cons_of_mem _ ht))
      simp only [RhsToString] at this ⊢
      simp [this]
  unfold reread
  rw [e p.rhs h]

theorem Writable_of_loaded (text : Str) (g : Grammar) (hload : ReadFromFile text = .ok g)
    (hv : Validated g) : Writable g := by
  have hl := Loaded_of_ok text g hload
  obtain ⟨s1, s2, s3, _⟩ := sizes_of_ok text g hload
  refine ⟨s1, s2, s3, hl.terminals_trim, ?_, ?_, ?_⟩
  · intro e
    have := hl.start_mem
    rw [e] at this
    simp at this
  · intro nt hnt
    obtain ⟨c, rfl, hc⟩ := hv.nonterminals_ok nt hnt
    refine ⟨by simp, ?_⟩
    intro d hd
    simp only [List.mem_singleton] at hd
    subst hd
    exact not_trim_of_not_space d (not_space_of_upper d hc)
  · intro p hp
    refine ⟨hl.lhs_word p hp, ?_, ?_⟩
    · rcases hr : p.rhs with _ | ⟨tok, rest⟩
      · exact absurd hr (hl.rhs_ne p hp)
      · obtain ⟨c, hc, _⟩ := hl.rhs_one p hp tok (by rw [hr]; exact List.mem_cons_self _ _)
        simp [RhsToString, hc]
    · intro c hc
      simp only [RhsToString, List.mem_flatten] at hc
      obtain ⟨tok, htok, hin⟩ := hc
      obtain ⟨d, hd, hsp⟩ := hl.rhs_one p hp tok htok
      rw [hd] at hin
      simp only [List.mem_singleton] at hin
      rw [hin]; exact hsp

/-- C24. For a grammar read by `ReadFromFile` and accepted by `ValidateFormat`, reading
the text that `WriteToFile` writes for it succeeds and gives a grammar with the same
terminal set, the same non-terminal set and the same list of productions (same order, same
left-hand sides, same tokens of the right-hand sides). -/
theorem C24_write_then_read (text : Str) (g : Grammar)
    (hload : ReadFromFile text = .ok g) (hval : ValidateFormat g = .ok ()) :
    ∃ g2, ReadFromFile (WriteToFile g) = .ok g2 ∧ g2.terminals_ = g.terminals_ ∧
      g2.nonterminals_ = g.nonterminals_ ∧ g2.productions_ = g.productions_ := by
  have hl := Loaded_of_ok text g hload
  have hv := Validated_of_ok g hval
  obtain ⟨start, rest, _, hread⟩ := ReadFromFile_WriteToFile g (Writable_of_loaded text g hload hv)
  refine ⟨_, hread, ?_, ?_, ?_⟩
  · have := foldl_set_insert_sorted g.terminals_ []
      (by simpa using terminals_sorted_of_ok text g hload)
    simpa using this
  · have := foldl_set_insert_sorted g.nonterminals_ []
      (by simpa using (sizes_of_ok text g hload).2.2.2)
    simpa using this
  · simp only
    have : ∀ ps : List Production, (∀ p ∈ ps, ∀ tok ∈ p.rhs, ∃ c, tok = [c]) →
        ps.map reread = ps := by
      intro ps h
      induction ps with
      | nil => rfl
      | cons p ps ih =>
        rw [List.map_cons, reread_of_chars p (h p (List.mem_cons_self _ _)),
          ih (fun q hq => h q (List.mem_cons_of_mem _ hq))]
    apply this
    intro p hp tok htok
    obtain ⟨c, hc, _⟩ := hl.rhs_one p hp tok htok
    exact ⟨c, hc⟩

theorem C24_write_then_read_witness :
    ∃ g2, ReadFromFile (WriteToFile declaredExample) = .ok g2 ∧
      g2.terminals_ = declaredExample.terminals_ ∧
      g2.nonterminals_ = declaredExample.nonterminals_ ∧
      g2.productions_ = declaredExample.productions_ :=
  C24_write_then_read declaredText declaredExample rfl rfl

/-! ## Blank lines -/

theorem TrimString_blank (b : Str) (h : isBlankLine b = true) : TrimString b = [] := by
  have hall : ∀ c ∈ b, isTrimChar c = true := by
    intro c hc
    have := List.all_eq_true.mp h c hc
    simp only [Bool.or_eq_true, decide_eq_true_eq] at this
    simp only [isTrimChar, Bool.or_eq_true, decide_eq_true_eq]
    tauto
  unfold TrimString
  have : b.dropWhile isTrimChar = [] := by
    rw [List.dropWhile_eq_nil_iff]
    exact hall
  rw [this]
  rfl

theorem BlankInserted_refl (ls : List Str) : BlankInserted ls ls := by
  induction ls with
  | nil => exact .done
  | cons l ls ih => exact .keep l ls ls ih

theorem read_int_line_blank (ls ls2 : List Str) (h : BlankInserted ls ls2) :
    (∀ e, read_int_line ls = .error e → read_int_line ls2 = .error e) ∧
    (∀ n r, read_int_line ls = .ok (n, r) →
      ∃ r2, read_int_line ls2 = .ok (n, r2) ∧ BlankInserted r r2) := by
  induction h with
  | done => exact ⟨fun e h => h, fun n r h => by simp [read_int_line] at h⟩
  | keep l ls ls2 hb ih =>
    by_cases hl : TrimString l = []
    · simp only [read_int_line, if_pos hl]
      exact ih
    · simp only [read_int_line, if_neg hl]
      cases extractInt (TrimString l) with
      | none => exact ⟨fun e h => h, fun n r h => by cases h⟩
      | some out =>
        refine ⟨fun e h => (by cases h), fun n r h => ?_⟩
        simp only [Except.ok.injEq, Prod.mk.injEq] at h
        obtain ⟨rfl, rfl⟩ := h
        exact ⟨ls2, rfl, hb⟩
  | blank b ls ls2 hblank hb ih =>
    simp only [read_int_line, if_pos (TrimString_blank b hblank)]
    exact ih

theorem readTerminals_blank (ls ls2 : List Str) (h : BlankInserted ls ls2) :
    ∀ (n : Nat) (acc : List Char),
      (∀ e, readTerminals n ls acc = .error e → readTerminals n ls2 acc = .error e) ∧
      (∀ ts r, readTerminals n ls acc = .ok (ts, r) →
        ∃ r2, readTerminals n ls2 acc = .ok (ts, r2) ∧ BlankInserted r r2) := by
  induction h with
  | done =>
    intro n acc
    refine ⟨fun e h => h, fun ts r h => ⟨r, h, ?_⟩⟩
    cases n with
    | zero =>
      simp only [readTerminals, Except.ok.injEq, Prod.mk.injEq] at h
      rw [← h.2]; exact .done
    | succ n => simp [readTerminals] at h
  | keep l ls ls2 hb ih =>
    intro n acc
    cases n with
    | zero =>
      simp only [readTerminals]
      refine ⟨fun e h => (by cases h), fun ts r h => ?_⟩
      simp only [Except.ok.injEq, Prod.mk.injEq] at h
      obtain ⟨rfl, rfl⟩ := h
      exact ⟨l :: ls2, rfl, .keep l ls ls2 hb⟩
    | succ n =>
      by_cases hl : TrimString l = []
      · simp only [readTerminals, if_pos hl]
        exact ih (n + 1) acc
      · simp only [readTerminals, if_neg hl]
        split
        · exact ih n _
        · exact ⟨fun e h => h, fun ts r h => by cases h⟩
  | blank b ls ls2 hblank hb ih =>
    intro n acc
    cases n with
    | zero =>
      have e : ∀ x : List Str, readTerminals 0 x acc = .ok (acc, x) := by
        intro x; cases x <;> rfl
      rw [e, e]
      refine ⟨fun e h => (by cases h), fun ts r h => ?_⟩
      simp only [Except.ok.injEq, Prod.mk.injEq] at h
      obtain ⟨rfl, rfl⟩ := h
      exact ⟨b :: ls2, rfl, .blank b _ ls2 hblank hb⟩
    | succ n =>
      have e : readTerminals (n + 1) (b :: ls2) acc = readTerminals (n + 1) ls2 acc := by
        simp only [readTerminals, if_pos (TrimString_blank b hblank)]
      rw [e]
      exact ih (n + 1) acc

theorem readNonTerminals_blank (ls ls2 : List Str) (h : BlankInserted ls ls2) :
    ∀ (n : Nat) (nt_list nts : List Str),
      (∀ e, readNonTerminals n ls nt_list nts = .error e →
        readNonTerminals n ls2 nt_list nts = .error e) ∧
      (∀ a b r, readNonTerminals n ls nt_list nts = .ok (a, b, r) →
        ∃ r2, readNonTerminals n ls2 nt_list nts = .ok (a, b, r2) ∧ BlankInserted r r2) := by
  induction h with
  | done =>
    intro n nt_list nts
    refine ⟨fun e h => h, fun a b r h => ⟨r, h, ?_⟩⟩
    cases n with
    | zero =>
      simp only [readNonTerminals, Except.ok.injEq, Prod.mk.injEq] at h
      rw [← h.2.2]; exact .done
    | succ n => simp [readNonTerminals] at h
  | keep l ls ls2 hb ih =>
    intro n nt_list nts
    cases n with
    | zero =>
      simp only [readNonTerminals]
      refine ⟨fun e h => (by cases h), fun a b r h => ?_⟩
      simp only [Except.ok.injEq, Prod.mk.injEq] at h
      obtain ⟨rfl, rfl, rfl⟩ := h
      exact ⟨l :: ls2, rfl, .keep l ls ls2 hb⟩
    | succ n =>
      by_cases hl : TrimString l = []
      · simp only [readNonTerminals, if_pos hl]
        exact ih (n + 1) nt_list nts
      · simp only [readNonTerminals, if_neg hl]
        exact ih n _ _
  | blank b ls ls2 hblank hb ih =>
    intro n nt_list nts
    cases n with
    | zero =>
      have e : ∀ x : List Str, readNonTerminals 0 x nt_list nts = .ok (nt_list, nts, x) := by
        intro x; cases x <;> rfl
      rw [e, e]
      refine ⟨fun e h => (by cases h), fun a b2 r h => ?_⟩
      simp only [Except.ok.injEq, Prod.mk.injEq] at h
      obtain ⟨rfl, rfl, rfl⟩ := h
      exact ⟨b :: ls2, rfl, .blank b _ ls2 hblank hb⟩
    | succ n =>
      have e : readNonTerminals (n + 1) (b :: ls2) nt_list nts
          = readNonTerminals (n + 1) ls2 nt_list nts := by
        simp only [readNonTerminals, if_pos (TrimString_blank b hblank)]
      rw [e]
      exact ih (n + 1) nt_list nts

theorem readProductions_blank (ls ls2 : List Str) (h : BlankInserted ls ls2) :
    ∀ (n : Nat) (ps : List Production),
      readProductions n ls2 ps = readProductions n ls ps := by
  induction h with
  | done => intro n ps; rfl
  | keep l ls ls2 hb ih =>
    intro n ps
    cases n with
    | zero => rfl
    | succ n =>
      by_cases hl : TrimString l = []
      · simp only [readProductions, if_pos hl]
        exact ih (n + 1) ps
      · simp only [readProductions, if_neg hl]
        cases parseProduction (TrimString l) with
        | error e => rfl
        | ok prod => exact ih n _
  | blank b ls ls2 hblank hb ih =>
    intro n ps
    cases n with
    | zero =>
      have e : ∀ x : List Str, readProductions 0 x ps = .ok ps := by
        intro x; cases x <;> rfl
      rw [e, e]
    | succ n =>
      have e : readProductions (n + 1) (b :: ls2) ps = readProductions (n + 1) ls2 ps := by
        simp only [readProductions, if_pos (TrimString_blank b hblank)]
      rw [e]
      exact ih (n + 1) ps

theorem splitLines_newline_ne (pre : Str) : splitLines (pre ++ ['\n']) ≠ [] := by
  induction pre with
  | nil => simp [splitLines]
  | cons c pre ih =>
    rw [List.cons_append, splitLines]
    split
    · simp
    · split <;> simp

theorem splitLines_append (pre x : Str) :
    splitLines (pre ++ ['\n'] ++ x) = splitLines (pre ++ ['\n']) ++ splitLines x := by
  induction pre with
  | nil => simp [splitLines]
  | cons c pre ih =>
    have hne := splitLines_newline_ne pre
    simp only [List.cons_append, List.append_assoc] at ih ⊢
    by_cases hc : c = '\n'
    · rw [splitLines, if_pos hc, ih, splitLines, if_pos hc]
      rfl
    · rw [splitLines, if_neg hc, ih, splitLines, if_neg hc]
      rcases hs : splitLines (pre ++ ['\n']) with _ | ⟨l, ls⟩
      · exact absurd hs hne
      · rfl

theorem BlankInserted_append_left (L : List Str) (ls ls2 : List Str)
    (h : BlankInserted ls ls2) : BlankInserted (L ++ ls) (L ++ ls2) := by
  induction L with
  | nil => exact h
  | cons l L ih => exact .keep l _ _ ih

/-- A blank line put into a text at the start of a line, that is at the start of the text
or behind a `\n`, is a blank line inserted among its lines. -/
theorem blank_line_in_text (pre post b : Str) (hb : isBlankLine b = true)
    (hpre : pre = [] ∨ ∃ pre0, pre = pre0 ++ ['\n']) :
    BlankInserted (splitLines (pre ++ post)) (splitLines (pre ++ (b ++ '\n' :: post))) := by
  have hnl : '\n' ∉ b := by
    intro hin
    have := List.all_eq_true.mp hb _ hin
    revert this
    decide
  have hline : BlankInserted (splitLines post) (splitLines (b ++ '\n' :: post)) := by
    rw [splitLines_line b post hnl]
    exact .blank b _ _ hb (BlankInserted_refl _)
  rcases hpre with rfl | ⟨pre0, rfl⟩
  · exact hline
  · rw [splitLines_append, splitLines_append]
    exact BlankInserted_append_left _ _ _ hline

/-- C22. When the lines of the text `text2` are the lines of the text `text` with blank
lines inserted (lines that are empty or hold only spaces, tabs and carriage returns, any
number of them, at any places), `ReadFromFile` has the same outcome on both: the same
error, or the same grammar (terminals, non-terminals, start symbol, productions). By
`blank_line_in_text` a blank line put into the text at the start of any line is such an
insertion. -/
theorem C22_blank_lines_tolerated (text text2 : Str)
    (h : BlankInserted (splitLines text) (splitLines text2)) :
    ReadFromFile text2 = ReadFromFile text := by
  unfold ReadFromFile
  obtain ⟨a1, a2⟩ := read_int_line_blank _ _ h
  cases h1 : read_int_line (splitLines text) with
  | error e => rw [a1 e h1]
  | ok r1 =>
    obtain ⟨n_terms, ls1⟩ := r1
    obtain ⟨ls1b, e1, hb1⟩ := a2 _ _ h1
    rw [e1]
    simp only
    obtain ⟨b1, b2⟩ := readTerminals_blank _ _ hb1 n_terms.toNat []
    cases h2 : readTerminals n_terms.toNat ls1 [] with
    | error e => rw [b1 e h2]
    | ok r2 =>
      obtain ⟨terminals, ls2⟩ := r2
      obtain ⟨ls2b, e2, hb2⟩ := b2 _ _ h2
      rw [e2]
      simp only
      obtain ⟨c1, c2⟩ := read_int_line_blank _ _ hb2
      cases h3 : read_int_line ls2 with
      | error e => rw [c1 e h3]
      | ok r3 =>
        obtain ⟨n_nt, ls3⟩ := r3
        obtain ⟨ls3b, e3, hb3⟩ := c2 _ _ h3
        rw [e3]
        simp only
        obtain ⟨d1, d2⟩ := readNonTerminals_blank _ _ hb3 n_nt.toNat [] []
        cases h4 : readNonTerminals n_nt.toNat ls3 [] [] with
        | error e => rw [d1 e h4]
        | ok r4 =>
          obtain ⟨nt_list, nonterminals, ls4⟩ := r4
          obtain ⟨ls4b, e4, hb4⟩ := d2 _ _ _ h4
          rw [e4]
          simp only
          cases nt_list with
          | nil => rfl
          | cons start tl =>
            simp only
            obtain ⟨f1, f2⟩ := read_int_line_blank _ _ hb4
            cases h5 : read_int_line ls4 with
            | error e => rw [f1 e h5]
            | ok r5 =>
              obtain ⟨pcount, ls5⟩ := r5
              obtain ⟨ls5b, e5, hb5⟩ := f2 _ _ h5
              rw [e5]
              simp only
              rw [readProductions_blank _ _ hb5]

theorem C22_blank_lines_tolerated_witness :
    BlankInserted (splitLines aSbText) (splitLines aSbBlankText) ∧
    ReadFromFile aSbBlankText = ReadFromFile aSbText ∧
    ReadFromFile aSbBlankText = .ok aSbGrammar :=
  have h : BlankInserted (splitLines aSbText) (splitLines aSbBlankText) :=
    .blank _ _ _ rfl (.keep _ _ _ (.keep _ _ _ (.blank _ _ _ rfl (.keep _ _ _ (.keep _ _ _
      (.keep _ _ _ (.keep _ _ _ (.blank _ _ _ rfl (.keep _ _ _
        (.blank _ _ _ rfl .done))))))))))
  ⟨h, C22_blank_lines_tolerated aSbText aSbBlankText h, rfl⟩

/-! ## A second transformation changes nothing -/

theorem candidateAt_not_terminal (t : Char) (j : Nat) :
    isTerminalTok (candidateAt ['C', t] j) = false := by
  unfold candidateAt
  split
  · rfl
  · rcases h : to_string j with _ | ⟨d, ds⟩
    · exact absurd h (to_string_spec j).1
    · rfl

theorem TerminalToNonTerminal_named (g : Grammar) (t : Char) (name : Str) (g1 : Grammar)
    (hmap : MapNamed g) (h : TerminalToNonTerminal g t = some (name, g1)) :
    isTerminalTok name = false ∧ MapNamed g1 ∧
    ∃ extra, g1.productions_ = g.productions_ ++ extra ∧ ∀ p ∈ extra, p.rhs.length = 1 := by
  obtain ⟨j, hfind, _, _⟩ := findCandidate_total g.nonterminals_ ['C', t]
  unfold TerminalToNonTerminal at h
  split at h
  · rename_i nt hl
    simp only [Option.some.injEq, Prod.mk.injEq] at h
    obtain ⟨rfl, rfl⟩ := h
    exact ⟨hmap _ (mem_of_lookup _ _ _ hl), hmap, [], by simp, by simp⟩
  · rw [hfind] at h
    simp only [Option.some.injEq, Prod.mk.injEq] at h
    obtain ⟨rfl, rfl⟩ := h
    refine ⟨candidateAt_not_terminal t j, ?_, _, rfl, by simp⟩
    intro e he
    rcases List.mem_append.mp he with h1 | h1
    · exact hmap e h1
    · simp only [List.mem_singleton] at h1
      rw [h1]
      exact candidateAt_not_terminal t j

theorem isolateTokens_named (toks : List Str) :
    ∀ (g : Grammar) (toks1 : List Str) (g1 : Grammar), MapNamed g →
      isolateTokens g toks = some (toks1, g1) →
      (∀ tok ∈ toks1, isTerminalTok tok = false) ∧ MapNamed g1 ∧
      ∃ extra, g1.productions_ = g.productions_ ++ extra ∧
        ∀ p ∈ extra, p.rhs.length = 1 := by
  induction toks with
  | nil =>
    intro g toks1 g1 hmap h
    simp only [isolateTokens, Option.some.injEq, Prod.mk.injEq] at h
    obtain ⟨rfl, rfl⟩ := h
    exact ⟨by simp, hmap, [], by simp, by simp⟩
  | cons tok toks ih =>
    intro g toks1 g1 hmap h
    have hother : isTerminalTok tok = false → (match isolateTokens g toks with
        | none => none
        | some (toks1, g1) => some (tok :: toks1, g1)) = some (toks1, g1) →
        (∀ tok ∈ toks1, isTerminalTok tok = false) ∧ MapNamed g1 ∧
        ∃ extra, g1.productions_ = g.productions_ ++ extra ∧
          ∀ p ∈ extra, p.rhs.length = 1 := by
      intro hnot h2
      cases hr : isolateTokens g toks with
      | none => rw [hr] at h2; cases h2
      | some r =>
        obtain ⟨ta, ga⟩ := r
        rw [hr] at h2
        simp only [Option.some.injEq, Prod.mk.injEq] at h2
        obtain ⟨rfl, rfl⟩ := h2
        obtain ⟨ha, hb, hc⟩ := ih g ta ga hmap hr
        refine ⟨?_, hb, hc⟩
        intro x hx
        rcases List.mem_cons.mp hx with rfl | hx
        · exact hnot
        · exact ha x hx
    rcases tok with _ | ⟨t, _ | ⟨v, rest⟩⟩
    · exact hother rfl (by simpa only [isolateTokens] using h)
    · by_cases hu : isupper t = true
      · exact hother (by simp [isTerminalTok, hu])
          (by simpa only [isolateTokens, hu, if_true] using h)
      · simp only [isolateTokens, hu] at h
        cases hr : TerminalToNonTerminal g t with
        | none => rw [hr] at h; simp at h
        | some r =>
          obtain ⟨name, ga⟩ := r
          rw [hr] at h
          simp only [Bool.false_eq_true, if_false] at h
          cases hr2 : isolateTokens ga toks with
          | none => rw [hr2] at h; cases h
          | some r2 =>
            obtain ⟨tb, gb⟩ := r2
            rw [hr2] at h
            simp only [Option.some.injEq, Prod.mk.injEq] at h
            obtain ⟨rfl, rfl⟩ := h
            obtain ⟨n1, n2, ea, hea, hea2⟩ := TerminalToNonTerminal_named g t name ga hmap hr
            obtain ⟨m1, m2, eb, heb, heb2⟩ := ih ga tb gb n2 hr2
            refine ⟨?_, m2, ea ++ eb, by rw [heb, hea, List.append_assoc], ?_⟩
            · intro x hx
              rcases List.mem_cons.mp hx with rfl | hx
              · exact n1
              · exact m1 x hx
            · intro p hp
              rcases List.mem_append.mp hp with h3 | h3
              · exact hea2 p h3
              · exact heb2 p h3
    · exact hother rfl (by simpa only [isolateTokens] using h)

/-- After the first loop no right-hand side of two tokens or more holds a terminal token,
in every grammar whose map holds no terminal token as a name. -/
theorem firstLoop_named (count : Nat) :
    ∀ (i : Nat) (g g1 : Grammar), firstLoop count i g = some g1 →
      i + count ≤ g.productions_.length → MapNamed g →
      (∀ j p, g.productions_[j]? = some p → (j < i ∨ i + count ≤ j) →
        2 ≤ p.rhs.length → ∀ tok ∈ p.rhs, isTerminalTok tok = false) →
      MapNamed g1 ∧ ∀ p ∈ g1.productions_, 2 ≤ p.rhs.length →
        ∀ tok ∈ p.rhs, isTerminalTok tok = false := by
  induction count with
  | zero =>
    intro i g g1 h _ hmap hinv
    simp only [firstLoop, Option.some.injEq] at h
    subst h
    refine ⟨hmap, ?_⟩
    intro p hp
    obtain ⟨j, hj⟩ := List.mem_iff_getElem?.mp hp
    exact hinv j p hj (by omega)
  | succ count ih =>
    intro i g g1 h hlen hmap hinv
    have hi : i < g.productions_.length := by omega
    simp only [firstLoop, List.getElem?_eq_getElem hi] at h
    by_cases h2 : 2 ≤ (g.productions_[i]).rhs.length
    · rw [if_pos h2] at h
      cases hr : isolateTokens g (g.productions_[i]).rhs with
      | none => rw [hr] at h; cases h
      | some r =>
        obtain ⟨rhs1, ga⟩ := r
        rw [hr] at h
        obtain ⟨ha, hb, extra, hex, hex2⟩ := isolateTokens_named _ g rhs1 ga hmap hr
        refine ih (i + 1) _ g1 h
          (by simp only [List.length_set, hex, List.length_append]; omega) hb ?_
        intro j p hjp hj
        simp only at hjp
        by_cases hji : j = i
        · subst hji
          rw [List.getElem?_set_self (by rw [hex, List.length_append]; omega)] at hjp
          simp only [Option.some.injEq] at hjp
          subst hjp
          exact fun _ => ha
        · rw [List.getElem?_set_ne (fun e => hji e.symm), hex] at hjp
          by_cases hjl : j < g.productions_.length
          · rw [List.getElem?_append_left hjl] at hjp
            exact hinv j p hjp (by omega)
          · have hmem : p ∈ extra := by
              rw [List.getElem?_append_right (by omega)] at hjp
              exact List.mem_iff_getElem?.mpr ⟨_, hjp⟩
            intro hlong
            have := hex2 p hmem
            omega
    · rw [if_neg h2] at h
      refine ih (i + 1) g g1 h (by omega) hmap ?_
      intro j p hjp hj
      by_cases hji : j = i
      · subst hji
        rw [List.getElem?_eq_getElem hi] at hjp
        simp only [Option.some.injEq] at hjp
        subst hjp
        exact fun hlong => absurd hlong h2
      · exact hinv j p hjp (by omega)

theorem dName_not_terminal (j : Nat) : isTerminalTok (dName j) = false := by
  have := dName_length j
  rcases h : dName j with _ | ⟨c, _ | ⟨d, r⟩⟩
  · rw [h] at this; simp at this
  · rw [h] at this; simp at this
  · rfl

/-- The productions after the second loop have at most two tokens, and those of two tokens
hold no terminal token when the right-hand sides of two tokens or more held none. -/
theorem binarize_named (ps : List Production) (k : Nat)
    (h : ∀ p ∈ ps, 2 ≤ p.rhs.length → ∀ tok ∈ p.rhs, isTerminalTok tok = false) :
    ∀ q ∈ binarize k ps, q.rhs.length ≤ 2 ∧
      (q.rhs.length = 2 → ∀ tok ∈ q.rhs, isTerminalTok tok = false) := by
  intro q hq
  rcases mem_binarize ps k q hq with ⟨hin, hlen⟩ | ⟨p, hp, h3, k2, hch⟩
  · exact ⟨hlen, fun h2 => h q hin (by omega)⟩
  · obtain ⟨b, c, hrhs, hb, hc⟩ := mem_chain p.rhs k2 p.lhs q (by omega) hch
    rw [hrhs]
    refine ⟨by simp, fun _ tok htok => ?_⟩
    simp only [List.mem_cons, List.mem_singleton, List.not_mem_nil, or_false] at htok
    rcases htok with rfl | rfl
    · exact h p hp (by omega) _ hb
    · rcases hc with hc | ⟨j, rfl⟩
      · exact h p hp (by omega) _ hc
      · exact dName_not_terminal j

/-- In every state that the operations of the class build, no name stored in the map of
the auxiliaries is a terminal token. -/
theorem MapNamed_of_built (g : Grammar) (h : Built g) : MapNamed g := by
  induction h with
  | constructed => intro e he; simp [Grammar.empty] at he
  | read text g hload =>
    intro e he
    rw [(Loaded_of_ok text g hload).map_empty] at he
    simp at he
  | transformed g g2 _ ht ih =>
    obtain ⟨g1, h1, _⟩ := firstLoop_total g.productions_.length 0 g (by omega)
    obtain ⟨hm, _⟩ := firstLoop_named _ 0 g g1 h1 (by omega) ih
      (fun j p hjp hj => by
        have : j < g.productions_.length := by
          by_contra hge
          rw [List.getElem?_eq_none (by omega)] at hjp
          cases hjp
        omega)
    simp only [TransformToCNF, h1, secondLoop_spec, Option.some.injEq] at ht
    subst ht
    intro e he
    simp only [addDs_map] at he
    exact hm e he

/-- C23. `TransformToCNF` applied to the grammar that `TransformToCNF` returns changes
nothing: the second call returns the very same state (productions, non-terminal set,
terminal set, map of the auxiliaries, counter of the `D` names and start symbol). This
holds of every grammar, validated or not, in which no name stored in the map of the
auxiliaries is a terminal token, which is the case in every state that the class builds
(the map is empty after the constructor and after `ReadFromFile`, and `TransformToCNF`
stores only names that start with `C` and have two characters or more); the result is
again such a state. -/
theorem C23_transform_idempotent (g : Grammar) (hmap : MapNamed g) :
    ∃ g2, TransformToCNF g = some g2 ∧ TransformToCNF g2 = some g2 ∧ MapNamed g2 := by
  obtain ⟨g1, h1, _⟩ := firstLoop_total g.productions_.length 0 g (by omega)
  obtain ⟨hm, hgood⟩ := firstLoop_named _ 0 g g1 h1 (by omega) hmap
    (fun j p hjp hj => by
      have : j < g.productions_.length := by
        by_contra hge
        rw [List.getElem?_eq_none (by omega)] at hjp
        cases hjp
      omega)
  have hbin := binarize_named g1.productions_ g1.counter_d_ hgood
  refine ⟨{ addDs (dCount g1.productions_) g1 with
            productions_ := [] ++ binarize g1.counter_d_ g1.productions_ }, ?_, ?_, ?_⟩
  · simp only [TransformToCNF, h1, secondLoop_spec]
  · simp only [List.nil_append]
    have hfirst : firstLoop (binarize g1.counter_d_ g1.productions_).length 0
        { addDs (dCount g1.productions_) g1 with
          productions_ := binarize g1.counter_d_ g1.productions_ }
        = some { addDs (dCount g1.productions_) g1 with
                 productions_ := binarize g1.counter_d_ g1.productions_ } := by
      apply firstLoop_noTerminal _ 0 _ (by simp)
      intro p hp h2
      obtain ⟨a, b⟩ := hbin p hp
      exact b (by omega)
    unfold TransformToCNF
    simp only
    rw [hfirst]
    simp only
    rw [secondLoop_short _ _ [] (fun p hp => (hbin p hp).1)]
    simp
  · intro e he
    simp only [addDs_map] at he
    exact hm e he

theorem C23_transform_idempotent_witness :
    ReadFromFile aSbText = .ok aSbGrammar ∧
    ∃ g2, TransformToCNF aSbGrammar = some g2 ∧ TransformToCNF g2 = some g2 ∧ MapNamed g2 :=
  ⟨rfl, C23_transform_idempotent aSbGrammar (fun e he => by simp [aSbGrammar] at he)⟩

/-- The condition on the map is needed for records that no operation of the class builds:
with the map entry `a -> x` the first call turns `S -> aS` into `S -> xS`, and the second
call replaces the token `x` and adds the production `Cx -> x`. -/
theorem transform_twice_unbuilt_record :
    ∃ g2 g3, TransformToCNF
        { terminals_ := ['a'], nonterminals_ := [['S']], start_symbol_ := ['S'],
          productions_ := [{ lhs := ['S'], rhs := [['a'], ['S']] }],
          counter_d_ := 0, terminal_to_nt_ := [('a', ['x'])] } = some g2 ∧
      TransformToCNF g2 = some g3 ∧ g3 ≠ g2 :=
  ⟨_, _, rfl, rfl, by decide⟩

end Grammar2CNF
